import Mathlib

/-!
Verification of the rating-exchange bot's core against its specification.

The development shallowly embeds the Rust sources:
  src/solver/flow_network.rs        (FlowNetwork, validate)
  src/solver/dinic.rs               (solve, residual / level graphs, blocking flow)
  src/utils/assignment_network.rs   (AssignmentNetwork::build, get_assignments)
  src/assignment_service.rs         (scheduler announce / assignment passes)
  src/commands/submit.rs, revoke.rs (command flow)
  src/repository/*.rs               (repository queries as pure functions)
  src/jam_types/mod.rs              (entry-link normalisation)

Machine integers: the Rust code uses u16 flows and capacities.  All the
quantities the solver manipulates stay below 2^16 on the workloads the
invariants describe, and no wrapping arithmetic is exercised on any path we
reason about, so flows and capacities are embedded as Nat.  Rust collection
iteration order (HashSet / HashMap) is unspecified; the embedding fixes the
deterministic order of the backing lists, which is one legal order.
-/

set_option autoImplicit false

namespace RatingExchange

/-- Stable insertion into a sorted list, for the SQL ORDER BY clauses. -/
def sortedInsert {α : Type} (le : α → α → Bool) (x : α) : List α → List α
  | [] => [x]
  | y :: rest => if le x y then x :: y :: rest else y :: sortedInsert le x rest

/-- Stable insertion sort, for the SQL ORDER BY clauses. -/
def sortBy {α : Type} (le : α → α → Bool) : List α → List α
  | [] => []
  | x :: rest => sortedInsert le x (sortBy le rest)

namespace flow_network

/-- A directed edge between vertex ids, from flow_network.rs (struct Edge).
The Rust field names are start and end; end is a Lean keyword, so the
second field is named stop. -/
structure Edge where
  start : Nat
  stop : Nat
deriving DecidableEq, Repr

/-- Edge::opposite. -/
def Edge.opposite (e : Edge) : Edge := ⟨e.stop, e.start⟩

/-- The free function edge(start, end) from flow_network.rs. -/
def edge (start stop : Nat) : Edge := ⟨start, stop⟩

/-- Association list from edges to Nat values (capacities or flows). -/
abbrev EMap := List (Edge × Nat)

/-- Lookup in an edge map, defaulting to 0 exactly as the Rust
unwrap_or(&0) lookups in FlowNetwork::capacity and FlowNetwork::flow do. -/
def emapGet (m : EMap) (e : Edge) : Nat :=
  match m with
  | [] => 0
  | (k, v) :: rest => if k = e then v else emapGet rest e

/-- Insert-or-replace in an edge map (HashMap::insert). -/
def emapPut (m : EMap) (e : Edge) (v : Nat) : EMap :=
  match m with
  | [] => [(e, v)]
  | (k, w) :: rest => if k = e then (e, v) :: rest else (k, w) :: emapPut rest e v

/-- The flow network from flow_network.rs.  The Rust struct keeps redundant
adjacency indexes (outgoing_edges, incoming_edges) that add_edge, remove_edge
and clear keep exactly consistent with the edge set; the embedding derives
them from the edge list instead, which coincides with the Rust contents. -/
structure FlowNetwork where
  edges : List Edge
  capacities : EMap
  flows : EMap
  source : Nat
  sink : Nat
deriving Repr

namespace FlowNetwork

/-- FlowNetwork::empty. -/
def empty (source sink : Nat) : FlowNetwork :=
  { edges := [], capacities := [], flows := [], source := source, sink := sink }

/-- FlowNetwork::add_edge: inserts or overwrites an edge together with its
capacity and flow. -/
def add_edge (n : FlowNetwork) (e : Edge) (capacity flow : Nat) : FlowNetwork :=
  { n with
    edges := if e ∈ n.edges then n.edges else n.edges ++ [e]
    capacities := emapPut n.capacities e capacity
    flows := emapPut n.flows e flow }

/-- FlowNetwork::clear: removes all edges, retains source and sink. -/
def clear (n : FlowNetwork) : FlowNetwork :=
  { n with edges := [], capacities := [], flows := [] }

/-- FlowNetwork::outgoing_edges — the adjacency index entry for a vertex. -/
def outgoing_edges (n : FlowNetwork) (v : Nat) : List Edge :=
  n.edges.filter (fun e => e.start = v)

/-- FlowNetwork::incoming_edges. -/
def incoming_edges (n : FlowNetwork) (v : Nat) : List Edge :=
  n.edges.filter (fun e => e.stop = v)

/-- FlowNetwork::flow. -/
def flow (n : FlowNetwork) (e : Edge) : Nat := emapGet n.flows e

/-- FlowNetwork::capacity. -/
def capacity (n : FlowNetwork) (e : Edge) : Nat := emapGet n.capacities e

/-- FlowNetwork::set_flow.  The Rust function asserts that the edge exists;
every call site we verify passes an existing edge, and the embedding leaves
the network unchanged where the Rust assertion would fire. -/
def set_flow (n : FlowNetwork) (e : Edge) (f : Nat) : FlowNetwork :=
  if e ∈ n.edges then { n with flows := emapPut n.flows e f } else n

/-- FlowNetwork::available_capacity = max(0, capacity - flow). -/
def available_capacity (n : FlowNetwork) (e : Edge) : Nat :=
  if n.flow e ≥ n.capacity e then 0 else n.capacity e - n.flow e

/-- The vertex set scanned by FlowNetwork::validate (all edge endpoints). -/
def vertices (n : FlowNetwork) : List Nat :=
  (n.edges.flatMap (fun e => [e.start, e.stop])).dedup

/-- Sum of flows over the incoming edges of a vertex. -/
def inflow (n : FlowNetwork) (v : Nat) : Nat :=
  ((n.incoming_edges v).map n.flow).sum

/-- Sum of flows over the outgoing edges of a vertex. -/
def outflow (n : FlowNetwork) (v : Nat) : Nat :=
  ((n.outgoing_edges v).map n.flow).sum

/-- FlowNetwork::validate, as the Boolean "no invariant fails":
per-edge flow ≤ capacity, conservation at every vertex other than source
and sink, and, when an expected total is supplied, source out-flow and sink
in-flow both equal it. -/
def validate (n : FlowNetwork) (expected_total_flow : Option Nat) : Bool :=
  n.edges.all (fun e => n.flow e ≤ n.capacity e) &&
  (n.vertices.all (fun v =>
    if v = n.source ∨ v = n.sink then true else n.inflow v = n.outflow v)) &&
  (match expected_total_flow with
   | none => true
   | some t => decide (n.outflow n.source = t) && decide (n.inflow n.sink = t))

end FlowNetwork

end flow_network

namespace dinic

open flow_network

/-- Assoc-list lookup for vertex levels (HashMap of Id to u16). -/
def levelsGet (l : List (Nat × Nat)) (v : Nat) : Option Nat :=
  match l with
  | [] => none
  | (k, n) :: rest => if k = v then some n else levelsGet rest v

/-- Insert-or-replace for vertex levels. -/
def levelsPut (l : List (Nat × Nat)) (v n : Nat) : List (Nat × Nat) :=
  match l with
  | [] => [(v, n)]
  | (k, m) :: rest => if k = v then (v, n) :: rest else (k, m) :: levelsPut rest v n

/-- construct_residual_graph from dinic.rs: clears the reusable buffer, then
for every network edge adds the forward residual edge when capacity exceeds
flow and the backward residual edge when flow is positive. -/
def construct_residual_graph (network residual : FlowNetwork) : FlowNetwork :=
  network.edges.foldl
    (fun rg e =>
      let capacity := network.capacity e
      let flow := network.flow e
      let rg := if capacity > flow then rg.add_edge e (capacity - flow) 0 else rg
      if flow > 0 then rg.add_edge e.opposite flow 0 else rg)
    residual.clear

/-- State of the BFS in construct_level_graph: the level graph being built,
the vertex-level map, the FIFO worklist of edges and the visited edge set. -/
structure BfsState where
  level_graph : FlowNetwork
  vertex_levels : List (Nat × Nat)
  worklist : List Edge
  visited : List Edge
deriving Repr

/-- One pass of the while-let worklist loop in construct_level_graph,
driven by fuel; the Rust loop runs until the worklist empties, so a drained
result (empty worklist) is the faithful outcome and the caller passes enough
fuel for that. -/
def bfsLoop (residual : FlowNetwork) : Nat → BfsState → BfsState
  | 0, st => st
  | fuel + 1, st =>
    match st.worklist with
    | [] => st
    | e :: rest =>
      let level := (levelsGet st.vertex_levels e.start).getD 0 + 1
      let add :=
        match levelsGet st.vertex_levels e.stop with
        | some previous_level => decide (level ≤ previous_level)
        | none => true
      let lg :=
        if add then
          st.level_graph.add_edge e (residual.capacity e) (residual.flow e)
        else st.level_graph
      let lv := if add then levelsPut st.vertex_levels e.stop level else st.vertex_levels
      let pushes :=
        (residual.outgoing_edges e.stop).filter (fun g => decide (g ∉ st.visited))
      bfsLoop residual fuel
        { level_graph := lg
          vertex_levels := lv
          worklist := rest ++ pushes
          visited := st.visited ++ pushes }

/-- construct_level_graph from dinic.rs: clear the buffers, seed the worklist
with the source's outgoing residual edges, set level(source) = 0 and run the
BFS worklist loop. -/
def construct_level_graph (residual : FlowNetwork) (fuel : Nat) : BfsState :=
  bfsLoop residual fuel
    { level_graph := FlowNetwork.empty residual.source residual.sink
      vertex_levels := [(residual.source, 0)]
      worklist := residual.outgoing_edges residual.source
      visited := [] }

/-- Trim the DFS path (stored with the most recent edge first, matching the
pop_back end of the Rust LinkedList) until its tail joins the popped edge. -/
def trimPath (e : Edge) : List Edge → List Edge
  | [] => []
  | t :: rest => if t.stop = e.start then t :: rest else trimPath e rest

/-- State of one DFS pass inside find_blocking_flow. -/
structure DfsState where
  worklist : List Edge
  visited : List Edge
  path : List Edge
deriving Repr

/-- Result of one DFS pass: whether the sink was reached, the final path
(most recent edge first), the remaining worklist and the visited set. -/
structure DfsResult where
  reached : Bool
  path : List Edge
  worklist : List Edge
  visited : List Edge
deriving Repr

/-- The inner while-let loop of find_blocking_flow: pop an edge from the
stack, trim the path back to its start, append it; stop on the sink;
otherwise push the unvisited outgoing edges with positive available
capacity (retreating when there are none). -/
def dfsLoop (lg : FlowNetwork) : Nat → DfsState → DfsResult
  | 0, st => { reached := false, path := st.path, worklist := st.worklist, visited := st.visited }
  | fuel + 1, st =>
    match st.worklist with
    | [] => { reached := false, path := st.path, worklist := [], visited := st.visited }
    | e :: rest =>
      let path := e :: trimPath e st.path
      if e.stop = lg.sink then
        { reached := true, path := path, worklist := rest, visited := st.visited }
      else
        let pushes :=
          (lg.outgoing_edges e.stop).filter
            (fun g => decide (lg.available_capacity g > 0 ∧ g ∉ st.visited))
        dfsLoop lg fuel
          { worklist := pushes.reverse ++ rest
            visited := st.visited ++ pushes
            path := if pushes = [] then trimPath e st.path else path }

/-- Augment the level graph along a path by a given flow, as the final for
loop of a find_blocking_flow iteration does with set_flow. -/
def augmentPath (lg : FlowNetwork) (pf : Nat) (path : List Edge) : FlowNetwork :=
  path.foldl (fun g e => g.set_flow e (g.flow e + pf)) lg

/-- The initial DFS worklist: the source's outgoing level edges, pushed to
the front one by one, so the resulting stack is their reverse. -/
def dfsInit (lg : FlowNetwork) : DfsState :=
  { worklist := (lg.outgoing_edges lg.source).reverse, visited := [], path := [] }

/-- The outer loop of find_blocking_flow, driven by fuel.  Returns the level
graph with the blocking flow written into it, the reached_sink_once flag,
and an ok flag recording that the loop exited by its own break conditions
(final DFS drained its worklist) rather than by running out of fuel. -/
def blockingLoop (dfsFuel : Nat) : Nat → FlowNetwork → Bool → (FlowNetwork × Bool × Bool)
  | 0, lg, once => (lg, once, false)
  | fuel + 1, lg, once =>
    let r := dfsLoop lg dfsFuel (dfsInit lg)
    if r.reached then
      match r.path.map lg.available_capacity with
      | [] => (lg, true, false)
      | a :: vs =>
        let pf := vs.foldl min a
        if pf = 0 then (lg, true, true)
        else blockingLoop dfsFuel fuel (augmentPath lg pf r.path) true
    else
      (lg, once, decide (r.worklist = []))

/-- The flow-adjustment loop at the bottom of each solve iteration: for each
level-graph edge with positive flow, add it to the matching network edge, or
subtract it from the opposite network edge. -/
def applyFlows (network lg : FlowNetwork) : FlowNetwork :=
  lg.edges.foldl
    (fun net e =>
      let f := lg.flow e
      if f = 0 then net
      else if e ∈ net.edges then net.set_flow e (net.flow e + f)
      else if e.opposite ∈ net.edges then net.set_flow e.opposite (net.flow e.opposite - f)
      else net)
    network

/-- Fuel that always suffices for the BFS worklist loop on a residual graph:
every edge is pushed at most once via the visited set, plus the initial
seeds, plus the possible re-push of the seeds. -/
def bfsFuelFor (rg : FlowNetwork) : Nat :=
  2 * rg.edges.length + (rg.outgoing_edges rg.source).length + 1

/-- Fuel that always suffices for one DFS pass on a level graph. -/
def dfsFuelFor (lg : FlowNetwork) : Nat :=
  2 * (lg.edges.length + (lg.outgoing_edges lg.source).length) + 1

/-- Fuel that always suffices for the blocking-flow restart loop: each
restart that augments consumes at least one unit of available capacity. -/
def blockFuelFor (lg : FlowNetwork) : Nat :=
  (lg.edges.map lg.capacity).sum + 2

/-- Result of one iteration of the solve loop. -/
structure PhaseResult where
  network : FlowNetwork
  hasBlocking : Bool
  ok : Bool
deriving Repr

/-- The tail of one solve iteration, once the level graph has been built:
search for a blocking flow and, if one was found, fold it back into the
network. -/
def phaseOnLevel (n : FlowNetwork) (st : BfsState) : PhaseResult :=
  let bfsOk := decide (st.worklist = [])
  match blockingLoop (dfsFuelFor st.level_graph) (blockFuelFor st.level_graph)
      st.level_graph false with
  | (lgf, hasB, blockOk) =>
    if hasB then
      { network := applyFlows n lgf, hasBlocking := true, ok := bfsOk && blockOk }
    else
      { network := n, hasBlocking := false, ok := bfsOk && blockOk }

/-- The tail of one solve iteration, once the residual graph has been
built. -/
def phaseOnResidual (n rg : FlowNetwork) : PhaseResult :=
  phaseOnLevel n (construct_level_graph rg (bfsFuelFor rg))

/-- One iteration of the loop in dinic::solve: build the residual graph,
build the level graph, search for a blocking flow, and if one was found
fold it back into the network. -/
def phase (n : FlowNetwork) : PhaseResult :=
  phaseOnResidual n (construct_residual_graph n (FlowNetwork.empty n.source n.sink))

/-- dinic::solve, driven by fuel for the outer loop.  The Bool is true when
the loop exited through its break (no blocking flow) with every inner loop
having drained; it is false when the fuel ran out first. -/
def solve : Nat → FlowNetwork → (FlowNetwork × Bool)
  | 0, n => (n, false)
  | fuel + 1, n =>
    let p := phase n
    if p.hasBlocking then
      let r := solve fuel p.network
      (r.1, p.ok && r.2)
    else
      (n, p.ok)

/-- Outer-loop fuel that suffices on zero-flow inputs: the total capacity
leaving the source bounds the number of augmenting phases. -/
def solveFuel (n : FlowNetwork) : Nat :=
  ((n.outgoing_edges n.source).map n.capacity).sum + 2

/-- Termination of dinic::solve on a network: some amount of outer fuel
makes the loop exit through its own break with every inner loop drained. -/
def SolveTerminates (n : FlowNetwork) : Prop :=
  ∃ fuel, (solve fuel n).2 = true

end dinic

namespace flow_network

namespace FlowNetwork

/-- Integer-valued inflow, for conservation bookkeeping. -/
def inflowZ (n : FlowNetwork) (v : Nat) : Int :=
  ((n.incoming_edges v).map (fun e => (n.flow e : Int))).sum

/-- Integer-valued outflow. -/
def outflowZ (n : FlowNetwork) (v : Nat) : Int :=
  ((n.outgoing_edges v).map (fun e => (n.flow e : Int))).sum

/-- The signed excess of a vertex: inflow minus outflow. -/
def netBalance (n : FlowNetwork) (v : Nat) : Int :=
  n.inflowZ v - n.outflowZ v

end FlowNetwork

end flow_network

namespace dinic

open flow_network

/-- The residual graph each solve iteration builds from the current
network (the reusable buffer starts out empty with the same terminals). -/
def rgOf (n : FlowNetwork) : FlowNetwork :=
  construct_residual_graph n (FlowNetwork.empty n.source n.sink)

/-- walksTo rg a p b: p is a walk along rg edges from a to b, in travel
order. -/
def walksTo (rg : FlowNetwork) : Nat → List Edge → Nat → Bool
  | a, [], b => decide (a = b)
  | a, e :: rest, b =>
    decide (e ∈ rg.edges) && decide (e.start = a) && walksTo rg e.stop rest b

/-- An augmenting path for a network: a nonempty source-to-sink walk in its
residual graph.  Every residual edge has positive residual capacity by
construction, so every such walk is augmenting. -/
def isAugPath (n : FlowNetwork) (p : List Edge) : Bool :=
  decide (p ≠ []) && walksTo (rgOf n) n.source p n.sink

/-- The BFS worklist loop as the specification words it: an edge (u,v) of
the residual graph is included iff level(v) is unknown or EQUAL to
level(u)+1, and then level(v) := level(u)+1.  Identical to bfsLoop except
for the inclusion test on an already-known level. -/
def specBfsLoop (residual : FlowNetwork) : Nat → BfsState → BfsState
  | 0, st => st
  | fuel + 1, st =>
    match st.worklist with
    | [] => st
    | e :: rest =>
      let level := (levelsGet st.vertex_levels e.start).getD 0 + 1
      let add :=
        match levelsGet st.vertex_levels e.stop with
        | some previous_level => decide (level = previous_level)
        | none => true
      let lg :=
        if add then
          st.level_graph.add_edge e (residual.capacity e) (residual.flow e)
        else st.level_graph
      let lv := if add then levelsPut st.vertex_levels e.stop level else st.vertex_levels
      let pushes :=
        (residual.outgoing_edges e.stop).filter (fun g => decide (g ∉ st.visited))
      specBfsLoop residual fuel
        { level_graph := lg
          vertex_levels := lv
          worklist := rest ++ pushes
          visited := st.visited ++ pushes }

/-- construct_level_graph as the specification words it. -/
def spec_construct_level_graph (residual : FlowNetwork) (fuel : Nat) : BfsState :=
  specBfsLoop residual fuel
    { level_graph := FlowNetwork.empty residual.source residual.sink
      vertex_levels := [(residual.source, 0)]
      worklist := residual.outgoing_edges residual.source
      visited := [] }

/-- The stack discipline of the DFS worklist in find_blocking_flow: the
worklist splits into sibling groups, one group of edges leaving the stop of
each (most-recent-first) path entry, with a final group leaving the
source. -/
def StackOk (src : Nat) : List Edge → List Edge → Prop
  | [], w => ∀ e ∈ w, e.start = src
  | t :: p, w => ∃ a b, w = a ++ b ∧ (∀ e ∈ a, e.start = t.stop) ∧ StackOk src p b

/-- A most-recent-first augmenting walk through the level graph: linked,
duplicate-free, leaving the source at its last entry, hitting the sink
exactly at its head. -/
structure SrcWalk (lg : FlowNetwork) (p : List Edge) : Prop where
  ne : p ≠ []
  sub : ∀ e ∈ p, e ∈ lg.edges
  nodup : p.Nodup
  chain : List.Chain' (fun a b => a.start = b.stop) p
  lastSrc : ∀ e, p.getLast? = some e → e.start = lg.source
  headSink : ∀ e, p.head? = some e → e.stop = lg.sink
  tailNoSink : ∀ e ∈ p.tail, e.stop ≠ lg.sink

/-- Invariant of the DFS worklist loop of find_blocking_flow. -/
structure DfsInv (lg : FlowNetwork) (st : DfsState) : Prop where
  wNodup : st.worklist.Nodup
  wMem : ∀ e ∈ st.worklist, e ∈ lg.edges
  wOrig : ∀ e ∈ st.worklist, e ∈ lg.outgoing_edges lg.source ∨ e ∈ st.visited
  pMem : ∀ e ∈ st.path, e ∈ lg.edges
  pNodup : st.path.Nodup
  pW : ∀ e ∈ st.path, e ∉ st.worklist
  pOrig : ∀ e ∈ st.path, e ∈ lg.outgoing_edges lg.source ∨ e ∈ st.visited
  chain : List.Chain' (fun a b => a.start = b.stop) st.path
  lastSrc : ∀ e, st.path.getLast? = some e → e.start = lg.source
  pNoSink : ∀ e ∈ st.path, e.stop ≠ lg.sink
  stack : StackOk lg.source st.path st.worklist

/-- Additive contribution of the flow-adjustment loop to a network edge:
the adjustment for level edge x credits x itself when the network has x. -/
def addOn (net lg : FlowNetwork) (L : List Edge) (x : Edge) : Nat :=
  if x ∈ L ∧ x ∈ net.edges then lg.flow x else 0

/-- Subtractive contribution of the flow-adjustment loop to a network edge:
the adjustment for level edge x.opposite debits x when the network lacks
x.opposite but has x. -/
def subOn (net lg : FlowNetwork) (L : List Edge) (x : Edge) : Nat :=
  if x.opposite ∈ L ∧ x.opposite ∉ net.edges ∧ x ∈ net.edges then
    lg.flow x.opposite
  else 0

/-- All edges of a network carry zero flow. -/
def AllZeroFlows (n : FlowNetwork) : Prop := ∀ x ∈ n.edges, n.flow x = 0

/-- Well-formedness of a level graph as the blocking-flow search sees it:
duplicate-free edges, no edge into the source, positive capacities, and
flows within capacities. -/
structure LgOk (lg : FlowNetwork) : Prop where
  nodup : lg.edges.Nodup
  noInto : ∀ x ∈ lg.edges, x.stop ≠ lg.source
  capPos : ∀ x ∈ lg.edges, 1 ≤ lg.capacity x
  flowLe : ∀ x ∈ lg.edges, lg.flow x ≤ lg.capacity x

/-- What one run of the blocking-flow restart loop guarantees, relating the
level graph it was given to the one it returns together with the
reached-sink-once flags. -/
structure BlockRes (lg lg' : FlowNetwork) (once once' : Bool) : Prop where
  edges : lg'.edges = lg.edges
  source : lg'.source = lg.source
  sink : lg'.sink = lg.sink
  cap : ∀ x, lg'.capacity x = lg.capacity x
  ok : LgOk lg'
  mono : ∀ x, lg.flow x ≤ lg'.flow x
  balance : (∀ v, v ≠ lg.source → v ≠ lg.sink → lg.netBalance v = 0) →
    ∀ v, v ≠ lg.source → v ≠ lg.sink → lg'.netBalance v = 0
  outMono : lg.outflow lg.source ≤ lg'.outflow lg.source
  zeroOut : AllZeroFlows lg' ∨ 1 ≤ lg'.outflow lg.source
  reachedOut : once' = true → once = true ∨ 1 ≤ lg'.outflow lg.source
  sinkStart : (∀ x, x.start = lg.sink → lg.flow x = 0) → lg.source ≠ lg.sink →
    ∀ x, x.start = lg.sink → lg'.flow x = 0

/-- The well-formedness invariants FlowNetwork::validate checks, plus the
structural side conditions under which dinic::solve preserves them: a
duplicate-free edge list with no antiparallel pair, distinct terminals,
flows within capacities, conservation away from the terminals, and quiet
terminal back-edges. -/
structure NetInvC3 (n : FlowNetwork) : Prop where
  nodup : n.edges.Nodup
  noap : ∀ e ∈ n.edges, e.opposite ∉ n.edges
  stne : n.source ≠ n.sink
  acap : ∀ e ∈ n.edges, n.flow e ≤ n.capacity e
  bal : ∀ v, v ≠ n.source → v ≠ n.sink → n.netBalance v = 0
  srcIn : ∀ e ∈ n.edges, e.stop = n.source → n.flow e = 0
  sinkOut : ∀ e ∈ n.edges, e.start = n.sink → n.flow e = 0

/-- The invariant that drives termination of solve from a zero start on an
arbitrary network: source out-edge flows stay within capacity and source
in-edges keep zero flow. -/
structure NetInvT (n : FlowNetwork) : Prop where
  nodup : n.edges.Nodup
  srcCap : ∀ e ∈ n.edges, e.start = n.source → n.flow e ≤ n.capacity e
  srcIn : ∀ e ∈ n.edges, e.stop = n.source → n.flow e = 0

/-- Structural invariant of the BFS worklist loop relative to the residual
graph it explores: the source keeps level 0, the level graph under
construction copies residual capacities with zero flows, never contains an
edge into the source, and stays inside the residual edge set. -/
structure BfsBasic (rg : FlowNetwork) (st : BfsState) : Prop where
  srcLevel : levelsGet st.vertex_levels rg.source = some 0
  lgSource : st.level_graph.source = rg.source
  lgSink : st.level_graph.sink = rg.sink
  lgNodup : st.level_graph.edges.Nodup
  lgSub : ∀ e ∈ st.level_graph.edges, e ∈ rg.edges
  lgCap : ∀ e ∈ st.level_graph.edges, st.level_graph.capacity e = rg.capacity e
  lgFlow : ∀ e, st.level_graph.flow e = 0
  noInto : ∀ e ∈ st.level_graph.edges, e.stop ≠ rg.source
  wlSub : ∀ e ∈ st.worklist, e ∈ rg.edges

/-- The candidate level the BFS pop computes for an edge: the level of its
start vertex (defaulting to 0, as the Rust unwrap_or does) plus one. -/
def bval (L : List (Nat × Nat)) (g : Edge) : Nat := (levelsGet L g.start).getD 0 + 1

/-- A vertex has been assigned a level. -/
def Leveled (L : List (Nat × Nat)) (v : Nat) : Prop := ∃ k, levelsGet L v = some k

/-- Every residual out-edge of the vertex is already in the visited set, so
a pop stopping there pushes nothing. -/
def Expanded (rg : FlowNetwork) (visited : List Edge) (v : Nat) : Prop :=
  ∀ x ∈ rg.outgoing_edges v, x ∈ visited

/-- The invariant under which the BFS worklist loop of
construct_level_graph runs in lockstep with its specification wording: the
source keeps level 0, worklist edges lie in the residual graph with leveled
starts, any known level of a worklist edge stop is at most the candidate
the pop will compute, the queue is value-monotone up to re-pushed source
edges and spans a window of two consecutive values up to expanded stops,
leveled non-source vertices are fully expanded, known levels stay one step
ahead of the queue, and the loop is either still draining a tail of the
initial source seeds (with all levels at most one) or every source seed
stop is leveled at most one. -/
structure BfsEq (rg : FlowNetwork) (st : BfsState) : Prop where
  src0 : levelsGet st.vertex_levels rg.source = some 0
  qrg : ∀ g ∈ st.worklist, g ∈ rg.edges
  starts : ∀ g ∈ st.worklist, Leveled st.vertex_levels g.start
  popb : ∀ g ∈ st.worklist, ∀ k, levelsGet st.vertex_levels g.stop = some k →
    k ≤ bval st.vertex_levels g
  mono : st.worklist.Pairwise (fun g h =>
    bval st.vertex_levels g ≤ bval st.vertex_levels h ∨ h.start = rg.source)
  win : st.worklist.Pairwise (fun g h =>
    bval st.vertex_levels h ≤ bval st.vertex_levels g + 1 ∨
      Expanded rg st.visited g.stop)
  exp : ∀ v, v ≠ rg.source → Leveled st.vertex_levels v →
    Expanded rg st.visited v
  levq : ∀ v k, levelsGet st.vertex_levels v = some k → ∀ g ∈ st.worklist,
    k ≤ bval st.vertex_levels g + 1 ∨ Leveled st.vertex_levels g.stop
  phase : (∃ S B, st.worklist = S ++ B ∧ S ≠ [] ∧
      (∀ g ∈ S, g ∈ rg.outgoing_edges rg.source) ∧
      (∀ h ∈ rg.outgoing_edges rg.source, h ∈ S ∨
        ∃ k, levelsGet st.vertex_levels h.stop = some k ∧ k ≤ 1) ∧
      (∀ v k, levelsGet st.vertex_levels v = some k → k ≤ 1) ∧
      (∀ g ∈ B, g.start = rg.source → Expanded rg st.visited rg.source)) ∨
    ((∀ h ∈ rg.outgoing_edges rg.source,
        ∃ k, levelsGet st.vertex_levels h.stop = some k ∧ k ≤ 1) ∧
      (∀ g ∈ st.worklist, g.start = rg.source →
        Expanded rg st.visited rg.source))

/-- Coverage facts the BFS worklist loop maintains on top of BfsEq: every
visited edge is either still queued or its stop has been leveled, and every
leveled vertex other than the source has an in-edge already recorded in the
level graph from a vertex leveled exactly one less. -/
structure BfsCov (rg : FlowNetwork) (st : BfsState) : Prop where
  vis : ∀ e ∈ st.visited, e ∈ st.worklist ∨ Leveled st.vertex_levels e.stop
  pre : ∀ v k, levelsGet st.vertex_levels v = some k → v = rg.source ∨
    ∃ e ∈ st.level_graph.edges, e.stop = v ∧
      ∃ j, levelsGet st.vertex_levels e.start = some j ∧ j + 1 = k

/-- The per-edge step of construct_residual_graph, named for fold
reasoning. -/
def residStep (network : FlowNetwork) (rg : FlowNetwork) (e : Edge) : FlowNetwork :=
  let capacity := network.capacity e
  let flow := network.flow e
  let rg := if capacity > flow then rg.add_edge e (capacity - flow) 0 else rg
  if flow > 0 then rg.add_edge e.opposite flow 0 else rg

/-- The per-edge step of the flow-adjustment loop, named for fold
reasoning. -/
def applyStep (lg : FlowNetwork) (net : FlowNetwork) (e : Edge) : FlowNetwork :=
  let f := lg.flow e
  if f = 0 then net
  else if e ∈ net.edges then net.set_flow e (net.flow e + f)
  else if e.opposite ∈ net.edges then net.set_flow e.opposite (net.flow e.opposite - f)
  else net

end dinic

namespace networks

open flow_network

/-- Build a network from an edge list of (start, stop, capacity, flow). -/
def mkNet (source sink : Nat) (es : List (Nat × Nat × Nat × Nat)) : FlowNetwork :=
  es.foldl (fun n x => n.add_edge ⟨x.1, x.2.1⟩ x.2.2.1 x.2.2.2) (FlowNetwork.empty source sink)

/-- A zero-flow network with the antiparallel pair (2,3)/(3,2) on which the
solver pushes a third augmenting path across the saturated edge (2,3),
because the residual capacity written for (2,3) comes from the flow on
(3,2) while the flow adjustment credits (2,3) itself. -/
def pairNet : FlowNetwork := mkNet 0 1
  [(0, 4, 1, 0), (0, 6, 1, 0), (0, 2, 1, 0),
   (2, 5, 1, 0), (2, 3, 1, 0),
   (3, 8, 1, 0), (3, 1, 1, 0), (3, 2, 9, 0),
   (4, 3, 1, 0), (5, 1, 1, 0), (6, 10, 1, 0), (10, 7, 1, 0), (7, 2, 1, 0),
   (8, 11, 1, 0), (11, 9, 1, 0), (9, 1, 1, 0)]

/-- A feasible flow (it satisfies FlowNetwork::validate with total 0) on
which dinic::solve never terminates: every phase augments the path
0 -> 2 -> 1 by one unit through residual edges that are regenerated from
the frozen circulation flows on (2,0) and (1,2). -/
def loopNet : FlowNetwork := mkNet 0 1
  [(0, 2, 1, 0), (2, 0, 1, 1), (2, 1, 1, 0), (1, 2, 1, 1)]

/-- The network family traversed by solve on loopNet: after k augmenting
phases the flows on (0,2) and (2,1) are k. -/
def loopNetAt (k : Nat) : FlowNetwork := mkNet 0 1
  [(0, 2, 1, k), (2, 0, 1, 1), (2, 1, 1, k), (1, 2, 1, 1)]

/-- The residual graph the solver builds from loopNetAt (j+1). -/
def loopResidual (j : Nat) : FlowNetwork :=
  { edges := [⟨2, 0⟩, ⟨0, 2⟩, ⟨1, 2⟩, ⟨2, 1⟩],
    capacities := [(⟨2, 0⟩, j + 1), (⟨0, 2⟩, 1), (⟨1, 2⟩, j + 1), (⟨2, 1⟩, 1)],
    flows := [(⟨2, 0⟩, 0), (⟨0, 2⟩, 0), (⟨1, 2⟩, 0), (⟨2, 1⟩, 0)],
    source := 0, sink := 1 }

/-- The BFS state the solver reaches on loopResidual (independent of j). -/
def loopBfs : dinic.BfsState :=
  { level_graph :=
      { edges := [⟨0, 2⟩, ⟨2, 1⟩],
        capacities := [(⟨0, 2⟩, 1), (⟨2, 1⟩, 1)],
        flows := [(⟨0, 2⟩, 0), (⟨2, 1⟩, 0)],
        source := 0, sink := 1 }
    vertex_levels := [(0, 0), (2, 1), (1, 2)]
    worklist := []
    visited := [⟨2, 0⟩, ⟨2, 1⟩, ⟨0, 2⟩, ⟨1, 2⟩] }

/-- The level graph with its blocking flow on the loopNet family. -/
def loopLevelFlows : FlowNetwork :=
  { edges := [⟨0, 2⟩, ⟨2, 1⟩],
    capacities := [(⟨0, 2⟩, 1), (⟨2, 1⟩, 1)],
    flows := [(⟨0, 2⟩, 1), (⟨2, 1⟩, 1)],
    source := 0, sink := 1 }

/-- A two-edge chain 0 -> 2 -> 1 with no antiparallel pair: a well-behaved
zero-flow input for the solver. -/
def chainNet : FlowNetwork := mkNet 0 1 [(0, 2, 2, 0), (2, 1, 1, 0)]

end networks

namespace jam_types

/-- JamType from jam_types/mod.rs. -/
inductive JamType where
  | Itch
  | LudumDare
deriving DecidableEq, Repr

/-- The character class [0-9]. -/
def isDigitC (c : Char) : Bool := decide ('0' ≤ c ∧ c ≤ '9')

/-- The character class [a-z0-9-]. -/
def isSlugC (c : Char) : Bool :=
  decide (('a' ≤ c ∧ c ≤ 'z') ∨ ('0' ≤ c ∧ c ≤ '9') ∨ c = '-')

/-- str::strip_prefix on character lists. -/
def stripPre : List Char → List Char → Option (List Char)
  | [], l => some l
  | _ :: _, [] => none
  | p :: ps, c :: cs => if p = c then stripPre ps cs else none

/-- Try to match the regex /rate/([0-9]+)/? at the head of the list,
returning the captured (greedy, maximal) digit run. -/
def matchRateAt (l : List Char) : Option (List Char) :=
  match stripPre ('/' :: 'r' :: 'a' :: 't' :: 'e' :: '/' :: []) l with
  | none => none
  | some rest =>
    let ds := rest.takeWhile isDigitC
    if ds = [] then none else some ds

/-- Leftmost search for /rate/([0-9]+)/? — regex_captures is an unanchored
search, so the pattern may match anywhere in the tail. -/
def scanRate : List Char → Option (List Char)
  | [] => none
  | c :: cs =>
    match matchRateAt (c :: cs) with
    | some ds => some ds
    | none => scanRate cs

/-- Try to match /([a-z0-9-]+)/? at the head of the list, returning the
captured maximal slug run. -/
def matchSlugAt (l : List Char) : Option (List Char) :=
  match l with
  | [] => none
  | c :: rest =>
    if c = '/' then
      let ss := rest.takeWhile isSlugC
      if ss = [] then none else some ss
    else none

/-- Leftmost search for /([a-z0-9-]+)/?. -/
def scanSlug : List Char → Option (List Char)
  | [] => none
  | c :: cs =>
    match matchSlugAt (c :: cs) with
    | some ss => some ss
    | none => scanSlug cs

/-- The Ludum Dare slugs that coincide with jam pages. -/
def forbiddenSlug (s : List Char) : Bool :=
  decide (s = "results".data ∨ s = "games".data ∨ s = "theme".data ∨ s = "stats".data)

/-- JamType::normalize_jam_entry_link from jam_types/mod.rs: strip the jam
link off the entry link, then search the tail for the per-jam-type entry
pattern and canonicalise. -/
def normalize_jam_entry_link (jt : JamType) (jam_link entry_link : List Char) :
    Option (List Char) :=
  match jt with
  | .Itch =>
    (stripPre jam_link entry_link).bind fun tail =>
      (scanRate tail).map fun id =>
        jam_link ++ ('/' :: 'r' :: 'a' :: 't' :: 'e' :: '/' :: []) ++ id
  | .LudumDare =>
    (stripPre jam_link entry_link).bind fun tail =>
      (scanSlug tail).bind fun slug =>
        if forbiddenSlug slug then none
        else if slug = [] then none
        else some (jam_link ++ '/' :: slug)

/-- The claimed Itch tail shape: the whole tail matches /rate/[0-9]+/?$
(anchored at both ends). -/
def itchTailAnchored (tail : List Char) : Bool :=
  match stripPre ('/' :: 'r' :: 'a' :: 't' :: 'e' :: '/' :: []) tail with
  | none => false
  | some rest =>
    let ds := rest.takeWhile isDigitC
    decide (ds ≠ []) && decide (rest.drop ds.length = [] ∨ rest.drop ds.length = ['/'])

/-- The claimed Ludum Dare tail shape: the whole tail is /[a-z0-9-]+/? with
a non-reserved slug. -/
def ldTailAnchored (tail : List Char) : Bool :=
  match tail with
  | '/' :: rest =>
    let ss := rest.takeWhile isSlugC
    decide (ss ≠ []) && !forbiddenSlug ss &&
      decide (rest.drop ss.length = [] ∨ rest.drop ss.length = ['/'])
  | _ => false

/-- Modelled from the spec of the regex search, for the amended claim: the
pattern /rate/[0-9]+ matches the tail at position i. -/
def rateMatchAt (t : List Char) (i : Nat) : Bool :=
  decide ((t.drop i).take 6 = '/' :: 'r' :: 'a' :: 't' :: 'e' :: '/' :: []) &&
  isDigitC ((t.drop (i + 6)).headD ' ')

/-- The position of the leftmost /rate/[0-9]+ match in a tail. -/
def firstRateIdx (t : List Char) : Option Nat :=
  (List.range t.length).find? (rateMatchAt t)

/-- Modelled from the spec of the regex search: /[a-z0-9-]+ matches the
tail at position i. -/
def slugMatchAt (t : List Char) (i : Nat) : Bool :=
  decide (t.drop i ≠ [] ∧ (t.drop i).headD ' ' = '/') &&
  isSlugC ((t.drop (i + 1)).headD ' ')

/-- The position of the leftmost /[a-z0-9-]+ match in a tail. -/
def firstSlugIdx (t : List Char) : Option Nat :=
  (List.range t.length).find? (slugMatchAt t)

/-- The amended specification of normalize_jam_entry_link, stated through
leftmost match positions: anchoring at the end of the tail is not required,
and the captured run is the maximal one at the leftmost match. -/
def normalizeEntryLinkSpec (jt : JamType) (jam_link entry_link : List Char) :
    Option (List Char) :=
  match jt with
  | .Itch =>
    (stripPre jam_link entry_link).bind fun t =>
      (firstRateIdx t).map fun i =>
        jam_link ++ ('/' :: 'r' :: 'a' :: 't' :: 'e' :: '/' :: []) ++
          (t.drop (i + 6)).takeWhile isDigitC
  | .LudumDare =>
    (stripPre jam_link entry_link).bind fun t =>
      (firstSlugIdx t).bind fun i =>
        let ss := (t.drop (i + 1)).takeWhile isSlugC
        if forbiddenSlug ss then none else some (jam_link ++ '/' :: ss)

end jam_types

namespace models

/-- ExchangeState from models/exchange.rs. -/
inductive ExchangeState where
  | NotStartedYet
  | AcceptingSubmissions
  | AssignmentsSent
  | MissedByBot
  | AssignmentError
deriving DecidableEq, Repr

/-- Exchange from models/exchange.rs.  Ids are embedded as Nat and UTC
datetimes as integer timestamps (seconds); games_per_member is the NonZero
u8 value. -/
structure Exchange where
  id : Nat
  guild : Nat
  channel : Nat
  jam_type : jam_types.JamType
  jam_link : List Char
  slug : List Char
  display_name : List Char
  state : ExchangeState
  submissions_start : Int
  submissions_end : Int
  games_per_member : Nat
deriving DecidableEq, Repr

/-- Submission from models/submission.rs. -/
structure Submission where
  id : Nat
  exchange_id : Nat
  link : List Char
  submitter : Nat
  submitted_at : Int
deriving DecidableEq, Repr

/-- NewSubmission (the insert payload of a submission row). -/
structure NewSubmission where
  exchange_id : Nat
  link : List Char
  submitter : Nat
  submitted_at : Int
deriving DecidableEq, Repr

/-- PlayedGame from models/played_game.rs. -/
structure PlayedGame where
  id : Nat
  link : List Char
  member : Nat
  is_manual : Bool
deriving DecidableEq, Repr

end models

namespace assignment_network

open flow_network models

/-- BiMap insert (bimap::BiMap::insert overwrite semantics): any pair
sharing either component is removed before the new pair is added. -/
def bimapInsert (m : List (Nat × Nat)) (a b : Nat) : List (Nat × Nat) :=
  m.filter (fun p => decide (p.1 ≠ a ∧ p.2 ≠ b)) ++ [(a, b)]

/-- BiMap::get_by_left. -/
def getByLeft (m : List (Nat × Nat)) (a : Nat) : Option Nat :=
  (m.find? (fun p => decide (p.1 = a))).map (·.2)

/-- BiMap::get_by_right. -/
def getByRight (m : List (Nat × Nat)) (b : Nat) : Option Nat :=
  (m.find? (fun p => decide (p.2 = b))).map (·.1)

/-- HashMap insert keyed by submission id (the dedup loop at the start of
AssignmentNetwork::build); replacement keeps the key's position. -/
def submapPut (m : List (Nat × Submission)) (s : Submission) : List (Nat × Submission) :=
  match m with
  | [] => [(s.id, s)]
  | (k, t) :: rest => if k = s.id then (s.id, s) :: rest else (k, t) :: submapPut rest s

/-- HashMap lookup by submission id. -/
def submapGet (m : List (Nat × Submission)) (k : Nat) : Option Submission :=
  (m.find? (fun p => decide (p.1 = k))).map (·.2)

/-- The links a member has already played (the per-member HashSet built from
the played-games slice). -/
def playedLinks (played_games : List PlayedGame) (member : Nat) : List (List Char) :=
  (played_games.filter (fun p => decide (p.member = member))).map (·.link)

/-- AssignmentNetwork from utils/assignment_network.rs. -/
structure AssignmentNetwork where
  network : FlowNetwork
  submissions : List (Nat × Submission)
  submitter_nodes : List (Nat × Nat)
  submission_nodes : List (Nat × Nat)
deriving Repr

/-- The first loop of AssignmentNetwork::build: for every submission
allocate a submitter vertex with a source edge of capacity games_per_member
and a submission vertex with a sink edge of capacity games_per_member.
The index allocator has already handed out 0 (source) and 1 (sink). -/
def addNodes (g : Nat) :
    List Submission → FlowNetwork → List (Nat × Nat) → List (Nat × Nat) → Nat →
    FlowNetwork × List (Nat × Nat) × List (Nat × Nat)
  | [], net, subm, subn, _ => (net, subm, subn)
  | s :: rest, net, subm, subn, idx =>
    let net := net.add_edge ⟨0, idx⟩ g 0
    let subm := bimapInsert subm s.submitter idx
    let net := net.add_edge ⟨idx + 1, 1⟩ g 0
    let subn := bimapInsert subn s.id (idx + 1)
    addNodes g rest net subm subn (idx + 2)

/-- The inner loop of the second pass of build: add a capacity-1 edge from
the source submission's submitter vertex to every other submission's vertex,
skipping self-review and already-played links. -/
def addMiddleFor (played_games : List PlayedGame) (subn : List (Nat × Nat))
    (src : Submission) (src_node : Nat) :
    List Submission → FlowNetwork → FlowNetwork
  | [], net => net
  | dst :: rest, net =>
    let net :=
      if src.submitter = dst.submitter then net
      else if dst.link ∈ playedLinks played_games src.submitter then net
      else
        match getByLeft subn dst.id with
        | none => net
        | some dst_node => net.add_edge ⟨src_node, dst_node⟩ 1 0
    addMiddleFor played_games subn src src_node rest net

/-- The outer loop of the second pass of build. -/
def addMiddle (played_games : List PlayedGame) (subm subn : List (Nat × Nat))
    (allSubs : List Submission) :
    List Submission → FlowNetwork → FlowNetwork
  | [], net => net
  | src :: rest, net =>
    let net :=
      match getByLeft subm src.submitter with
      | none => net
      | some src_node => addMiddleFor played_games subn src src_node allSubs net
    addMiddle played_games subm subn allSubs rest net

/-- AssignmentNetwork::build. -/
def build (exchange : Exchange) (submissions : List Submission)
    (played_games : List PlayedGame) : AssignmentNetwork :=
  let subsMap := submissions.foldl (fun acc s => submapPut acc s) []
  let subs := subsMap.map (·.2)
  let g := exchange.games_per_member
  let (net, subm, subn) := addNodes g subs (FlowNetwork.empty 0 1) [] [] 2
  let net := addMiddle played_games subm subn subs subs net
  { network := net, submissions := subsMap, submitter_nodes := subm, submission_nodes := subn }

/-- AssignmentNetwork::get_assignments: for every submitter vertex collect
the submissions whose middle edge carries positive flow. -/
def get_assignments (an : AssignmentNetwork) : List (Nat × List Submission) :=
  an.submitter_nodes.map fun p =>
    (p.1,
      ((an.network.outgoing_edges p.2).filter
          (fun e => decide (an.network.flow e > 0))).filterMap fun e =>
        (getByRight an.submission_nodes e.stop).bind fun sid =>
          submapGet an.submissions sid)

/-- The full assignment pipeline of a scheduler pass for one exchange:
build the network, run the solver, extract the assignment lists. -/
def solvedAssignments (exchange : Exchange) (submissions : List Submission)
    (played_games : List PlayedGame) (fuel : Nat) : List (Nat × List Submission) :=
  let an := build exchange submissions played_games
  let r := dinic.solve fuel an.network
  get_assignments { an with network := r.1 }

/-- Both-sided key uniqueness of a bimap's pair list, the invariant
bimap::BiMap maintains. -/
def BimapOk (m : List (Nat × Nat)) : Prop :=
  m.Pairwise (fun p q => p.1 ≠ q.1 ∧ p.2 ≠ q.2)

/-- The submissions HashMap of build: every entry is keyed by its value's
id and the keys are distinct. -/
def SubmapOk (m : List (Nat × Submission)) : Prop :=
  (∀ p ∈ m, p.1 = p.2.id) ∧ (m.map (·.1)).Nodup

/-- Shape of an edge of a built assignment network, relative to the final
submitter and submission bimaps, the deduplicated submission map and the
played-games list: a source edge into an even submitter vertex, a sink
edge out of an odd submission vertex, or a middle edge recording an
allowed review pair (reviewer distinct from the submitter, link not among
the reviewer's played games). -/
def BuiltEdge (subm subn : List (Nat × Nat)) (subsMap : List (Nat × Submission))
    (played_games : List PlayedGame) (e : Edge) : Prop :=
  (e.start = 0 ∧ 2 ≤ e.stop ∧ e.stop % 2 = 0) ∨
  (e.stop = 1 ∧ 3 ≤ e.start ∧ e.start % 2 = 1) ∨
  (2 ≤ e.start ∧ e.start % 2 = 0 ∧ 3 ≤ e.stop ∧ e.stop % 2 = 1 ∧
    ∃ usr dst, (usr, e.start) ∈ subm ∧ (dst.id, e.stop) ∈ subn ∧
      (dst.id, dst) ∈ subsMap ∧ dst.submitter ≠ usr ∧
      dst.link ∉ playedLinks played_games usr)

/-- Invariant of the first build pass (addNodes): all vertices handed out
so far lie below the allocator index, source edges carry capacity
games_per_member into even submitter vertices, sink edges carry the same
capacity out of odd submission vertices, and the two bimaps are
both-sided-unique with values in range. -/
structure NodesInv (g idx : Nat) (net : FlowNetwork)
    (subm subn : List (Nat × Nat)) : Prop where
  src : net.source = 0
  snk : net.sink = 1
  nodup : net.edges.Nodup
  flows0 : ∀ x, net.flow x = 0
  shape : ∀ e ∈ net.edges,
    (e.start = 0 ∧ 2 ≤ e.stop ∧ e.stop % 2 = 0 ∧ e.stop < idx) ∨
    (e.stop = 1 ∧ 3 ≤ e.start ∧ e.start % 2 = 1 ∧ e.start < idx)
  mOk : BimapOk subm
  nOk : BimapOk subn
  mVal : ∀ p ∈ subm, 2 ≤ p.2 ∧ p.2 % 2 = 0 ∧ p.2 < idx
  nVal : ∀ p ∈ subn, 3 ≤ p.2 ∧ p.2 % 2 = 1 ∧ p.2 < idx
  mCap : ∀ p ∈ subm, (⟨0, p.2⟩ : Edge) ∈ net.edges ∧ net.capacity ⟨0, p.2⟩ = g
  nCap : ∀ p ∈ subn, (⟨p.2, 1⟩ : Edge) ∈ net.edges ∧ net.capacity ⟨p.2, 1⟩ = g

/-- Invariant of the second build pass (addMiddle) and of the finished
network: every edge has one of the three built shapes and the source and
sink edges keep their games_per_member capacities. -/
structure MidInv (g : Nat) (subm subn : List (Nat × Nat))
    (subsMap : List (Nat × Submission)) (played_games : List PlayedGame)
    (net : FlowNetwork) : Prop where
  src : net.source = 0
  snk : net.sink = 1
  nodup : net.edges.Nodup
  flows0 : ∀ x, net.flow x = 0
  shape : ∀ e ∈ net.edges, BuiltEdge subm subn subsMap played_games e
  mCap : ∀ p ∈ subm, (⟨0, p.2⟩ : Edge) ∈ net.edges ∧ net.capacity ⟨0, p.2⟩ = g
  nCap : ∀ p ∈ subn, (⟨p.2, 1⟩ : Edge) ∈ net.edges ∧ net.capacity ⟨p.2, 1⟩ = g

/-- The assignment list get_assignments computes for one submitter vertex,
over a given (solved) network. -/
def entryList (an : AssignmentNetwork) (NS : FlowNetwork) (node : Nat) :
    List Submission :=
  ((NS.outgoing_edges node).filter (fun e => decide (NS.flow e > 0))).filterMap
    (fun e => (getByRight an.submission_nodes e.stop).bind
      (fun sid => submapGet an.submissions sid))

/-- Everything the validity argument needs about the output of
AssignmentNetwork::build. -/
structure BuildOk (g : Nat) (played_games : List PlayedGame)
    (an : AssignmentNetwork) : Prop where
  inv : MidInv g an.submitter_nodes an.submission_nodes an.submissions
    played_games an.network
  subsOk : SubmapOk an.submissions
  mVal : ∀ p ∈ an.submitter_nodes, 2 ≤ p.2 ∧ p.2 % 2 = 0
  nVal : ∀ p ∈ an.submission_nodes, 3 ≤ p.2 ∧ p.2 % 2 = 1
  mOk : BimapOk an.submitter_nodes
  nOk : BimapOk an.submission_nodes

end assignment_network

namespace repository

open models

/-- ExchangeRepository::get_overlapping_exchanges: same guild with either a
channel/time-window overlap or a slug match. -/
def get_overlapping_exchanges (exchanges : List Exchange) (guild channel : Nat)
    (slug : List Char) (start stop : Int) : List Exchange :=
  exchanges.filter fun e =>
    decide (e.guild = guild ∧
      ((e.channel = channel ∧ e.submissions_start < stop ∧ e.submissions_end > start) ∨
        e.slug = slug))

/-- ExchangeRepository::get_starting_exchanges: NotStartedYet exchanges whose
submissions_start is at or before the given time (the SQL also orders by
submissions_start then guild). -/
def get_starting_exchanges (exchanges : List Exchange) (date : Int) : List Exchange :=
  sortBy
    (fun a b => decide (a.submissions_start < b.submissions_start ∨
      (a.submissions_start = b.submissions_start ∧ a.guild ≤ b.guild)))
    (exchanges.filter fun e =>
      decide (e.state = ExchangeState.NotStartedYet ∧ e.submissions_start ≤ date))

/-- ExchangeRepository::get_ending_exchanges: AcceptingSubmissions exchanges
whose submissions_end is at or before the given time. -/
def get_ending_exchanges (exchanges : List Exchange) (date : Int) : List Exchange :=
  sortBy
    (fun a b => decide (a.submissions_end < b.submissions_end ∨
      (a.submissions_end = b.submissions_end ∧ a.guild ≤ b.guild)))
    (exchanges.filter fun e =>
      decide (e.state = ExchangeState.AcceptingSubmissions ∧ e.submissions_end ≤ date))

/-- SubmissionRepository::get_conflicting_submission: a row of the same
exchange whose submitter or link matches the candidate (LIMIT 1 on the
backing list's order). -/
def get_conflicting_submission (submissions : List Submission) (new : NewSubmission) :
    Option Submission :=
  submissions.find? fun s =>
    decide (s.exchange_id = new.exchange_id ∧
      (s.submitter = new.submitter ∨ s.link = new.link))

/-- SubmissionRepository::add_or_update_submission: insert, or on conflict of
(exchange_id, submitter) update the link. -/
def add_or_update_submission (submissions : List Submission) (new : NewSubmission)
    (fresh_id : Nat) : List Submission :=
  if submissions.any (fun s => decide (s.exchange_id = new.exchange_id ∧ s.submitter = new.submitter)) then
    submissions.map fun s =>
      if s.exchange_id = new.exchange_id ∧ s.submitter = new.submitter then
        { s with link := new.link }
      else s
  else
    submissions ++ [{ id := fresh_id, exchange_id := new.exchange_id, link := new.link,
                      submitter := new.submitter, submitted_at := new.submitted_at }]

/-- SubmissionRepository::revoke: delete the caller's row of that exchange,
but only when the parent exchange is AcceptingSubmissions; returns whether a
row was removed. -/
def revoke (exchanges : List Exchange) (submissions : List Submission)
    (exchange_id submitter : Nat) : List Submission × Bool :=
  let deletable := fun (s : Submission) =>
    decide (s.exchange_id = exchange_id ∧ s.submitter = submitter ∧
      ∃ e ∈ exchanges, e.id = s.exchange_id ∧ e.state = ExchangeState.AcceptingSubmissions)
  let kept := submissions.filter (fun s => ! deletable s)
  (kept, decide (kept.length < submissions.length))

end repository

namespace commands

open models repository jam_types

/-- The reply chosen by the submit command once get_conflict has been
consulted (submit.rs lines 104-138): a matching link is a team-rule user
error, a matching submitter turns the reply into the Updated message, and
otherwise the fresh Submitted reply stands. -/
inductive SubmitReply where
  | teamRuleError
  | updatedReply
  | submittedReply
deriving DecidableEq, Repr

/-- The conflict-handling logic of submit.rs: the link comparison runs
first and wins. -/
def conflict_reply (new : NewSubmission) (conflict : Option Submission) : SubmitReply :=
  match conflict with
  | none => .submittedReply
  | some c =>
    if new.link = c.link then .teamRuleError
    else if new.submitter = c.submitter then .updatedReply
    else .submittedReply

/-- The submit command's conflict path against a submission table. -/
def submit_conflict_check (submissions : List Submission) (new : NewSubmission) : SubmitReply :=
  conflict_reply new (get_conflicting_submission submissions new)

/-- The submit command's exchange lookup (submit.rs lines 18-58): the
overlap query at now..now must return exactly one exchange. -/
def submit_lookup (exchanges : List Exchange) (guild channel : Nat) (slug : List Char)
    (now : Int) : Option Exchange :=
  match get_overlapping_exchanges exchanges guild channel slug now now with
  | [e] => some e
  | _ => none

/-- Whether a submit invocation reaches add_or_update_submission, and for
which exchange: the lookup must single out an exchange and the entry link
must normalise against its jam type and jam link. -/
def submit_creates (exchanges : List Exchange) (guild channel : Nat) (slug : List Char)
    (now : Int) (link : List Char) : Option Exchange :=
  (submit_lookup exchanges guild channel slug now).bind fun ex =>
    (normalize_jam_entry_link ex.jam_type ex.jam_link link).map fun _ => ex

/-- Rewrite every exchange's state through a function, leaving all other
fields alone (used to state that the submit path ignores exchange state). -/
def stateMap (σ : ExchangeState → ExchangeState) (e : Exchange) : Exchange :=
  { e with state := σ e.state }

end commands

namespace assignment_service

open models repository

/-- EXCHANGE_START_THRESHOLD (one hour, in seconds). -/
def EXCHANGE_START_THRESHOLD : Int := 3600

/-- EXCHANGE_END_THRESHOLD (one hour, in seconds). -/
def EXCHANGE_END_THRESHOLD : Int := 3600

/-- One recorded repository state transition. -/
abbrev StateUpdate := Nat × ExchangeState

/-- The per-exchange loop body results of announce_exchange_submissions_open,
given an oracle for whether the platform send succeeds for a channel.
Returns the state updates, the ids of exchanges whose opening message was
sent, and whether the pass ran to completion (a failed send makes the
question-mark operator abort the whole pass). -/
def announceLoop (now : Int) (sayOk : Nat → Bool) :
    List Exchange → List StateUpdate × List Nat × Bool
  | [] => ([], [], true)
  | ex :: rest =>
    if now - ex.submissions_start > EXCHANGE_START_THRESHOLD then
      let (u, m, ok) := announceLoop now sayOk rest
      ((ex.id, ExchangeState.MissedByBot) :: u, m, ok)
    else if sayOk ex.id then
      let (u, m, ok) := announceLoop now sayOk rest
      ((ex.id, ExchangeState.AcceptingSubmissions) :: u, ex.id :: m, ok)
    else
      ([], [], false)

/-- AssignmentService::announce_exchange_submissions_open. -/
def announce_exchange_submissions_open (exchanges : List Exchange) (now : Int)
    (sayOk : Nat → Bool) : List StateUpdate × List Nat × Bool :=
  announceLoop now sayOk (get_starting_exchanges exchanges now)

/-- AssignmentService::perform_assignments_for_exchange, for the delivery
part: every submitter is sent a DM; individual DM failures are logged with
warn and do not stop the loop, so the attempted list and the Ok result do
not depend on the dmOk oracle at all; the function returns Ok as long as
loading the submissions and played games succeeded (loadOk). -/
def perform_assignments_for_exchange (loadOk : Bool)
    (assignments : List (Nat × List Submission)) (_dmOk : Nat → Bool) :
    List Nat × Bool :=
  if loadOk then (assignments.map (fun p => p.1), true) else ([], false)

/-- The per-exchange loop body of perform_assignments, given oracles for
whether the compute path (loading submissions and played games) succeeds and
whether the closing channel message sends.  A failed closing message aborts
the pass through the question-mark operator; a failed compute path records
AssignmentError and continues. -/
def assignLoop (now : Int) (computeOk sayOk : Nat → Bool) :
    List Exchange → List StateUpdate × Bool
  | [] => ([], true)
  | ex :: rest =>
    if now - ex.submissions_end > EXCHANGE_END_THRESHOLD then
      let (u, ok) := assignLoop now computeOk sayOk rest
      ((ex.id, ExchangeState.MissedByBot) :: u, ok)
    else if ! computeOk ex.id then
      let (u, ok) := assignLoop now computeOk sayOk rest
      ((ex.id, ExchangeState.AssignmentError) :: u, ok)
    else if sayOk ex.id then
      let (u, ok) := assignLoop now computeOk sayOk rest
      ((ex.id, ExchangeState.AssignmentsSent) :: u, ok)
    else
      ([], false)

/-- AssignmentService::perform_assignments. -/
def perform_assignments (exchanges : List Exchange) (now : Int)
    (computeOk sayOk : Nat → Bool) : List StateUpdate × Bool :=
  assignLoop now computeOk sayOk (get_ending_exchanges exchanges now)

end assignment_service

/-!  Theorems.  All definitions are above; every claim theorem, witness and
counterexample, together with the helper lemmas they share, follows. -/

namespace flow_network

theorem opposite_opposite (e : Edge) : e.opposite.opposite = e := rfl

theorem opposite_start (e : Edge) : e.opposite.start = e.stop := rfl

theorem opposite_stop (e : Edge) : e.opposite.stop = e.start := rfl

theorem emapGet_put (m : EMap) (e : Edge) (v : Nat) :
    emapGet (emapPut m e v) e = v := by
  induction m with
  | nil => simp [emapPut, emapGet]
  | cons kv rest ih =>
    obtain ⟨k, w⟩ := kv
    by_cases h : k = e
    · simp [emapPut, h, emapGet]
    · simp [emapPut, h, emapGet, ih]

theorem emapGet_put_ne (m : EMap) (e f : Edge) (v : Nat) (h : f ≠ e) :
    emapGet (emapPut m e v) f = emapGet m f := by
  induction m with
  | nil =>
    simp [emapPut, emapGet]
    intro hke
    exact absurd hke.symm h
  | cons kv rest ih =>
    obtain ⟨k, w⟩ := kv
    by_cases hk : k = e
    · subst hk
      have hkf : ¬ (k = f) := fun hh => h hh.symm
      simp [emapPut, emapGet, hkf]
    · simp [emapPut, hk, emapGet, ih]

theorem sum_map_add_distrib {α : Type} (L : List α) (f g : α → Nat) :
    (L.map (fun x => f x + g x)).sum = (L.map f).sum + (L.map g).sum := by
  induction L with
  | nil => rfl
  | cons a t ih => simp [ih]; omega

theorem sum_map_filter_eq {α : Type} (L : List α) (p : α → Bool) (f : α → Nat) :
    ((L.filter p).map f).sum = (L.map (fun x => if p x then f x else 0)).sum := by
  induction L with
  | nil => rfl
  | cons a t ih =>
    by_cases h : p a = true
    · simp [List.filter_cons, h, ih]
    · simp [List.filter_cons, h, ih]

theorem sum_map_filter_eq_int {α : Type} (L : List α) (p : α → Bool) (f : α → Int) :
    ((L.filter p).map f).sum = (L.map (fun x => if p x then f x else 0)).sum := by
  induction L with
  | nil => rfl
  | cons a t ih =>
    by_cases h : p a = true
    · simp [List.filter_cons, h, ih]
    · simp [List.filter_cons, h, ih]

theorem length_le_of_nodup_subset {α : Type} [DecidableEq α] (l l' : List α)
    (hnd : l.Nodup) (hsub : l ⊆ l') : l.length ≤ l'.length :=
  (List.subperm_of_subset hnd hsub).length_le

namespace FlowNetwork

theorem add_edge_source (n : FlowNetwork) (e : Edge) (c f : Nat) :
    (n.add_edge e c f).source = n.source := rfl

theorem add_edge_sink (n : FlowNetwork) (e : Edge) (c f : Nat) :
    (n.add_edge e c f).sink = n.sink := rfl

theorem mem_add_edge (n : FlowNetwork) (e x : Edge) (c f : Nat) :
    x ∈ (n.add_edge e c f).edges ↔ x ∈ n.edges ∨ x = e := by
  unfold add_edge
  by_cases h : e ∈ n.edges
  · simp only [h, if_pos]
    constructor
    · intro hx; exact Or.inl hx
    · rintro (hx | rfl)
      · exact hx
      · exact h
  · simp [h]

theorem add_edge_nodup (n : FlowNetwork) (e : Edge) (c f : Nat)
    (h : n.edges.Nodup) : (n.add_edge e c f).edges.Nodup := by
  unfold add_edge
  by_cases he : e ∈ n.edges
  · simpa [he] using h
  · simp only [he, if_neg, not_false_iff]
    simpa [List.nodup_append] using ⟨h, he⟩

theorem add_edge_capacity_self (n : FlowNetwork) (e : Edge) (c f : Nat) :
    (n.add_edge e c f).capacity e = c := emapGet_put n.capacities e c

theorem add_edge_capacity_ne (n : FlowNetwork) (e x : Edge) (c f : Nat)
    (h : x ≠ e) : (n.add_edge e c f).capacity x = n.capacity x :=
  emapGet_put_ne n.capacities e x c h

theorem add_edge_flow_self (n : FlowNetwork) (e : Edge) (c f : Nat) :
    (n.add_edge e c f).flow e = f := emapGet_put n.flows e f

theorem add_edge_flow_ne (n : FlowNetwork) (e x : Edge) (c f : Nat)
    (h : x ≠ e) : (n.add_edge e c f).flow x = n.flow x :=
  emapGet_put_ne n.flows e x f h

theorem set_flow_edges (n : FlowNetwork) (e : Edge) (f : Nat) :
    (n.set_flow e f).edges = n.edges := by
  unfold set_flow; split <;> rfl

theorem set_flow_source (n : FlowNetwork) (e : Edge) (f : Nat) :
    (n.set_flow e f).source = n.source := by
  unfold set_flow; split <;> rfl

theorem set_flow_sink (n : FlowNetwork) (e : Edge) (f : Nat) :
    (n.set_flow e f).sink = n.sink := by
  unfold set_flow; split <;> rfl

theorem set_flow_capacity (n : FlowNetwork) (e x : Edge) (f : Nat) :
    (n.set_flow e f).capacity x = n.capacity x := by
  unfold set_flow; split <;> rfl

theorem set_flow_flow_self (n : FlowNetwork) (e : Edge) (f : Nat)
    (he : e ∈ n.edges) : (n.set_flow e f).flow e = f := by
  unfold set_flow
  simp only [he, if_pos]
  exact emapGet_put n.flows e f

theorem set_flow_flow_ne (n : FlowNetwork) (e x : Edge) (f : Nat)
    (h : x ≠ e) : (n.set_flow e f).flow x = n.flow x := by
  unfold set_flow
  split
  · exact emapGet_put_ne n.flows e x f h
  · rfl

theorem mem_outgoing_edges (n : FlowNetwork) (v : Nat) (x : Edge) :
    x ∈ n.outgoing_edges v ↔ x ∈ n.edges ∧ x.start = v := by
  simp [outgoing_edges]

theorem mem_incoming_edges (n : FlowNetwork) (v : Nat) (x : Edge) :
    x ∈ n.incoming_edges v ↔ x ∈ n.edges ∧ x.stop = v := by
  simp [incoming_edges]

theorem outgoing_edges_nodup (n : FlowNetwork) (v : Nat)
    (h : n.edges.Nodup) : (n.outgoing_edges v).Nodup :=
  h.filter _

theorem incoming_edges_nodup (n : FlowNetwork) (v : Nat)
    (h : n.edges.Nodup) : (n.incoming_edges v).Nodup :=
  h.filter _

/-- Networks with identical edge lists and flow functions have identical
in/out flows. -/
theorem outflowZ_congr (m n : FlowNetwork) (v : Nat)
    (he : m.edges = n.edges) (hf : ∀ x ∈ m.edges, m.flow x = n.flow x) :
    m.outflowZ v = n.outflowZ v := by
  unfold outflowZ outgoing_edges
  rw [he]
  apply congrArg
  apply List.map_congr_left
  intro x hx
  rw [hf x (he ▸ (List.mem_filter.mp hx).1)]

theorem inflowZ_congr (m n : FlowNetwork) (v : Nat)
    (he : m.edges = n.edges) (hf : ∀ x ∈ m.edges, m.flow x = n.flow x) :
    m.inflowZ v = n.inflowZ v := by
  unfold inflowZ incoming_edges
  rw [he]
  apply congrArg
  apply List.map_congr_left
  intro x hx
  rw [hf x (he ▸ (List.mem_filter.mp hx).1)]

theorem outflow_eq_outflowZ (n : FlowNetwork) (v : Nat) :
    (n.outflow v : Int) = n.outflowZ v := by
  unfold outflow outflowZ
  rw [Nat.cast_list_sum, List.map_map]
  rfl

theorem inflow_eq_inflowZ (n : FlowNetwork) (v : Nat) :
    (n.inflow v : Int) = n.inflowZ v := by
  unfold inflow inflowZ
  rw [Nat.cast_list_sum, List.map_map]
  rfl

end FlowNetwork

end flow_network

namespace dinic

open flow_network

theorem construct_residual_graph_eq_fold (n r : FlowNetwork) :
    construct_residual_graph n r = n.edges.foldl (residStep n) r.clear := rfl

theorem residStep_source (n rg : FlowNetwork) (e : Edge) :
    (residStep n rg e).source = rg.source := by
  unfold residStep
  dsimp only
  split <;> split <;> rfl

theorem residStep_sink (n rg : FlowNetwork) (e : Edge) :
    (residStep n rg e).sink = rg.sink := by
  unfold residStep
  dsimp only
  split <;> split <;> rfl

theorem resid_fold_source (n : FlowNetwork) (L : List Edge) :
    ∀ acc : FlowNetwork, (L.foldl (residStep n) acc).source = acc.source := by
  induction L with
  | nil => intro acc; rfl
  | cons e t ih =>
    intro acc
    rw [List.foldl_cons, ih, residStep_source]

theorem resid_fold_sink (n : FlowNetwork) (L : List Edge) :
    ∀ acc : FlowNetwork, (L.foldl (residStep n) acc).sink = acc.sink := by
  induction L with
  | nil => intro acc; rfl
  | cons e t ih =>
    intro acc
    rw [List.foldl_cons, ih, residStep_sink]

theorem mem_residStep (n rg : FlowNetwork) (e x : Edge) :
    x ∈ (residStep n rg e).edges ↔
      x ∈ rg.edges ∨ (x = e ∧ n.flow e < n.capacity e) ∨
        (x = e.opposite ∧ 0 < n.flow e) := by
  unfold residStep
  dsimp only
  split
  · rename_i hf
    split
    · rename_i hc
      simp only [FlowNetwork.mem_add_edge]
      constructor
      · rintro ((h | heq) | heq)
        · exact Or.inl h
        · exact Or.inr (Or.inl ⟨heq, hc⟩)
        · exact Or.inr (Or.inr ⟨heq, hf⟩)
      · rintro (h | ⟨heq, _⟩ | ⟨heq, _⟩)
        · exact Or.inl (Or.inl h)
        · exact Or.inl (Or.inr heq)
        · exact Or.inr heq
    · rename_i hc
      simp only [FlowNetwork.mem_add_edge]
      constructor
      · rintro (h | heq)
        · exact Or.inl h
        · exact Or.inr (Or.inr ⟨heq, hf⟩)
      · rintro (h | ⟨heq, h2⟩ | ⟨heq, _⟩)
        · exact Or.inl h
        · exact absurd h2 hc
        · exact Or.inr heq
  · rename_i hf
    split
    · rename_i hc
      simp only [FlowNetwork.mem_add_edge]
      constructor
      · rintro (h | heq)
        · exact Or.inl h
        · exact Or.inr (Or.inl ⟨heq, hc⟩)
      · rintro (h | ⟨heq, _⟩ | ⟨heq, h2⟩)
        · exact Or.inl h
        · exact Or.inr heq
        · exact absurd h2 hf
    · rename_i hc
      constructor
      · intro h; exact Or.inl h
      · rintro (h | ⟨heq, h2⟩ | ⟨heq, h3⟩)
        · exact h
        · exact absurd h2 hc
        · exact absurd h3 hf

theorem mem_resid_fold (n : FlowNetwork) (L : List Edge) :
    ∀ (acc : FlowNetwork) (x : Edge),
      x ∈ (L.foldl (residStep n) acc).edges ↔
        x ∈ acc.edges ∨ (x ∈ L ∧ n.flow x < n.capacity x) ∨
          (x.opposite ∈ L ∧ 0 < n.flow x.opposite) := by
  induction L with
  | nil => intro acc x; simp
  | cons e t ih =>
    intro acc x
    rw [List.foldl_cons, ih]
    rw [mem_residStep]
    constructor
    · rintro ((h | ⟨heq, h⟩ | ⟨heq, h⟩) | ⟨h1, h2⟩ | ⟨h1, h2⟩)
      · exact Or.inl h
      · refine Or.inr (Or.inl ⟨?_, ?_⟩)
        · rw [heq]; exact List.mem_cons_self e t
        · rw [heq]; exact h
      · refine Or.inr (Or.inr ⟨?_, ?_⟩)
        · rw [heq, opposite_opposite]; exact List.mem_cons_self e t
        · rw [heq, opposite_opposite]; exact h
      · exact Or.inr (Or.inl ⟨List.mem_cons_of_mem e h1, h2⟩)
      · exact Or.inr (Or.inr ⟨List.mem_cons_of_mem e h1, h2⟩)
    · rintro (h | ⟨h1, h2⟩ | ⟨h1, h2⟩)
      · exact Or.inl (Or.inl h)
      · rcases List.mem_cons.mp h1 with heq | h1
        · refine Or.inl (Or.inr (Or.inl ⟨heq, ?_⟩))
          rw [← heq]; exact h2
        · exact Or.inr (Or.inl ⟨h1, h2⟩)
      · rcases List.mem_cons.mp h1 with heq | h1
        · refine Or.inl (Or.inr (Or.inr ⟨?_, ?_⟩))
          · rw [← heq, opposite_opposite]
          · rw [← heq]; exact h2
        · exact Or.inr (Or.inr ⟨h1, h2⟩)

theorem residStep_capacity_ne (n rg : FlowNetwork) (e x : Edge)
    (h1 : x ≠ e) (h2 : x ≠ e.opposite) :
    (residStep n rg e).capacity x = rg.capacity x := by
  unfold residStep
  dsimp only
  split <;> split <;>
    simp [FlowNetwork.add_edge_capacity_ne _ _ _ _ _ h1,
      FlowNetwork.add_edge_capacity_ne _ _ _ _ _ h2]

theorem resid_fold_capacity_skip (n : FlowNetwork) (L : List Edge) :
    ∀ (acc : FlowNetwork) (e : Edge), e ∉ L → e.opposite ∉ L →
      (L.foldl (residStep n) acc).capacity e = acc.capacity e := by
  induction L with
  | nil => intro acc e _ _; rfl
  | cons x t ih =>
    intro acc e he hoe
    have hxe : e ≠ x := fun h => he (h ▸ List.mem_cons_self x t)
    have hxo : e ≠ x.opposite := by
      intro h
      apply hoe
      rw [h, opposite_opposite]
      exact List.mem_cons_self x t
    rw [List.foldl_cons, ih _ e (fun h => he (List.mem_cons_of_mem x h))
      (fun h => hoe (List.mem_cons_of_mem x h))]
    exact residStep_capacity_ne n acc x e hxe hxo

theorem resid_fold_capacity_fwd (n : FlowNetwork) (L : List Edge) :
    ∀ (acc : FlowNetwork) (e : Edge), L.Nodup → e ∈ L → e.opposite ∉ L →
      n.flow e < n.capacity e →
      (L.foldl (residStep n) acc).capacity e = n.capacity e - n.flow e := by
  induction L with
  | nil => intro acc e _ he _ _; exact absurd he (List.not_mem_nil e)
  | cons x t ih =>
    intro acc e hnd he hoe hcf
    have hot : e.opposite ∉ t := fun h => hoe (List.mem_cons_of_mem x h)
    rcases List.mem_cons.mp he with rfl | het
    · have hself : e ≠ e.opposite := by
        intro h
        exact hoe (h ▸ List.mem_cons_self e t)
      have hnt : e ∉ t := (List.nodup_cons.mp hnd).1
      rw [List.foldl_cons, resid_fold_capacity_skip n t _ e hnt hot]
      unfold residStep
      dsimp only
      rw [if_pos hcf]
      split
      · rw [FlowNetwork.add_edge_capacity_ne _ _ _ _ _ hself]
        exact FlowNetwork.add_edge_capacity_self acc e _ 0
      · exact FlowNetwork.add_edge_capacity_self acc e _ 0
    · rw [List.foldl_cons]
      exact ih _ e (List.nodup_cons.mp hnd).2 het hot hcf

theorem resid_fold_capacity_bwd (n : FlowNetwork) (L : List Edge) :
    ∀ (acc : FlowNetwork) (e : Edge), L.Nodup → e.opposite ∈ L → e ∉ L →
      0 < n.flow e.opposite →
      (L.foldl (residStep n) acc).capacity e = n.flow e.opposite := by
  induction L with
  | nil => intro acc e _ he _ _; exact absurd he (List.not_mem_nil _)
  | cons x t ih =>
    intro acc e hnd heo he hf
    have het : e ∉ t := fun h => he (List.mem_cons_of_mem x h)
    rcases List.mem_cons.mp heo with hx | heot
    · subst hx
      have hself : e ≠ e.opposite := by
        intro h
        exact he (h ▸ List.mem_cons_self e.opposite t)
      have hnt : e.opposite ∉ t := (List.nodup_cons.mp hnd).1
      rw [List.foldl_cons, resid_fold_capacity_skip n t _ e het hnt]
      unfold residStep
      dsimp only
      rw [if_pos hf, opposite_opposite]
      split
      · exact FlowNetwork.add_edge_capacity_self _ e _ 0
      · exact FlowNetwork.add_edge_capacity_self _ e _ 0
    · rw [List.foldl_cons]
      exact ih _ e (List.nodup_cons.mp hnd).2 heot het hf

theorem residStep_capacity_pos (n rg : FlowNetwork) (e : Edge)
    (h : ∀ x ∈ rg.edges, 1 ≤ rg.capacity x) :
    ∀ x ∈ (residStep n rg e).edges, 1 ≤ (residStep n rg e).capacity x := by
  intro x hx
  rw [mem_residStep] at hx
  unfold residStep
  dsimp only
  split
  · rename_i hf
    split
    · rename_i hc
      by_cases hxo : x = e.opposite
      · subst hxo
        rw [FlowNetwork.add_edge_capacity_self]
        exact hf
      · rw [FlowNetwork.add_edge_capacity_ne _ _ _ _ _ hxo]
        by_cases hxe : x = e
        · subst hxe
          rw [FlowNetwork.add_edge_capacity_self]
          omega
        · rw [FlowNetwork.add_edge_capacity_ne _ _ _ _ _ hxe]
          rcases hx with hx | ⟨heq, _⟩ | ⟨heq, _⟩
          · exact h x hx
          · exact absurd heq hxe
          · exact absurd heq hxo
    · rename_i hc
      by_cases hxo : x = e.opposite
      · subst hxo
        rw [FlowNetwork.add_edge_capacity_self]
        exact hf
      · rw [FlowNetwork.add_edge_capacity_ne _ _ _ _ _ hxo]
        rcases hx with hx | ⟨heq, h2⟩ | ⟨heq, _⟩
        · exact h x hx
        · exact absurd h2 hc
        · exact absurd heq hxo
  · rename_i hf
    split
    · rename_i hc
      by_cases hxe : x = e
      · subst hxe
        rw [FlowNetwork.add_edge_capacity_self]
        omega
      · rw [FlowNetwork.add_edge_capacity_ne _ _ _ _ _ hxe]
        rcases hx with hx | ⟨heq, _⟩ | ⟨heq, h3⟩
        · exact h x hx
        · exact absurd heq hxe
        · exact absurd h3 hf
    · rename_i hc
      rcases hx with hx | ⟨heq, h2⟩ | ⟨heq, h3⟩
      · exact h x hx
      · exact absurd h2 hc
      · exact absurd h3 hf

theorem resid_fold_capacity_pos (n : FlowNetwork) (L : List Edge) :
    ∀ acc : FlowNetwork, (∀ x ∈ acc.edges, 1 ≤ acc.capacity x) →
      ∀ x ∈ (L.foldl (residStep n) acc).edges,
        1 ≤ (L.foldl (residStep n) acc).capacity x := by
  induction L with
  | nil => intro acc h; exact h
  | cons e t ih =>
    intro acc h
    rw [List.foldl_cons]
    exact ih _ (residStep_capacity_pos n acc e h)

theorem residStep_flow_zero (n rg : FlowNetwork) (e : Edge)
    (h : ∀ x, rg.flow x = 0) : ∀ x, (residStep n rg e).flow x = 0 := by
  intro x
  unfold residStep
  dsimp only
  split <;> split
  all_goals
    first
    | (by_cases hxo : x = e.opposite
       · subst hxo
         rw [FlowNetwork.add_edge_flow_self]
       · rw [FlowNetwork.add_edge_flow_ne _ _ _ _ _ hxo]
         first
         | (by_cases hxe : x = e
            · subst hxe
              rw [FlowNetwork.add_edge_flow_self]
            · rw [FlowNetwork.add_edge_flow_ne _ _ _ _ _ hxe]
              exact h x)
         | exact h x)
    | (by_cases hxe : x = e
       · subst hxe
         rw [FlowNetwork.add_edge_flow_self]
       · rw [FlowNetwork.add_edge_flow_ne _ _ _ _ _ hxe]
         exact h x)
    | exact h x

theorem resid_fold_flow_zero (n : FlowNetwork) (L : List Edge) :
    ∀ acc : FlowNetwork, (∀ x, acc.flow x = 0) →
      ∀ x, (L.foldl (residStep n) acc).flow x = 0 := by
  induction L with
  | nil => intro acc h; exact h
  | cons e t ih =>
    intro acc h
    rw [List.foldl_cons]
    exact ih _ (residStep_flow_zero n acc e h)

theorem residStep_nodup (n rg : FlowNetwork) (e : Edge)
    (h : rg.edges.Nodup) : (residStep n rg e).edges.Nodup := by
  unfold residStep
  dsimp only
  split <;> split
  · exact FlowNetwork.add_edge_nodup _ _ _ _ (FlowNetwork.add_edge_nodup _ _ _ _ h)
  · exact FlowNetwork.add_edge_nodup _ _ _ _ h
  · exact FlowNetwork.add_edge_nodup _ _ _ _ h
  · exact h

theorem resid_fold_nodup (n : FlowNetwork) (L : List Edge) :
    ∀ acc : FlowNetwork, acc.edges.Nodup →
      (L.foldl (residStep n) acc).edges.Nodup := by
  induction L with
  | nil => intro acc h; exact h
  | cons e t ih =>
    intro acc h
    rw [List.foldl_cons]
    exact ih _ (residStep_nodup n acc e h)

theorem rgOf_source (n : FlowNetwork) : (rgOf n).source = n.source := by
  unfold rgOf
  rw [construct_residual_graph_eq_fold, resid_fold_source]
  rfl

theorem rgOf_sink (n : FlowNetwork) : (rgOf n).sink = n.sink := by
  unfold rgOf
  rw [construct_residual_graph_eq_fold, resid_fold_sink]
  rfl

theorem mem_rgOf (n : FlowNetwork) (x : Edge) :
    x ∈ (rgOf n).edges ↔
      (x ∈ n.edges ∧ n.flow x < n.capacity x) ∨
        (x.opposite ∈ n.edges ∧ 0 < n.flow x.opposite) := by
  unfold rgOf
  rw [construct_residual_graph_eq_fold, mem_resid_fold]
  simp [FlowNetwork.clear, FlowNetwork.empty]

theorem rgOf_nodup (n : FlowNetwork) : (rgOf n).edges.Nodup := by
  unfold rgOf
  rw [construct_residual_graph_eq_fold]
  exact resid_fold_nodup n n.edges _ List.nodup_nil

theorem rgOf_flow (n : FlowNetwork) (x : Edge) : (rgOf n).flow x = 0 := by
  unfold rgOf
  rw [construct_residual_graph_eq_fold]
  exact resid_fold_flow_zero n n.edges ((FlowNetwork.empty n.source n.sink).clear)
    (fun _ => rfl) x

theorem rgOf_capacity_pos (n : FlowNetwork) :
    ∀ x ∈ (rgOf n).edges, 1 ≤ (rgOf n).capacity x := by
  unfold rgOf
  rw [construct_residual_graph_eq_fold]
  exact resid_fold_capacity_pos n n.edges _ (by intro x hx; exact absurd hx (List.not_mem_nil x))

theorem rgOf_capacity_fwd (n : FlowNetwork) (hnd : n.edges.Nodup) (x : Edge)
    (hx : x ∈ n.edges) (hxo : x.opposite ∉ n.edges)
    (hcf : n.flow x < n.capacity x) :
    (rgOf n).capacity x = n.capacity x - n.flow x := by
  unfold rgOf
  rw [construct_residual_graph_eq_fold]
  exact resid_fold_capacity_fwd n n.edges _ x hnd hx hxo hcf

theorem rgOf_capacity_bwd (n : FlowNetwork) (hnd : n.edges.Nodup) (x : Edge)
    (hxo : x.opposite ∈ n.edges) (hx : x ∉ n.edges)
    (hf : 0 < n.flow x.opposite) :
    (rgOf n).capacity x = n.flow x.opposite := by
  unfold rgOf
  rw [construct_residual_graph_eq_fold]
  exact resid_fold_capacity_bwd n n.edges _ x hnd hxo hx hf

theorem residStep_capacity_backoff (n rg : FlowNetwork) (y e : Edge)
    (hne : e ≠ y) (hf : n.flow y = 0) :
    (residStep n rg y).capacity e = rg.capacity e := by
  unfold residStep
  dsimp only
  rw [if_neg (by omega : ¬ n.flow y > 0)]
  split
  · exact FlowNetwork.add_edge_capacity_ne _ _ _ _ _ hne
  · rfl

theorem resid_fold_capacity_skip0 (n : FlowNetwork) : ∀ (L : List Edge) (acc : FlowNetwork)
    (e : Edge), e ∉ L → (e.opposite ∈ L → n.flow e.opposite = 0) →
    (L.foldl (residStep n) acc).capacity e = acc.capacity e := by
  intro L
  induction L with
  | nil => intro acc e _ _; rfl
  | cons x t ih =>
    intro acc e he hoe
    have hxe : e ≠ x := fun h => he (h ▸ List.mem_cons_self x t)
    rw [List.foldl_cons, ih _ e (fun h => he (List.mem_cons_of_mem x h))
      (fun h => hoe (List.mem_cons_of_mem x h))]
    by_cases hxo : x = e.opposite
    · subst hxo
      exact residStep_capacity_backoff n acc e.opposite e hxe
        (hoe (List.mem_cons_self e.opposite t))
    · have hxo2 : e ≠ x.opposite := by
        intro hh
        apply hxo
        rw [hh, opposite_opposite]
      exact residStep_capacity_ne n acc x e hxe hxo2

theorem resid_fold_capacity_fwd0 (n : FlowNetwork) : ∀ (L : List Edge) (acc : FlowNetwork)
    (e : Edge), L.Nodup → e ∈ L → (e.opposite ∈ L → n.flow e.opposite = 0) →
    n.flow e < n.capacity e →
    (L.foldl (residStep n) acc).capacity e = n.capacity e - n.flow e := by
  intro L
  induction L with
  | nil => intro acc e _ he _ _; exact absurd he (List.not_mem_nil e)
  | cons x t ih =>
    intro acc e hnd he hoe hcf
    have hot : e.opposite ∈ t → n.flow e.opposite = 0 := fun h =>
      hoe (List.mem_cons_of_mem x h)
    rcases List.mem_cons.mp he with rfl | het
    · have hnt : e ∉ t := (List.nodup_cons.mp hnd).1
      rw [List.foldl_cons, resid_fold_capacity_skip0 n t _ e hnt hot]
      unfold residStep
      dsimp only
      rw [if_pos hcf]
      by_cases hself : e = e.opposite
      · have hfz : n.flow e = 0 := by
          rw [hself]
          exact hoe (hself ▸ List.mem_cons_self e t)
        rw [if_neg (by omega : ¬ n.flow e > 0)]
        exact FlowNetwork.add_edge_capacity_self acc e _ 0
      · split
        · rw [FlowNetwork.add_edge_capacity_ne _ _ _ _ _ hself]
          exact FlowNetwork.add_edge_capacity_self acc e _ 0
        · exact FlowNetwork.add_edge_capacity_self acc e _ 0
    · rw [List.foldl_cons]
      exact ih _ e (List.nodup_cons.mp hnd).2 het hot hcf

theorem rgOf_capacity_fwd0 (n : FlowNetwork) (hnd : n.edges.Nodup) (x : Edge)
    (hx : x ∈ n.edges) (hxo : x.opposite ∈ n.edges → n.flow x.opposite = 0)
    (hcf : n.flow x < n.capacity x) :
    (rgOf n).capacity x = n.capacity x - n.flow x := by
  unfold rgOf
  rw [construct_residual_graph_eq_fold]
  exact resid_fold_capacity_fwd0 n n.edges _ x hnd hx hxo hcf

theorem exists_pos_of_sum_pos : ∀ (L : List Edge) (f : Edge → Nat),
    1 ≤ (L.map f).sum → ∃ x ∈ L, 1 ≤ f x := by
  intro L
  induction L with
  | nil => intro f h; exact absurd h (by simp)
  | cons a t ih =>
    intro f h
    by_cases ha : 1 ≤ f a
    · exact ⟨a, List.mem_cons_self a t, ha⟩
    · have hfa : f a = 0 := by omega
      simp only [List.map_cons, List.sum_cons, hfa, Nat.zero_add] at h
      obtain ⟨x, hx, hfx⟩ := ih f h
      exact ⟨x, List.mem_cons_of_mem a hx, hfx⟩

theorem le_sum_of_mem : ∀ (L : List Edge) (f : Edge → Nat) (x : Edge),
    x ∈ L → f x ≤ (L.map f).sum := by
  intro L
  induction L with
  | nil => intro f x hx; exact absurd hx (List.not_mem_nil x)
  | cons a t ih =>
    intro f x hx
    rcases List.mem_cons.mp hx with rfl | hx
    · simp only [List.map_cons, List.sum_cons]
      omega
    · have := ih f x hx
      simp only [List.map_cons, List.sum_cons]
      omega

theorem netBalance_zero_of_allzero (n : FlowNetwork)
    (h : ∀ x, n.flow x = 0) (v : Nat) : n.netBalance v = 0 := by
  unfold FlowNetwork.netBalance FlowNetwork.inflowZ FlowNetwork.outflowZ
  have h1 : ((n.incoming_edges v).map (fun e => (n.flow e : Int))).sum = 0 := by
    apply List.sum_eq_zero
    intro x hx
    obtain ⟨y, -, hy⟩ := List.mem_map.mp hx
    rw [← hy, h y]
    rfl
  have h2 : ((n.outgoing_edges v).map (fun e => (n.flow e : Int))).sum = 0 := by
    apply List.sum_eq_zero
    intro x hx
    obtain ⟨y, -, hy⟩ := List.mem_map.mp hx
    rw [← hy, h y]
    rfl
  rw [h1, h2]
  rfl

theorem walk_start_cases (lg : FlowNetwork) : ∀ p : List Edge,
    List.Chain' (fun a b => a.start = b.stop) p →
    (∀ e, p.getLast? = some e → e.start = lg.source) →
    ∀ x ∈ p, x.start = lg.source ∨ ∃ t ∈ p.tail, t.stop = x.start := by
  intro p
  induction p with
  | nil => intro _ _ x hx; exact absurd hx (List.not_mem_nil x)
  | cons e rest ih =>
    intro hchain hlast x hx
    cases rest with
    | nil =>
      rcases List.mem_cons.mp hx with rfl | hx
      · exact Or.inl (hlast x (by rw [List.getLast?_singleton]))
      · exact absurd hx (List.not_mem_nil x)
    | cons t r =>
      have hlink : e.start = t.stop := (List.chain'_cons.mp hchain).1
      have htail := (List.chain'_cons.mp hchain).2
      have hlast' : ∀ y, (t :: r).getLast? = some y → y.start = lg.source := by
        intro y hy
        apply hlast y
        rw [List.getLast?_cons_cons]
        exact hy
      rcases List.mem_cons.mp hx with rfl | hx
      · exact Or.inr ⟨t, List.mem_cons_self t r, hlink.symm⟩
      · rcases ih htail hlast' x hx with hsrc | ⟨y, hy, hys⟩
        · exact Or.inl hsrc
        · exact Or.inr ⟨y, List.mem_cons_of_mem t hy, hys⟩

theorem walk_no_sink_start (lg : FlowNetwork) (p : List Edge) (hw : SrcWalk lg p)
    (hst : lg.source ≠ lg.sink) : ∀ x ∈ p, x.start ≠ lg.sink := by
  intro x hx
  rcases walk_start_cases lg p hw.chain hw.lastSrc x hx with hsrc | ⟨t, ht, hts⟩
  · rw [hsrc]
    exact hst
  · rw [← hts]
    exact hw.tailNoSink t ht

theorem levelsGet_put (l : List (Nat × Nat)) (v n : Nat) :
    levelsGet (levelsPut l v n) v = some n := by
  induction l with
  | nil => simp [levelsPut, levelsGet]
  | cons kv rest ih =>
    obtain ⟨k, m⟩ := kv
    by_cases h : k = v
    · simp [levelsPut, h, levelsGet]
    · simp [levelsPut, h, levelsGet, ih]

theorem levelsGet_put_ne (l : List (Nat × Nat)) (v w n : Nat) (h : w ≠ v) :
    levelsGet (levelsPut l v n) w = levelsGet l w := by
  induction l with
  | nil =>
    simp [levelsPut, levelsGet]
    intro hkw
    exact absurd hkw.symm h
  | cons kv rest ih =>
    obtain ⟨k, m⟩ := kv
    by_cases hk : k = v
    · subst hk
      have hkw : ¬ (k = w) := fun hh => h hh.symm
      simp [levelsPut, levelsGet, hkw]
    · simp [levelsPut, hk, levelsGet, ih]

theorem bfs_state_basic (rg : FlowNetwork) (hrg0 : ∀ x, rg.flow x = 0)
    (st : BfsState) (h : BfsBasic rg st) (e : Edge) (rest : List Edge)
    (hw : st.worklist = e :: rest) (add : Bool)
    (haddsrc : e.stop = rg.source → add = false) :
    BfsBasic rg
      { level_graph :=
          if add then st.level_graph.add_edge e (rg.capacity e) (rg.flow e)
          else st.level_graph
        vertex_levels :=
          if add then
            levelsPut st.vertex_levels e.stop
              ((levelsGet st.vertex_levels e.start).getD 0 + 1)
          else st.vertex_levels
        worklist :=
          rest ++ (rg.outgoing_edges e.stop).filter (fun g => decide (g ∉ st.visited))
        visited :=
          st.visited ++
            (rg.outgoing_edges e.stop).filter (fun g => decide (g ∉ st.visited)) } := by
  have heW : e ∈ st.worklist := by rw [hw]; exact List.mem_cons_self e rest
  have heRg : e ∈ rg.edges := h.wlSub e heW
  constructor
  case srcLevel =>
    cases add with
    | false => simpa using h.srcLevel
    | true =>
      by_cases hstop : e.stop = rg.source
      · exact absurd (haddsrc hstop) (by simp)
      · have : rg.source ≠ e.stop := fun hh => hstop hh.symm
        simpa [levelsGet_put_ne _ _ _ _ this] using h.srcLevel
  case lgSource =>
    cases add with
    | false => simpa using h.lgSource
    | true => simpa [FlowNetwork.add_edge_source] using h.lgSource
  case lgSink =>
    cases add with
    | false => simpa using h.lgSink
    | true => simpa [FlowNetwork.add_edge_sink] using h.lgSink
  case lgNodup =>
    cases add with
    | false => simpa using h.lgNodup
    | true => simpa using FlowNetwork.add_edge_nodup _ _ _ _ h.lgNodup
  case lgSub =>
    cases add with
    | false => simpa using h.lgSub
    | true =>
      simp only [if_true]
      intro x hx
      rcases (FlowNetwork.mem_add_edge _ _ _ _ _).mp hx with hx | rfl
      · exact h.lgSub x hx
      · exact heRg
  case lgCap =>
    cases add with
    | false => simpa using h.lgCap
    | true =>
      simp only [if_true]
      intro x hx
      by_cases hxe : x = e
      · subst hxe
        rw [FlowNetwork.add_edge_capacity_self]
      · rw [FlowNetwork.add_edge_capacity_ne _ _ _ _ _ hxe]
        rcases (FlowNetwork.mem_add_edge _ _ _ _ _).mp hx with hx | hx
        · exact h.lgCap x hx
        · exact absurd hx hxe
  case lgFlow =>
    cases add with
    | false => simpa using h.lgFlow
    | true =>
      simp only [if_true]
      intro x
      by_cases hxe : x = e
      · subst hxe
        rw [FlowNetwork.add_edge_flow_self]
        exact hrg0 x
      · rw [FlowNetwork.add_edge_flow_ne _ _ _ _ _ hxe]
        exact h.lgFlow x
  case noInto =>
    cases add with
    | false => simpa using h.noInto
    | true =>
      simp only [if_true]
      intro x hx
      rcases (FlowNetwork.mem_add_edge _ _ _ _ _).mp hx with hx | rfl
      · exact h.noInto x hx
      · intro hstop
        exact absurd (haddsrc hstop) (by simp)
  case wlSub =>
    intro x hx
    rcases List.mem_append.mp hx with hx | hx
    · exact h.wlSub x (by rw [hw]; exact List.mem_cons_of_mem e hx)
    · exact ((FlowNetwork.mem_outgoing_edges _ _ _).mp (List.mem_of_mem_filter hx)).1

theorem bfsLoop_basic (rg : FlowNetwork) (hrg0 : ∀ x, rg.flow x = 0) :
    ∀ (fuel : Nat) (st : BfsState), BfsBasic rg st →
      BfsBasic rg (bfsLoop rg fuel st) := by
  intro fuel
  induction fuel with
  | zero => intro st h; exact h
  | succ f ih =>
    intro st h
    rw [bfsLoop]
    cases hw : st.worklist with
    | nil => exact h
    | cons e rest =>
      refine ih _ ?_
      refine bfs_state_basic rg hrg0 st h e rest hw _ ?_
      intro hstop
      rw [hstop, h.srcLevel]
      simp

theorem construct_level_graph_basic (rg : FlowNetwork)
    (hrg0 : ∀ x, rg.flow x = 0) (fuel : Nat) :
    BfsBasic rg (construct_level_graph rg fuel) := by
  unfold construct_level_graph
  refine bfsLoop_basic rg hrg0 fuel _ ⟨?_, ?_, ?_, ?_, ?_, ?_, ?_, ?_, ?_⟩
  · simp [levelsGet]
  · rfl
  · rfl
  · exact List.nodup_nil
  · intro x hx; exact absurd hx (List.not_mem_nil x)
  · intro x hx; exact absurd hx (List.not_mem_nil x)
  · intro x; rfl
  · intro x hx; exact absurd hx (List.not_mem_nil x)
  · intro x hx
    exact ((FlowNetwork.mem_outgoing_edges _ _ _).mp hx).1

theorem trimPath_suffix (e : Edge) : ∀ p : List Edge,
    List.IsSuffix (trimPath e p) p := by
  intro p
  induction p with
  | nil => exact List.suffix_refl []
  | cons t rest ih =>
    unfold trimPath
    by_cases h : t.stop = e.start
    · rw [if_pos h]
    · rw [if_neg h]
      exact ih.trans (List.suffix_cons t rest)

theorem trimPath_nil_or_link (e : Edge) (p : List Edge) :
    trimPath e p = [] ∨
      ∃ t rest, trimPath e p = t :: rest ∧ t.stop = e.start := by
  induction p with
  | nil => exact Or.inl rfl
  | cons t rest ih =>
    unfold trimPath
    by_cases h : t.stop = e.start
    · rw [if_pos h]
      exact Or.inr ⟨t, rest, rfl, h⟩
    · rw [if_neg h]
      exact ih

theorem trimPath_eq_nil_no_link (e : Edge) : ∀ p : List Edge,
    trimPath e p = [] → ∀ t ∈ p, t.stop ≠ e.start := by
  intro p
  induction p with
  | nil => intro _ t ht; exact absurd ht (List.not_mem_nil t)
  | cons x rest ih =>
    intro h t ht
    unfold trimPath at h
    by_cases hx : x.stop = e.start
    · rw [if_pos hx] at h
      exact absurd h (List.cons_ne_nil x rest)
    · rw [if_neg hx] at h
      rcases List.mem_cons.mp ht with rfl | ht
      · exact hx
      · exact ih h t ht

theorem stackOk_nil_iff (src : Nat) (w : List Edge) :
    StackOk src [] w ↔ ∀ e ∈ w, e.start = src := Iff.rfl

theorem stackOk_cons_iff (src : Nat) (t : Edge) (p w : List Edge) :
    StackOk src (t :: p) w ↔
      ∃ a b, w = a ++ b ∧ (∀ e ∈ a, e.start = t.stop) ∧ StackOk src p b := Iff.rfl

theorem stackOk_shrink (src : Nat) : ∀ (p : List Edge) (e : Edge) (w : List Edge),
    StackOk src p (e :: w) → StackOk src p w := by
  intro p
  induction p with
  | nil =>
    intro e w h g hg
    exact h g (List.mem_cons_of_mem e hg)
  | cons t p' ih =>
    intro e w h
    rcases h with ⟨a, b, hsplit, ha, hb⟩
    cases a with
    | nil =>
      simp only [List.nil_append] at hsplit
      subst hsplit
      exact ⟨[], w, rfl, by intro g hg; exact absurd hg (List.not_mem_nil g), ih e w hb⟩
    | cons x a' =>
      rw [List.cons_append] at hsplit
      injection hsplit with hx hsplit
      subst hx
      exact ⟨a', b, hsplit, fun g hg => ha g (List.mem_cons_of_mem e hg), hb⟩

theorem stackOk_pop_start (src : Nat) : ∀ (p : List Edge) (e : Edge) (w : List Edge),
    StackOk src p (e :: w) → e.start = src ∨ ∃ t ∈ p, t.stop = e.start := by
  intro p
  induction p with
  | nil =>
    intro e w h
    exact Or.inl (h e (List.mem_cons_self e w))
  | cons t p' ih =>
    intro e w h
    rcases h with ⟨a, b, hsplit, ha, hb⟩
    cases a with
    | nil =>
      simp only [List.nil_append] at hsplit
      subst hsplit
      rcases ih e w hb with h | ⟨x, hx, hxx⟩
      · exact Or.inl h
      · exact Or.inr ⟨x, List.mem_cons_of_mem t hx, hxx⟩
    | cons x a' =>
      rw [List.cons_append] at hsplit
      injection hsplit with hx _
      subst hx
      exact Or.inr ⟨t, List.mem_cons_self t p', (ha e (List.mem_cons_self e a')).symm⟩

theorem stackOk_trim (src : Nat) : ∀ (p : List Edge) (e : Edge) (w : List Edge),
    StackOk src p (e :: w) → StackOk src (trimPath e p) w := by
  intro p
  induction p with
  | nil =>
    intro e w h
    exact fun g hg => h g (List.mem_cons_of_mem e hg)
  | cons t p' ih =>
    intro e w h
    rcases h with ⟨a, b, hsplit, ha, hb⟩
    unfold trimPath
    cases a with
    | nil =>
      simp only [List.nil_append] at hsplit
      subst hsplit
      by_cases ht : t.stop = e.start
      · rw [if_pos ht]
        exact ⟨[], w, rfl, by intro g hg; exact absurd hg (List.not_mem_nil g),
          stackOk_shrink src p' e w hb⟩
      · rw [if_neg ht]
        exact ih e w hb
    | cons x a' =>
      rw [List.cons_append] at hsplit
      injection hsplit with hx hsplit
      subst hx
      have ht : t.stop = e.start := (ha e (List.mem_cons_self e a')).symm
      rw [if_pos ht]
      exact ⟨a', b, hsplit, fun g hg => ha g (List.mem_cons_of_mem e hg), hb⟩

theorem getLast?_append_right {α : Type} (t l : List α) (h : l ≠ []) :
    (t ++ l).getLast? = l.getLast? := by
  induction t with
  | nil => rfl
  | cons a t ih =>
    have htl : t ++ l ≠ [] := fun hh => h (List.append_eq_nil.mp hh).2
    cases hc : t ++ l with
    | nil => exact absurd hc htl
    | cons b r =>
      rw [List.cons_append, hc, List.getLast?_cons_cons, ← hc, ih]

theorem getLast?_of_suffix {l₁ l₂ : List Edge} (h : List.IsSuffix l₁ l₂)
    (hne : l₁ ≠ []) : l₂.getLast? = l₁.getLast? := by
  obtain ⟨t, rfl⟩ := h
  exact getLast?_append_right t l₁ hne

theorem dfs_pop_facts (lg : FlowNetwork) (st : DfsState) (h : DfsInv lg st)
    (e : Edge) (rest : List Edge) (hw : st.worklist = e :: rest) :
    (e :: trimPath e st.path).Nodup ∧
    (∀ x ∈ e :: trimPath e st.path, x ∈ lg.edges) ∧
    List.Chain' (fun a b => a.start = b.stop) (e :: trimPath e st.path) ∧
    (∀ x, (e :: trimPath e st.path).getLast? = some x → x.start = lg.source) := by
  have heW : e ∈ st.worklist := by rw [hw]; exact List.mem_cons_self e rest
  have heRg : e ∈ lg.edges := h.wMem e heW
  have henp : e ∉ st.path := fun hmem => (h.pW e hmem) heW
  have tsuf := trimPath_suffix e st.path
  have tsub : ∀ x ∈ trimPath e st.path, x ∈ st.path := fun x hx =>
    tsuf.sublist.mem hx
  have hstack : StackOk lg.source st.path (e :: rest) := by
    rw [← hw]; exact h.stack
  refine ⟨?_, ?_, ?_, ?_⟩
  · exact List.nodup_cons.mpr ⟨fun hh => henp (tsub e hh), h.pNodup.sublist tsuf.sublist⟩
  · intro x hx
    rcases List.mem_cons.mp hx with rfl | hx
    · exact heRg
    · exact h.pMem x (tsub x hx)
  · rcases trimPath_nil_or_link e st.path with hnil | ⟨t, r, heq, ht⟩
    · rw [hnil]
      exact List.chain'_singleton e
    · rw [heq]
      refine List.chain'_cons.mpr ⟨ht.symm, ?_⟩
      rw [← heq]
      exact h.chain.suffix tsuf
  · intro x hx
    rcases trimPath_nil_or_link e st.path with hnil | ⟨t, r, heq, ht⟩
    · rw [hnil] at hx
      simp only [List.getLast?_singleton, Option.some.injEq] at hx
      subst hx
      rcases stackOk_pop_start lg.source st.path e rest hstack with hsrc | ⟨t, htp, hts⟩
      · exact hsrc
      · exact absurd hts (trimPath_eq_nil_no_link e st.path hnil t htp)
    · rw [heq, List.getLast?_cons_cons, ← heq] at hx
      apply h.lastSrc x
      rw [getLast?_of_suffix tsuf (by rw [heq]; exact List.cons_ne_nil t r)]
      exact hx

theorem dfs_pop_walk (lg : FlowNetwork) (st : DfsState) (h : DfsInv lg st)
    (e : Edge) (rest : List Edge) (hw : st.worklist = e :: rest)
    (hsink : e.stop = lg.sink) : SrcWalk lg (e :: trimPath e st.path) := by
  obtain ⟨hnd, hsub, hchain, hlast⟩ := dfs_pop_facts lg st h e rest hw
  have tsub : ∀ x ∈ trimPath e st.path, x ∈ st.path := fun x hx =>
    (trimPath_suffix e st.path).sublist.mem hx
  refine ⟨List.cons_ne_nil e _, hsub, hnd, hchain, hlast, ?_, ?_⟩
  · intro x hx
    rw [List.head?_cons, Option.some.injEq] at hx
    rw [← hx]
    exact hsink
  · intro x hx
    exact h.pNoSink x (tsub x hx)

theorem dfs_state_inv (lg : FlowNetwork) (hlnd : lg.edges.Nodup)
    (hni : ∀ x ∈ lg.edges, x.stop ≠ lg.source)
    (st : DfsState) (h : DfsInv lg st) (e : Edge) (rest : List Edge)
    (hw : st.worklist = e :: rest) (hsink : e.stop ≠ lg.sink) :
    DfsInv lg
      { worklist :=
          ((lg.outgoing_edges e.stop).filter
            (fun g => decide (lg.available_capacity g > 0 ∧ g ∉ st.visited))).reverse ++ rest
        visited :=
          st.visited ++
            (lg.outgoing_edges e.stop).filter
              (fun g => decide (lg.available_capacity g > 0 ∧ g ∉ st.visited))
        path :=
          if (lg.outgoing_edges e.stop).filter
              (fun g => decide (lg.available_capacity g > 0 ∧ g ∉ st.visited)) = [] then
            trimPath e st.path
          else e :: trimPath e st.path } := by
  set pushes := (lg.outgoing_edges e.stop).filter
    (fun g => decide (lg.available_capacity g > 0 ∧ g ∉ st.visited)) with hpushes
  have heW : e ∈ st.worklist := by rw [hw]; exact List.mem_cons_self e rest
  have heRg : e ∈ lg.edges := h.wMem e heW
  have hestop : e.stop ≠ lg.source := hni e heRg
  have hpush : ∀ x ∈ pushes, x ∈ lg.edges ∧ x.start = e.stop ∧ x ∉ st.visited := by
    intro x hx
    rw [hpushes, List.mem_filter] at hx
    obtain ⟨hout, hdec⟩ := hx
    rw [decide_eq_true_iff] at hdec
    obtain ⟨ho1, ho2⟩ := (FlowNetwork.mem_outgoing_edges _ _ _).mp hout
    exact ⟨ho1, ho2, hdec.2⟩
  have hpushNodup : pushes.Nodup :=
    (FlowNetwork.outgoing_edges_nodup lg e.stop hlnd).filter _
  have hpushW : ∀ x ∈ pushes, x ∉ st.worklist := by
    intro x hx hxw
    obtain ⟨hx1, hx2, hx3⟩ := hpush x hx
    rcases h.wOrig x hxw with hsrc | hvis
    · obtain ⟨-, hstart⟩ := (FlowNetwork.mem_outgoing_edges _ _ _).mp hsrc
      exact hestop (by rw [← hx2, hstart])
    · exact hx3 hvis
  have hpathPush : ∀ x ∈ st.path, x ∉ pushes := by
    intro x hxp hx
    obtain ⟨hx1, hx2, hx3⟩ := hpush x hx
    rcases h.pOrig x hxp with hsrc | hvis
    · obtain ⟨-, hstart⟩ := (FlowNetwork.mem_outgoing_edges _ _ _).mp hsrc
      exact hestop (by rw [← hx2, hstart])
    · exact hx3 hvis
  have hwrest : rest.Nodup ∧ e ∉ rest := by
    have := h.wNodup
    rw [hw, List.nodup_cons] at this
    exact ⟨this.2, this.1⟩
  have tsuf := trimPath_suffix e st.path
  have tsub : ∀ x ∈ trimPath e st.path, x ∈ st.path := fun x hx =>
    tsuf.sublist.mem hx
  obtain ⟨hnd, hsub, hchain, hlast⟩ := dfs_pop_facts lg st h e rest hw
  refine ⟨?_, ?_, ?_, ?_, ?_, ?_, ?_, ?_, ?_, ?_, ?_⟩ <;> dsimp only
  next =>
    rw [List.nodup_append]
    refine ⟨List.nodup_reverse.mpr hpushNodup, hwrest.1, ?_⟩
    intro x hx hxr
    have hx' : x ∈ pushes := List.mem_reverse.mp hx
    exact hpushW x hx' (by rw [hw]; exact List.mem_cons_of_mem e hxr)
  next =>
    intro x hx
    rcases List.mem_append.mp hx with hx | hx
    · exact (hpush x (List.mem_reverse.mp hx)).1
    · exact h.wMem x (by rw [hw]; exact List.mem_cons_of_mem e hx)
  next =>
    intro x hx
    rcases List.mem_append.mp hx with hx | hx
    · exact Or.inr (List.mem_append.mpr (Or.inr (List.mem_reverse.mp hx)))
    · rcases h.wOrig x (by rw [hw]; exact List.mem_cons_of_mem e hx) with hs | hv
      · exact Or.inl hs
      · exact Or.inr (List.mem_append.mpr (Or.inl hv))
  next =>
    intro x hx
    split at hx
    · exact h.pMem x (tsub x hx)
    · exact hsub x hx
  next =>
    split
    · exact h.pNodup.sublist tsuf.sublist
    · exact hnd
  next =>
    intro x hx hxw
    have hxcases : x = e ∨ x ∈ st.path := by
      split at hx
      · exact Or.inr (tsub x hx)
      · rcases List.mem_cons.mp hx with rfl | hx
        · exact Or.inl rfl
        · exact Or.inr (tsub x hx)
    rcases hxcases with rfl | hxpath
    · rcases List.mem_append.mp hxw with hxw2 | hxw2
      · exact hpushW x (List.mem_reverse.mp hxw2) heW
      · exact hwrest.2 hxw2
    · rcases List.mem_append.mp hxw with hxw2 | hxw2
      · exact hpathPush x hxpath (List.mem_reverse.mp hxw2)
      · exact (h.pW x hxpath) (by rw [hw]; exact List.mem_cons_of_mem e hxw2)
  next =>
    intro x hx
    have hxcases : x = e ∨ x ∈ st.path := by
      split at hx
      · exact Or.inr (tsub x hx)
      · rcases List.mem_cons.mp hx with rfl | hx
        · exact Or.inl rfl
        · exact Or.inr (tsub x hx)
    rcases hxcases with rfl | hxpath
    · rcases h.wOrig x heW with hs | hv
      · exact Or.inl hs
      · exact Or.inr (List.mem_append.mpr (Or.inl hv))
    · rcases h.pOrig x hxpath with hs | hv
      · exact Or.inl hs
      · exact Or.inr (List.mem_append.mpr (Or.inl hv))
  next =>
    split
    · exact h.chain.suffix tsuf
    · exact hchain
  next =>
    intro x hx
    split at hx
    · rename_i hp
      apply h.lastSrc x
      by_cases htriv : trimPath e st.path = []
      · rw [htriv] at hx
        exact absurd hx (by simp)
      · rw [getLast?_of_suffix tsuf htriv]
        exact hx
    · exact hlast x hx
  next =>
    intro x hx
    have hxcases : x = e ∨ x ∈ st.path := by
      split at hx
      · exact Or.inr (tsub x hx)
      · rcases List.mem_cons.mp hx with rfl | hx
        · exact Or.inl rfl
        · exact Or.inr (tsub x hx)
    rcases hxcases with rfl | hxpath
    · exact hsink
    · exact h.pNoSink x hxpath
  next =>
    have hstack : StackOk lg.source st.path (e :: rest) := by
      rw [← hw]; exact h.stack
    have htrim := stackOk_trim lg.source st.path e rest hstack
    split
    · rename_i hp
      rw [hp]
      simpa using htrim
    · exact ⟨pushes.reverse, rest, rfl,
        fun g hg => (hpush g (List.mem_reverse.mp hg)).2.1, htrim⟩

theorem dfsLoop_reached_walk (lg : FlowNetwork) (hlnd : lg.edges.Nodup)
    (hni : ∀ x ∈ lg.edges, x.stop ≠ lg.source) :
    ∀ (fuel : Nat) (st : DfsState), DfsInv lg st →
      (dfsLoop lg fuel st).reached = true →
      SrcWalk lg (dfsLoop lg fuel st).path := by
  intro fuel
  induction fuel with
  | zero =>
    intro st h hr
    rw [dfsLoop] at hr
    exact absurd hr (by simp)
  | succ f ih =>
    intro st h hr
    cases hw : st.worklist with
    | nil =>
      rw [dfsLoop, hw] at hr
      exact absurd hr (by simp)
    | cons e rest =>
      simp only [dfsLoop, hw] at hr ⊢
      by_cases hsink : e.stop = lg.sink
      · rw [if_pos hsink]
        exact dfs_pop_walk lg st h e rest hw hsink
      · rw [if_neg hsink] at hr ⊢
        exact ih _ (dfs_state_inv lg hlnd hni st h e rest hw hsink) hr

theorem dfsInit_inv (lg : FlowNetwork) (hlnd : lg.edges.Nodup) :
    DfsInv lg (dfsInit lg) := by
  constructor
  case wNodup =>
    exact List.nodup_reverse.mpr (FlowNetwork.outgoing_edges_nodup lg lg.source hlnd)
  case wMem =>
    intro x hx
    exact ((FlowNetwork.mem_outgoing_edges _ _ _).mp (List.mem_reverse.mp hx)).1
  case wOrig => intro x hx; exact Or.inl (List.mem_reverse.mp hx)
  case pMem => intro x hx; exact absurd hx (List.not_mem_nil x)
  case pNodup => exact List.nodup_nil
  case pW => intro x hx; exact absurd hx (List.not_mem_nil x)
  case pOrig => intro x hx; exact absurd hx (List.not_mem_nil x)
  case chain => exact List.chain'_nil
  case lastSrc => intro x hx; exact Option.noConfusion hx
  case pNoSink => intro x hx; exact absurd hx (List.not_mem_nil x)
  case stack =>
    intro g hg
    exact ((FlowNetwork.mem_outgoing_edges _ _ _).mp (List.mem_reverse.mp hg)).2

theorem augmentPath_edges (pf : Nat) : ∀ (p : List Edge) (lg : FlowNetwork),
    (augmentPath lg pf p).edges = lg.edges := by
  intro p
  induction p with
  | nil => intro lg; rfl
  | cons e rest ih =>
    intro lg
    unfold augmentPath at ih ⊢
    rw [List.foldl_cons, ih, FlowNetwork.set_flow_edges]

theorem augmentPath_source (pf : Nat) : ∀ (p : List Edge) (lg : FlowNetwork),
    (augmentPath lg pf p).source = lg.source := by
  intro p
  induction p with
  | nil => intro lg; rfl
  | cons e rest ih =>
    intro lg
    unfold augmentPath at ih ⊢
    rw [List.foldl_cons, ih, FlowNetwork.set_flow_source]

theorem augmentPath_sink (pf : Nat) : ∀ (p : List Edge) (lg : FlowNetwork),
    (augmentPath lg pf p).sink = lg.sink := by
  intro p
  induction p with
  | nil => intro lg; rfl
  | cons e rest ih =>
    intro lg
    unfold augmentPath at ih ⊢
    rw [List.foldl_cons, ih, FlowNetwork.set_flow_sink]

theorem augmentPath_capacity (pf : Nat) : ∀ (p : List Edge) (lg : FlowNetwork) (x : Edge),
    (augmentPath lg pf p).capacity x = lg.capacity x := by
  intro p
  induction p with
  | nil => intro lg x; rfl
  | cons e rest ih =>
    intro lg x
    unfold augmentPath at ih ⊢
    rw [List.foldl_cons, ih, FlowNetwork.set_flow_capacity]

theorem augmentPath_flow (pf : Nat) : ∀ (p : List Edge) (lg : FlowNetwork),
    p.Nodup → (∀ x ∈ p, x ∈ lg.edges) →
    ∀ x, (augmentPath lg pf p).flow x = lg.flow x + (if x ∈ p then pf else 0) := by
  intro p
  induction p with
  | nil => intro lg _ _ x; simp [augmentPath]
  | cons e rest ih =>
    intro lg hnd hsub x
    have he : e ∈ lg.edges := hsub e (List.mem_cons_self e rest)
    have hstep : augmentPath lg pf (e :: rest) =
        augmentPath (lg.set_flow e (lg.flow e + pf)) pf rest := by
      unfold augmentPath
      rw [List.foldl_cons]
    rw [hstep, ih (lg.set_flow e (lg.flow e + pf)) (List.nodup_cons.mp hnd).2
      (by intro y hy; rw [FlowNetwork.set_flow_edges]; exact hsub y (List.mem_cons_of_mem e hy))]
    by_cases hxe : x = e
    · subst hxe
      rw [FlowNetwork.set_flow_flow_self lg x _ he]
      have hxr : x ∉ rest := (List.nodup_cons.mp hnd).1
      simp [hxr]
    · rw [FlowNetwork.set_flow_flow_ne lg e x _ hxe]
      by_cases hxr : x ∈ rest
      · simp [hxr, List.mem_cons, hxe]
      · have : x ∉ e :: rest := by
          intro hh
          rcases List.mem_cons.mp hh with hh | hh
          · exact hxe hh
          · exact hxr hh
        simp [hxr, this]

theorem foldl_min_le_start : ∀ (vs : List Nat) (a : Nat), vs.foldl min a ≤ a := by
  intro vs
  induction vs with
  | nil => intro a; exact Nat.le_refl a
  | cons c vs ih =>
    intro a
    rw [List.foldl_cons]
    exact Nat.le_trans (ih (min a c)) (Nat.min_le_left a c)

theorem foldl_min_le_mem : ∀ (vs : List Nat) (a b : Nat), b ∈ vs → vs.foldl min a ≤ b := by
  intro vs
  induction vs with
  | nil => intro a b hb; exact absurd hb (List.not_mem_nil b)
  | cons c vs ih =>
    intro a b hb
    rw [List.foldl_cons]
    rcases List.mem_cons.mp hb with rfl | hb
    · exact Nat.le_trans (foldl_min_le_start vs (min a b)) (Nat.min_le_right a b)
    · exact ih (min a c) b hb

theorem foldl_min_zero : ∀ (vs : List Nat) (a : Nat), vs.foldl min a = 0 →
    a = 0 ∨ ∃ b ∈ vs, b = 0 := by
  intro vs
  induction vs with
  | nil => intro a h; exact Or.inl h
  | cons c vs ih =>
    intro a h
    rw [List.foldl_cons] at h
    rcases ih (min a c) h with hmin | ⟨b, hb, hb0⟩
    · rcases Nat.min_eq_zero_iff.mp hmin with h | h
      · exact Or.inl h
      · exact Or.inr ⟨c, List.mem_cons_self c vs, h⟩
    · exact Or.inr ⟨b, List.mem_cons_of_mem c hb, hb0⟩

theorem sum_map_ite_mem (p : List Edge) (pf : Nat) : ∀ L : List Edge,
    (L.map (fun x => if x ∈ p then pf else 0)).sum =
      pf * (L.filter (fun x => decide (x ∈ p))).length := by
  intro L
  induction L with
  | nil => rfl
  | cons a t ih =>
    by_cases h : a ∈ p
    · simp only [List.map_cons, List.sum_cons, if_pos h, List.filter_cons,
        decide_eq_true h, ih]
      simp [Nat.mul_succ, Nat.mul_add]
      omega
    · simp only [List.map_cons, List.sum_cons, if_neg h, List.filter_cons, ih]
      simp [h]

theorem length_filter_eq_of_mem_iff {A B : List Edge} (hA : A.Nodup) (hB : B.Nodup)
    (h : ∀ x, x ∈ A ↔ x ∈ B) : A.length = B.length :=
  Nat.le_antisymm
    (flow_network.length_le_of_nodup_subset A B hA (fun x hx => (h x).mp hx))
    (flow_network.length_le_of_nodup_subset B A hB (fun x hx => (h x).mpr hx))

theorem length_filter_cons {α : Type} (p : α → Bool) (a : α) (l : List α) :
    (List.filter p (a :: l)).length =
      (if p a then 1 else 0) + (List.filter p l).length := by
  by_cases h : p a <;> simp [List.filter_cons, h] <;> omega

theorem mem_of_getLast? {α : Type} : ∀ (l : List α) (a : α), l.getLast? = some a → a ∈ l := by
  intro l
  induction l with
  | nil => intro a h; exact absurd h (by simp)
  | cons x t ih =>
    intro a h
    cases t with
    | nil =>
      rw [List.getLast?_singleton, Option.some.injEq] at h
      rw [h]
      exact List.mem_cons_self a []
    | cons y r =>
      rw [List.getLast?_cons_cons] at h
      exact List.mem_cons_of_mem x (ih a h)

theorem walk_count (v : Nat) : ∀ (p : List Edge),
    List.Chain' (fun a b => a.start = b.stop) p →
    ∀ q h : Edge, p.getLast? = some q → p.head? = some h →
    ((p.filter (fun x => decide (x.stop = v))).length : Int) -
        (p.filter (fun x => decide (x.start = v))).length =
      (if h.stop = v then (1 : Int) else 0) - (if q.start = v then 1 else 0) := by
  intro p
  induction p with
  | nil => intro _ q _ hq _; exact absurd hq (by simp)
  | cons e rest ih =>
    intro hchain q h hq hh
    rw [List.head?_cons, Option.some.injEq] at hh
    subst hh
    cases rest with
    | nil =>
      rw [List.getLast?_singleton, Option.some.injEq] at hq
      subst hq
      by_cases h1 : e.stop = v <;> by_cases h2 : e.start = v <;>
        simp [List.filter_cons, h1, h2]
    | cons t r =>
      rw [List.getLast?_cons_cons] at hq
      have hlink : e.start = t.stop := (List.chain'_cons.mp hchain).1
      have htail := (List.chain'_cons.mp hchain).2
      have IH := ih htail q t hq rfl
      rw [length_filter_cons (fun x => decide (x.stop = v)) e (t :: r),
        length_filter_cons (fun x => decide (x.start = v)) e (t :: r), hlink]
      push_cast
      by_cases h1 : e.stop = v <;> by_cases h2 : t.stop = v <;>
        simp [h1, h2] at IH ⊢ <;>
        omega

theorem augment_inflow (lg : FlowNetwork) (pf : Nat) (p : List Edge)
    (hnd : p.Nodup) (hsub : ∀ x ∈ p, x ∈ lg.edges) (hlnd : lg.edges.Nodup)
    (v : Nat) :
    (augmentPath lg pf p).inflow v =
      lg.inflow v + pf * (p.filter (fun x => decide (x.stop = v))).length := by
  unfold FlowNetwork.inflow
  have hedges : (augmentPath lg pf p).incoming_edges v = lg.incoming_edges v := by
    unfold FlowNetwork.incoming_edges
    rw [augmentPath_edges]
  rw [hedges]
  rw [List.map_congr_left (fun x _ => augmentPath_flow pf p lg hnd hsub x)]
  rw [sum_map_add_distrib, sum_map_ite_mem p pf (lg.incoming_edges v)]
  congr 2
  apply length_filter_eq_of_mem_iff
  · exact (FlowNetwork.incoming_edges_nodup lg v hlnd).filter _
  · exact hnd.filter _
  · intro x
    simp only [List.mem_filter, FlowNetwork.mem_incoming_edges, decide_eq_true_eq]
    constructor
    · rintro ⟨⟨-, hs⟩, hp⟩
      exact ⟨hp, hs⟩
    · rintro ⟨hp, hs⟩
      exact ⟨⟨hsub x hp, hs⟩, hp⟩

theorem augment_outflow (lg : FlowNetwork) (pf : Nat) (p : List Edge)
    (hnd : p.Nodup) (hsub : ∀ x ∈ p, x ∈ lg.edges) (hlnd : lg.edges.Nodup)
    (v : Nat) :
    (augmentPath lg pf p).outflow v =
      lg.outflow v + pf * (p.filter (fun x => decide (x.start = v))).length := by
  unfold FlowNetwork.outflow
  have hedges : (augmentPath lg pf p).outgoing_edges v = lg.outgoing_edges v := by
    unfold FlowNetwork.outgoing_edges
    rw [augmentPath_edges]
  rw [hedges]
  rw [List.map_congr_left (fun x _ => augmentPath_flow pf p lg hnd hsub x)]
  rw [sum_map_add_distrib, sum_map_ite_mem p pf (lg.outgoing_edges v)]
  congr 2
  apply length_filter_eq_of_mem_iff
  · exact (FlowNetwork.outgoing_edges_nodup lg v hlnd).filter _
  · exact hnd.filter _
  · intro x
    simp only [List.mem_filter, FlowNetwork.mem_outgoing_edges, decide_eq_true_eq]
    constructor
    · rintro ⟨⟨-, hs⟩, hp⟩
      exact ⟨hp, hs⟩
    · rintro ⟨hp, hs⟩
      exact ⟨⟨hsub x hp, hs⟩, hp⟩

theorem augment_balance (lg : FlowNetwork) (pf : Nat) (p : List Edge)
    (hlnd : lg.edges.Nodup) (hw : SrcWalk lg p) (v : Nat)
    (hv1 : v ≠ lg.source) (hv2 : v ≠ lg.sink) :
    (augmentPath lg pf p).netBalance v = lg.netBalance v := by
  obtain ⟨hne, hsub, hnd, hchain, hlast, hhead, -⟩ := hw
  obtain ⟨q, hq⟩ : ∃ q, p.getLast? = some q := by
    cases hp : p with
    | nil => exact absurd hp hne
    | cons a t =>
      cases t with
      | nil => exact ⟨a, by rw [List.getLast?_singleton]⟩
      | cons b r => exact ⟨(b :: r).getLast (List.cons_ne_nil b r), by
          rw [List.getLast?_cons_cons]
          exact (List.getLast?_eq_getLast (b :: r) (List.cons_ne_nil b r))⟩
  obtain ⟨h, hh⟩ : ∃ h, p.head? = some h := by
    cases hp : p with
    | nil => exact absurd hp hne
    | cons a t => exact ⟨a, rfl⟩
  have hcount := walk_count v p hchain q h hq hh
  have hhs : h.stop = lg.sink := hhead h hh
  have hqs : q.start = lg.source := hlast q hq
  have hn1 : ¬ (h.stop = v) := by
    intro hh'
    exact hv2 (by rw [← hh', hhs])
  have hn2 : ¬ (q.start = v) := by
    intro hh'
    exact hv1 (by rw [← hh', hqs])
  rw [if_neg hn1, if_neg hn2] at hcount
  have hcc : (p.filter (fun x => decide (x.stop = v))).length =
      (p.filter (fun x => decide (x.start = v))).length := by omega
  unfold FlowNetwork.netBalance
  rw [← FlowNetwork.inflow_eq_inflowZ, ← FlowNetwork.outflow_eq_outflowZ,
    ← FlowNetwork.inflow_eq_inflowZ, ← FlowNetwork.outflow_eq_outflowZ]
  rw [augment_inflow lg pf p hnd hsub hlnd v, augment_outflow lg pf p hnd hsub hlnd v,
    hcc]
  push_cast
  ring

theorem augment_outflow_src (lg : FlowNetwork) (pf : Nat) (p : List Edge)
    (hlnd : lg.edges.Nodup) (hw : SrcWalk lg p) :
    lg.outflow lg.source + pf ≤ (augmentPath lg pf p).outflow lg.source := by
  obtain ⟨hne, hsub, hnd, hchain, hlast, hhead, -⟩ := hw
  rw [augment_outflow lg pf p hnd hsub hlnd lg.source]
  obtain ⟨q, hq⟩ : ∃ q, p.getLast? = some q := by
    cases hp : p with
    | nil => exact absurd hp hne
    | cons a t =>
      cases t with
      | nil => exact ⟨a, by rw [List.getLast?_singleton]⟩
      | cons b r => exact ⟨(b :: r).getLast (List.cons_ne_nil b r), by
          rw [List.getLast?_cons_cons]
          exact (List.getLast?_eq_getLast (b :: r) (List.cons_ne_nil b r))⟩
  have hqmem : q ∈ p.filter (fun x => decide (x.start = lg.source)) := by
    rw [List.mem_filter]
    exact ⟨mem_of_getLast? p q hq, by rw [decide_eq_true_iff]; exact hlast q hq⟩
  have hlen : 1 ≤ (p.filter (fun x => decide (x.start = lg.source))).length :=
    List.length_pos.mpr (fun hh => by rw [hh] at hqmem; exact absurd hqmem (List.not_mem_nil q))
  have : pf * 1 ≤ pf * (p.filter (fun x => decide (x.start = lg.source))).length :=
    Nat.mul_le_mul_left pf hlen
  omega

theorem blockRes_refl (lg : FlowNetwork) (once : Bool) (hok : LgOk lg)
    (hzo : AllZeroFlows lg ∨ 1 ≤ lg.outflow lg.source) : BlockRes lg lg once once :=
  ⟨rfl, rfl, rfl, fun _ => rfl, hok, fun _ => Nat.le_refl _, fun h => h,
    Nat.le_refl _, hzo, fun h => Or.inl h, fun h _ x hx => h x hx⟩

theorem blockingLoop_res (dfsF : Nat) : ∀ (fuel : Nat) (lg : FlowNetwork) (once : Bool),
    LgOk lg → (AllZeroFlows lg ∨ 1 ≤ lg.outflow lg.source) →
    BlockRes lg (blockingLoop dfsF fuel lg once).1 once
      (blockingLoop dfsF fuel lg once).2.1 := by
  intro fuel
  induction fuel with
  | zero =>
    intro lg once hok hzo
    exact blockRes_refl lg once hok hzo
  | succ f ih =>
    intro lg once hok hzo
    simp only [blockingLoop]
    by_cases hr : (dfsLoop lg dfsF (dfsInit lg)).reached = true
    · rw [if_pos hr]
      have hwalk := dfsLoop_reached_walk lg hok.nodup hok.noInto dfsF (dfsInit lg)
        (dfsInit_inv lg hok.nodup) hr
      cases hm : (dfsLoop lg dfsF (dfsInit lg)).path.map lg.available_capacity with
      | nil =>
        exact absurd (List.map_eq_nil.mp hm) hwalk.ne
      | cons a vs =>
        dsimp only
        have hple : ∀ x ∈ (dfsLoop lg dfsF (dfsInit lg)).path,
            vs.foldl min a ≤ lg.available_capacity x := by
          intro x hx
          have hmem : lg.available_capacity x ∈ a :: vs := by
            rw [← hm]
            exact List.mem_map_of_mem lg.available_capacity hx
          rcases List.mem_cons.mp hmem with heq | hmem
          · rw [heq]
            exact foldl_min_le_start vs a
          · exact foldl_min_le_mem vs a _ hmem
        by_cases hpf : vs.foldl min a = 0
        · rw [if_pos hpf]
          have hnz : 1 ≤ lg.outflow lg.source := by
            rcases hzo with hzero | hpos
            · exfalso
              rcases foldl_min_zero vs a hpf with ha | ⟨b, hb, hb0⟩
              · have : a ∈ a :: vs := List.mem_cons_self a vs
                rw [← hm] at this
                obtain ⟨x, hx, hax⟩ := List.mem_map.mp this
                have hxe : x ∈ lg.edges := hwalk.sub x hx
                have hcap := hok.capPos x hxe
                have hzf := hzero x hxe
                rw [ha] at hax
                unfold FlowNetwork.available_capacity at hax
                by_cases hge : lg.flow x ≥ lg.capacity x
                · rw [if_pos hge] at hax
                  omega
                · rw [if_neg hge] at hax
                  omega
              · have : b ∈ a :: vs := List.mem_cons_of_mem a hb
                rw [← hm] at this
                obtain ⟨x, hx, hax⟩ := List.mem_map.mp this
                have hxe : x ∈ lg.edges := hwalk.sub x hx
                have hcap := hok.capPos x hxe
                have hzf := hzero x hxe
                rw [hb0] at hax
                unfold FlowNetwork.available_capacity at hax
                by_cases hge : lg.flow x ≥ lg.capacity x
                · rw [if_pos hge] at hax
                  omega
                · rw [if_neg hge] at hax
                  omega
            · exact hpos
          exact ⟨rfl, rfl, rfl, fun _ => rfl, hok, fun _ => Nat.le_refl _,
            fun h => h, Nat.le_refl _, Or.inr hnz, fun _ => Or.inr hnz,
            fun h _ x hx => h x hx⟩
        · rw [if_neg hpf]
          have hpf1 : 1 ≤ vs.foldl min a := by omega
          have hnd := hwalk.nodup
          have hsub := hwalk.sub
          have hedges1 := augmentPath_edges (vs.foldl min a)
            (dfsLoop lg dfsF (dfsInit lg)).path lg
          have hsrc1 := augmentPath_source (vs.foldl min a)
            (dfsLoop lg dfsF (dfsInit lg)).path lg
          have hsink1 := augmentPath_sink (vs.foldl min a)
            (dfsLoop lg dfsF (dfsInit lg)).path lg
          have hcap1 := augmentPath_capacity (vs.foldl min a)
            (dfsLoop lg dfsF (dfsInit lg)).path lg
          have hflow1 := augmentPath_flow (vs.foldl min a)
            (dfsLoop lg dfsF (dfsInit lg)).path lg hnd hsub
          have hflowle1 : ∀ x ∈ lg.edges,
              (augmentPath lg (vs.foldl min a) (dfsLoop lg dfsF (dfsInit lg)).path).flow x ≤
                (augmentPath lg (vs.foldl min a) (dfsLoop lg dfsF (dfsInit lg)).path).capacity x := by
            intro x hx
            rw [hcap1 x, hflow1 x]
            by_cases hxp : x ∈ (dfsLoop lg dfsF (dfsInit lg)).path
            · have hav := hple x hxp
              unfold FlowNetwork.available_capacity at hav
              rw [if_pos hxp]
              by_cases hge : lg.flow x ≥ lg.capacity x
              · rw [if_pos hge] at hav
                omega
              · rw [if_neg hge] at hav
                omega
            · rw [if_neg hxp]
              have := hok.flowLe x hx
              omega
          have hok1 : LgOk (augmentPath lg (vs.foldl min a) (dfsLoop lg dfsF (dfsInit lg)).path) := by
            refine ⟨?_, ?_, ?_, ?_⟩
            · rw [hedges1]; exact hok.nodup
            · intro x hx
              rw [hedges1] at hx
              rw [hsrc1]
              exact hok.noInto x hx
            · intro x hx
              rw [hedges1] at hx
              rw [hcap1 x]
              exact hok.capPos x hx
            · intro x hx
              rw [hedges1] at hx
              exact hflowle1 x hx
          have houtsrc := augment_outflow_src lg (vs.foldl min a)
            (dfsLoop lg dfsF (dfsInit lg)).path hok.nodup hwalk
          have hzo1 : AllZeroFlows (augmentPath lg (vs.foldl min a) (dfsLoop lg dfsF (dfsInit lg)).path) ∨
              1 ≤ (augmentPath lg (vs.foldl min a) (dfsLoop lg dfsF (dfsInit lg)).path).outflow
                (augmentPath lg (vs.foldl min a) (dfsLoop lg dfsF (dfsInit lg)).path).source := by
            refine Or.inr ?_
            rw [hsrc1]
            omega
          have IH := ih (augmentPath lg (vs.foldl min a) (dfsLoop lg dfsF (dfsInit lg)).path)
            true hok1 hzo1
          have hout1 : 1 ≤ (augmentPath lg (vs.foldl min a) (dfsLoop lg dfsF (dfsInit lg)).path).outflow lg.source := by
            omega
          refine ⟨?_, ?_, ?_, ?_, IH.ok, ?_, ?_, ?_, ?_, ?_, ?_⟩
          · rw [IH.edges, hedges1]
          · rw [IH.source, hsrc1]
          · rw [IH.sink, hsink1]
          · intro x
            rw [IH.cap x, hcap1 x]
          · intro x
            refine Nat.le_trans ?_ (IH.mono x)
            rw [hflow1 x]
            omega
          · intro hbal v hv1 hv2
            have hbal1 : ∀ v, v ≠ (augmentPath lg (vs.foldl min a) (dfsLoop lg dfsF (dfsInit lg)).path).source →
                v ≠ (augmentPath lg (vs.foldl min a) (dfsLoop lg dfsF (dfsInit lg)).path).sink →
                (augmentPath lg (vs.foldl min a) (dfsLoop lg dfsF (dfsInit lg)).path).netBalance v = 0 := by
              intro w hw1 hw2
              rw [hsrc1] at hw1
              rw [hsink1] at hw2
              rw [augment_balance lg (vs.foldl min a) (dfsLoop lg dfsF (dfsInit lg)).path
                hok.nodup hwalk w hw1 hw2]
              exact hbal w hw1 hw2
            refine IH.balance hbal1 v ?_ ?_
            · rw [hsrc1]; exact hv1
            · rw [hsink1]; exact hv2
          · have h2 := IH.outMono
            rw [hsrc1] at h2
            omega
          · rcases IH.zeroOut with hz | ho
            · exact Or.inl hz
            · rw [hsrc1] at ho
              exact Or.inr ho
          · intro _
            refine Or.inr ?_
            have h2 := IH.outMono
            rw [hsrc1] at h2
            omega
          · intro hz hst x hx
            have hz1 : ∀ y, y.start =
                (augmentPath lg (vs.foldl min a) (dfsLoop lg dfsF (dfsInit lg)).path).sink →
                (augmentPath lg (vs.foldl min a) (dfsLoop lg dfsF (dfsInit lg)).path).flow y = 0 := by
              intro y hy
              rw [hsink1] at hy
              rw [hflow1 y]
              by_cases hyp : y ∈ (dfsLoop lg dfsF (dfsInit lg)).path
              · exact absurd hy (walk_no_sink_start lg _ hwalk hst y hyp)
              · rw [if_neg hyp]
                rw [hz y hy]
            have hst1 : (augmentPath lg (vs.foldl min a) (dfsLoop lg dfsF (dfsInit lg)).path).source ≠
                (augmentPath lg (vs.foldl min a) (dfsLoop lg dfsF (dfsInit lg)).path).sink := by
              rw [hsrc1, hsink1]
              exact hst
            refine IH.sinkStart hz1 hst1 x ?_
            rw [hsink1]
            exact hx
    · rw [if_neg hr]
      exact blockRes_refl lg once hok hzo

theorem applyFlows_eq_fold (net lg : FlowNetwork) :
    applyFlows net lg = lg.edges.foldl (applyStep lg) net := rfl

theorem applyStep_edges (lg m : FlowNetwork) (e : Edge) :
    (applyStep lg m e).edges = m.edges := by
  unfold applyStep
  dsimp only
  split
  · rfl
  · split
    · rw [FlowNetwork.set_flow_edges]
    · split
      · rw [FlowNetwork.set_flow_edges]
      · rfl

theorem applyStep_source (lg m : FlowNetwork) (e : Edge) :
    (applyStep lg m e).source = m.source := by
  unfold applyStep
  dsimp only
  split
  · rfl
  · split
    · rw [FlowNetwork.set_flow_source]
    · split
      · rw [FlowNetwork.set_flow_source]
      · rfl

theorem applyStep_sink (lg m : FlowNetwork) (e : Edge) :
    (applyStep lg m e).sink = m.sink := by
  unfold applyStep
  dsimp only
  split
  · rfl
  · split
    · rw [FlowNetwork.set_flow_sink]
    · split
      · rw [FlowNetwork.set_flow_sink]
      · rfl

theorem applyStep_capacity (lg m : FlowNetwork) (e x : Edge) :
    (applyStep lg m e).capacity x = m.capacity x := by
  unfold applyStep
  dsimp only
  split
  · rfl
  · split
    · rw [FlowNetwork.set_flow_capacity]
    · split
      · rw [FlowNetwork.set_flow_capacity]
      · rfl

theorem apply_fold_edges (lg : FlowNetwork) : ∀ (L : List Edge) (m : FlowNetwork),
    (L.foldl (applyStep lg) m).edges = m.edges := by
  intro L
  induction L with
  | nil => intro m; rfl
  | cons e t ih =>
    intro m
    rw [List.foldl_cons, ih, applyStep_edges]

theorem apply_fold_source (lg : FlowNetwork) : ∀ (L : List Edge) (m : FlowNetwork),
    (L.foldl (applyStep lg) m).source = m.source := by
  intro L
  induction L with
  | nil => intro m; rfl
  | cons e t ih =>
    intro m
    rw [List.foldl_cons, ih, applyStep_source]

theorem apply_fold_sink (lg : FlowNetwork) : ∀ (L : List Edge) (m : FlowNetwork),
    (L.foldl (applyStep lg) m).sink = m.sink := by
  intro L
  induction L with
  | nil => intro m; rfl
  | cons e t ih =>
    intro m
    rw [List.foldl_cons, ih, applyStep_sink]

theorem apply_fold_capacity (lg : FlowNetwork) : ∀ (L : List Edge) (m : FlowNetwork) (x : Edge),
    (L.foldl (applyStep lg) m).capacity x = m.capacity x := by
  intro L
  induction L with
  | nil => intro m x; rfl
  | cons e t ih =>
    intro m x
    rw [List.foldl_cons, ih, applyStep_capacity]

theorem addOn_cons (m lg : FlowNetwork) (e : Edge) (L : List Edge) (x : Edge)
    (hnd : e ∉ L) :
    addOn m lg (e :: L) x =
      addOn m lg L x + (if x = e ∧ x ∈ m.edges then lg.flow x else 0) := by
  unfold addOn
  by_cases hxe : x = e
  · subst hxe
    by_cases hm : x ∈ m.edges
    · simp [hm, hnd]
    · simp [hm]
  · simp only [List.mem_cons]
    by_cases hxl : x ∈ L
    · simp [hxl, hxe]
    · simp [hxl, hxe]

theorem subOn_cons (m lg : FlowNetwork) (e : Edge) (L : List Edge) (x : Edge)
    (hnd : e ∉ L) :
    subOn m lg (e :: L) x =
      subOn m lg L x +
        (if x.opposite = e ∧ x.opposite ∉ m.edges ∧ x ∈ m.edges then
          lg.flow x.opposite else 0) := by
  unfold subOn
  by_cases hxe : x.opposite = e
  · by_cases hg1 : x.opposite ∈ m.edges
    · simp [hg1]
    · by_cases hg2 : x ∈ m.edges
      · simp [hxe, hg1, hg2, hnd, List.mem_cons]
      · simp [hg2]
  · simp only [List.mem_cons]
    by_cases hxl : x.opposite ∈ L
    · simp [hxl, hxe]
    · simp [hxl, hxe]

theorem subOn_le_cons (m lg : FlowNetwork) (e : Edge) (L : List Edge) (x : Edge)
    (hnd : e ∉ L) : subOn m lg L x ≤ subOn m lg (e :: L) x := by
  rw [subOn_cons m lg e L x hnd]
  omega

theorem apply_fold_flow (lg : FlowNetwork) : ∀ (L : List Edge), L.Nodup →
    ∀ (m : FlowNetwork) (x : Edge), subOn m lg L x ≤ m.flow x →
    (L.foldl (applyStep lg) m).flow x = m.flow x + addOn m lg L x - subOn m lg L x := by
  intro L
  induction L with
  | nil =>
    intro _ m x _
    simp [addOn, subOn]
  | cons e L ih =>
    intro hnd m x hsub
    have henl : e ∉ L := (List.nodup_cons.mp hnd).1
    have hndl : L.Nodup := (List.nodup_cons.mp hnd).2
    rw [List.foldl_cons]
    have hedg : (applyStep lg m e).edges = m.edges := applyStep_edges lg m e
    have haddc : addOn (applyStep lg m e) lg L x = addOn m lg L x := by
      unfold addOn; rw [hedg]
    have hsubc : subOn (applyStep lg m e) lg L x = subOn m lg L x := by
      unfold subOn; rw [hedg]
    rw [addOn_cons m lg e L x henl, subOn_cons m lg e L x henl]
    rw [subOn_cons m lg e L x henl] at hsub
    by_cases hf : lg.flow e = 0
    · have hm' : applyStep lg m e = m := by
        unfold applyStep
        dsimp only
        rw [if_pos hf]
      rw [hm']
      rw [ih hndl m x (by omega)]
      have ha0 : (if x = e ∧ x ∈ m.edges then lg.flow x else 0) = 0 := by
        split
        · rename_i hh
          rw [hh.1]
          exact hf
        · rfl
      have hs0 : (if x.opposite = e ∧ x.opposite ∉ m.edges ∧ x ∈ m.edges then
          lg.flow x.opposite else 0) = 0 := by
        split
        · rename_i hh
          rw [hh.1]
          exact hf
        · rfl
      omega
    · by_cases hmem : e ∈ m.edges
      · have hm'flow : ∀ y, (applyStep lg m e).flow y =
            if y = e then m.flow e + lg.flow e else m.flow y := by
          intro y
          unfold applyStep
          dsimp only
          rw [if_neg hf, if_pos hmem]
          by_cases hy : y = e
          · rw [if_pos hy, hy]
            exact FlowNetwork.set_flow_flow_self m e _ hmem
          · rw [if_neg hy]
            exact FlowNetwork.set_flow_flow_ne m e y _ hy
        have hs0 : (if x.opposite = e ∧ x.opposite ∉ m.edges ∧ x ∈ m.edges then
            lg.flow x.opposite else 0) = 0 := by
          split
          · rename_i hh
            exact absurd (hh.1 ▸ hmem) hh.2.1
          · rfl
        have hsub' : subOn (applyStep lg m e) lg L x ≤ (applyStep lg m e).flow x := by
          rw [hsubc, hm'flow x]
          by_cases hy : x = e
          · rw [if_pos hy]
            have hfx : m.flow x = m.flow e := by rw [hy]
            omega
          · rw [if_neg hy]
            omega
        have hihres := ih hndl (applyStep lg m e) x hsub'
        rw [haddc, hsubc, hm'flow x] at hihres
        rw [hihres]
        by_cases hxe : x = e
        · rw [if_pos hxe]
          have ha : (if x = e ∧ x ∈ m.edges then lg.flow x else 0) = lg.flow e := by
            rw [if_pos ⟨hxe, hxe ▸ hmem⟩, hxe]
          have hfx : m.flow x = m.flow e := by rw [hxe]
          omega
        · rw [if_neg hxe]
          have ha0 : (if x = e ∧ x ∈ m.edges then lg.flow x else 0) = 0 := by
            simp [hxe]
          omega
      · by_cases hopp : e.opposite ∈ m.edges
        · have hm'flow : ∀ y, (applyStep lg m e).flow y =
              if y = e.opposite then m.flow e.opposite - lg.flow e else m.flow y := by
            intro y
            unfold applyStep
            dsimp only
            rw [if_neg hf, if_neg hmem, if_pos hopp]
            by_cases hy : y = e.opposite
            · rw [if_pos hy, hy]
              exact FlowNetwork.set_flow_flow_self m e.opposite _ hopp
            · rw [if_neg hy]
              exact FlowNetwork.set_flow_flow_ne m e.opposite y _ hy
          have ha0 : (if x = e ∧ x ∈ m.edges then lg.flow x else 0) = 0 := by
            split
            · rename_i hh
              exact absurd (hh.1 ▸ hh.2) hmem
            · rfl
          by_cases hy : x = e.opposite
          · have hxo : x.opposite = e := by rw [hy, opposite_opposite]
            have hxoL : x.opposite ∉ L := by rw [hxo]; exact henl
            have hsL0 : subOn m lg L x = 0 := by
              unfold subOn
              simp [hxoL]
            have hxm : x ∈ m.edges := by rw [hy]; exact hopp
            have hxom : x.opposite ∉ m.edges := by rw [hxo]; exact hmem
            have hsx : (if x.opposite = e ∧ x.opposite ∉ m.edges ∧ x ∈ m.edges then
                lg.flow x.opposite else 0) = lg.flow e := by
              rw [if_pos ⟨hxo, hxom, hxm⟩, hxo]
            have hsub' : subOn (applyStep lg m e) lg L x ≤ (applyStep lg m e).flow x := by
              rw [hsubc, hsL0, hm'flow x]
              omega
            have hihres := ih hndl (applyStep lg m e) x hsub'
            rw [haddc, hsubc, hm'flow x, hsL0, if_pos hy] at hihres
            rw [hihres, hsL0]
            have hfx : m.flow x = m.flow e.opposite := by rw [hy]
            omega
          · have hs0 : (if x.opposite = e ∧ x.opposite ∉ m.edges ∧ x ∈ m.edges then
                lg.flow x.opposite else 0) = 0 := by
              split
              · rename_i hh
                have hx : x = e.opposite := by rw [← hh.1, opposite_opposite]
                exact absurd hx hy
              · rfl
            have hsub' : subOn (applyStep lg m e) lg L x ≤ (applyStep lg m e).flow x := by
              rw [hsubc, hm'flow x, if_neg hy]
              omega
            have hihres := ih hndl (applyStep lg m e) x hsub'
            rw [haddc, hsubc, hm'flow x, if_neg hy] at hihres
            rw [hihres]
            omega
        · have hm' : applyStep lg m e = m := by
            unfold applyStep
            dsimp only
            rw [if_neg hf, if_neg hmem, if_neg hopp]
          have ha0 : (if x = e ∧ x ∈ m.edges then lg.flow x else 0) = 0 := by
            split
            · rename_i hh
              exact absurd (hh.1 ▸ hh.2) hmem
            · rfl
          have hs0 : (if x.opposite = e ∧ x.opposite ∉ m.edges ∧ x ∈ m.edges then
              lg.flow x.opposite else 0) = 0 := by
            split
            · rename_i hh
              have hx : x = e.opposite := by rw [← hh.1, opposite_opposite]
              exact absurd (hx ▸ hh.2.2) hopp
            · rfl
          rw [hm', ih hndl m x (by omega)]
          omega

theorem sum_map_add_int {α : Type} (L : List α) (f g : α → Int) :
    (L.map (fun x => f x + g x)).sum = (L.map f).sum + (L.map g).sum := by
  induction L with
  | nil => rfl
  | cons a t ih => simp [ih]; ring

theorem sum_map_sub_int {α : Type} (L : List α) (f g : α → Int) :
    (L.map (fun x => f x - g x)).sum = (L.map f).sum - (L.map g).sum := by
  induction L with
  | nil => rfl
  | cons a t ih => simp [ih]; ring

theorem sum_map_update_int (t : Edge) (val : Int) (f : Edge → Int) :
    ∀ M : List Edge, M.Nodup → t ∈ M →
    (M.map (fun x => if x = t then val else f x)).sum = (M.map f).sum + val - f t := by
  intro M
  induction M with
  | nil => intro _ ht; exact absurd ht (List.not_mem_nil t)
  | cons a M ih =>
    intro hnd ht
    rcases List.mem_cons.mp ht with heq | ht
    · have hnm : t ∉ M := by
        rw [heq]
        exact (List.nodup_cons.mp hnd).1
      have hhead : (if a = t then val else f a) = val := by rw [if_pos heq.symm]
      simp only [List.map_cons, List.sum_cons]
      rw [hhead]
      have hrest : (M.map (fun x => if x = t then val else f x)).sum = (M.map f).sum := by
        apply congrArg
        apply List.map_congr_left
        intro x hx
        exact if_neg (fun hh : x = t => hnm (hh ▸ hx))
      rw [hrest, ← heq]
      ring
    · have hat : a ≠ t := by
        intro hh
        exact (List.nodup_cons.mp hnd).1 (hh ▸ ht)
      simp only [List.map_cons, List.sum_cons, if_neg hat]
      rw [ih (List.nodup_cons.mp hnd).2 ht]
      ring

theorem sum_map_update_int_notmem (t : Edge) (val : Int) (f : Edge → Int)
    (M : List Edge) (ht : t ∉ M) :
    (M.map (fun x => if x = t then val else f x)).sum = (M.map f).sum := by
  apply congrArg
  apply List.map_congr_left
  intro x hx
  exact if_neg (fun hh : x = t => ht (hh ▸ hx))

theorem set_flow_flow_fun (m : FlowNetwork) (t : Edge) (val : Nat)
    (ht : t ∈ m.edges) (x : Edge) :
    (m.set_flow t val).flow x = if x = t then val else m.flow x := by
  by_cases hx : x = t
  · rw [if_pos hx, hx]
    exact FlowNetwork.set_flow_flow_self m t val ht
  · rw [if_neg hx]
    exact FlowNetwork.set_flow_flow_ne m t x val hx

theorem set_flow_inflowZ (m : FlowNetwork) (hnd : m.edges.Nodup) (t : Edge)
    (val : Nat) (ht : t ∈ m.edges) (v : Nat) :
    (m.set_flow t val).inflowZ v =
      m.inflowZ v + (if t.stop = v then (val : Int) - m.flow t else 0) := by
  unfold FlowNetwork.inflowZ
  have hedges : (m.set_flow t val).incoming_edges v = m.incoming_edges v := by
    unfold FlowNetwork.incoming_edges
    rw [FlowNetwork.set_flow_edges]
  rw [hedges]
  have hcong : ((m.incoming_edges v).map (fun e => ((m.set_flow t val).flow e : Int))).sum =
      ((m.incoming_edges v).map (fun e => if e = t then (val : Int) else (m.flow e : Int))).sum := by
    apply congrArg
    apply List.map_congr_left
    intro x _
    rw [set_flow_flow_fun m t val ht x]
    by_cases hx : x = t
    · rw [if_pos hx, if_pos hx]
    · rw [if_neg hx, if_neg hx]
  rw [hcong]
  by_cases hts : t.stop = v
  · have htin : t ∈ m.incoming_edges v :=
      (FlowNetwork.mem_incoming_edges m v t).mpr ⟨ht, hts⟩
    rw [sum_map_update_int t (val : Int) (fun e => (m.flow e : Int)) (m.incoming_edges v)
      (FlowNetwork.incoming_edges_nodup m v hnd) htin]
    rw [if_pos hts]
    ring
  · have htin : t ∉ m.incoming_edges v := by
      intro hh
      exact hts ((FlowNetwork.mem_incoming_edges m v t).mp hh).2
    rw [sum_map_update_int_notmem t (val : Int) (fun e => (m.flow e : Int)) _ htin]
    rw [if_neg hts]
    ring

theorem set_flow_outflowZ (m : FlowNetwork) (hnd : m.edges.Nodup) (t : Edge)
    (val : Nat) (ht : t ∈ m.edges) (v : Nat) :
    (m.set_flow t val).outflowZ v =
      m.outflowZ v + (if t.start = v then (val : Int) - m.flow t else 0) := by
  unfold FlowNetwork.outflowZ
  have hedges : (m.set_flow t val).outgoing_edges v = m.outgoing_edges v := by
    unfold FlowNetwork.outgoing_edges
    rw [FlowNetwork.set_flow_edges]
  rw [hedges]
  have hcong : ((m.outgoing_edges v).map (fun e => ((m.set_flow t val).flow e : Int))).sum =
      ((m.outgoing_edges v).map (fun e => if e = t then (val : Int) else (m.flow e : Int))).sum := by
    apply congrArg
    apply List.map_congr_left
    intro x _
    rw [set_flow_flow_fun m t val ht x]
    by_cases hx : x = t
    · rw [if_pos hx, if_pos hx]
    · rw [if_neg hx, if_neg hx]
  rw [hcong]
  by_cases hts : t.start = v
  · have htin : t ∈ m.outgoing_edges v :=
      (FlowNetwork.mem_outgoing_edges m v t).mpr ⟨ht, hts⟩
    rw [sum_map_update_int t (val : Int) (fun e => (m.flow e : Int)) (m.outgoing_edges v)
      (FlowNetwork.outgoing_edges_nodup m v hnd) htin]
    rw [if_pos hts]
    ring
  · have htin : t ∉ m.outgoing_edges v := by
      intro hh
      exact hts ((FlowNetwork.mem_outgoing_edges m v t).mp hh).2
    rw [sum_map_update_int_notmem t (val : Int) (fun e => (m.flow e : Int)) _ htin]
    rw [if_neg hts]
    ring

theorem applyStep_balance (lg m : FlowNetwork) (hnd : m.edges.Nodup) (e : Edge)
    (hso : e ∉ m.edges → e.opposite ∈ m.edges → lg.flow e ≤ m.flow e.opposite)
    (hcov : 0 < lg.flow e → e ∈ m.edges ∨ e.opposite ∈ m.edges) (v : Nat) :
    (applyStep lg m e).netBalance v = m.netBalance v +
      (lg.flow e : Int) *
        ((if e.stop = v then 1 else 0) - (if e.start = v then 1 else 0)) := by
  by_cases hf : lg.flow e = 0
  · have hm' : applyStep lg m e = m := by
      unfold applyStep
      dsimp only
      rw [if_pos hf]
    rw [hm', hf]
    push_cast
    ring
  · by_cases hmem : e ∈ m.edges
    · have hm' : applyStep lg m e = m.set_flow e (m.flow e + lg.flow e) := by
        unfold applyStep
        dsimp only
        rw [if_neg hf, if_pos hmem]
      rw [hm']
      unfold FlowNetwork.netBalance
      rw [set_flow_inflowZ m hnd e _ hmem v, set_flow_outflowZ m hnd e _ hmem v]
      push_cast
      by_cases h1 : e.stop = v <;> by_cases h2 : e.start = v <;>
        simp [h1, h2] <;> ring
    · by_cases hopp : e.opposite ∈ m.edges
      · have hm' : applyStep lg m e =
            m.set_flow e.opposite (m.flow e.opposite - lg.flow e) := by
          unfold applyStep
          dsimp only
          rw [if_neg hf, if_neg hmem, if_pos hopp]
        have hle : lg.flow e ≤ m.flow e.opposite := hso hmem hopp
        rw [hm']
        unfold FlowNetwork.netBalance
        rw [set_flow_inflowZ m hnd e.opposite _ hopp v,
          set_flow_outflowZ m hnd e.opposite _ hopp v]
        have hcast : ((m.flow e.opposite - lg.flow e : Nat) : Int) =
            (m.flow e.opposite : Int) - lg.flow e := by
          omega
        rw [hcast, opposite_start, opposite_stop]
        by_cases h1 : e.stop = v <;> by_cases h2 : e.start = v <;>
          simp [h1, h2] <;> ring
      · have hf0 : lg.flow e = 0 := by
          by_contra hc
          rcases hcov (Nat.pos_of_ne_zero hc) with h | h
          · exact hmem h
          · exact hopp h
        exact absurd hf0 hf

theorem apply_fold_balanceZ (lg : FlowNetwork) : ∀ (L : List Edge), L.Nodup →
    ∀ (m : FlowNetwork), m.edges.Nodup →
    (∀ e ∈ L, e ∉ m.edges → e.opposite ∈ m.edges → lg.flow e ≤ m.flow e.opposite) →
    (∀ e ∈ L, 0 < lg.flow e → e ∈ m.edges ∨ e.opposite ∈ m.edges) →
    ∀ v, (L.foldl (applyStep lg) m).netBalance v =
      m.netBalance v +
        (L.map (fun e => (lg.flow e : Int) *
          ((if e.stop = v then 1 else 0) - (if e.start = v then 1 else 0)))).sum := by
  intro L
  induction L with
  | nil =>
    intro _ m _ _ _ v
    simp
  | cons e L ih =>
    intro hnd m hmnd hso hcov v
    rw [List.foldl_cons]
    have hedg : (applyStep lg m e).edges = m.edges := applyStep_edges lg m e
    have hso' : ∀ x ∈ L, x ∉ (applyStep lg m e).edges →
        x.opposite ∈ (applyStep lg m e).edges →
        lg.flow x ≤ (applyStep lg m e).flow x.opposite := by
      intro x hx hxm hxo
      rw [hedg] at hxm hxo
      have hbase := hso x (List.mem_cons_of_mem e hx) hxm hxo
      by_cases hf : lg.flow e = 0
      · have hm' : applyStep lg m e = m := by
          unfold applyStep
          dsimp only
          rw [if_pos hf]
        rw [hm']
        exact hbase
      · by_cases hmem : e ∈ m.edges
        · have hm' : applyStep lg m e = m.set_flow e (m.flow e + lg.flow e) := by
            unfold applyStep
            dsimp only
            rw [if_neg hf, if_pos hmem]
          rw [hm', set_flow_flow_fun m e _ hmem x.opposite]
          split
          · rename_i hh
            rw [hh] at hbase
            omega
          · exact hbase
        · by_cases hopp : e.opposite ∈ m.edges
          · have hm' : applyStep lg m e =
                m.set_flow e.opposite (m.flow e.opposite - lg.flow e) := by
              unfold applyStep
              dsimp only
              rw [if_neg hf, if_neg hmem, if_pos hopp]
            rw [hm', set_flow_flow_fun m e.opposite _ hopp x.opposite]
            split
            · rename_i hh
              have hxe : x = e := by
                have hinj := congrArg Edge.opposite hh
                rwa [opposite_opposite, opposite_opposite] at hinj
              exact absurd hx (hxe ▸ (List.nodup_cons.mp hnd).1)
            · exact hbase
          · have hm' : applyStep lg m e = m := by
              unfold applyStep
              dsimp only
              rw [if_neg hf, if_neg hmem, if_neg hopp]
            rw [hm']
            exact hbase
    have hcov' : ∀ x ∈ L, 0 < lg.flow x →
        x ∈ (applyStep lg m e).edges ∨ x.opposite ∈ (applyStep lg m e).edges := by
      intro x hx hfx
      rw [hedg]
      exact hcov x (List.mem_cons_of_mem e hx) hfx
    rw [ih (List.nodup_cons.mp hnd).2 (applyStep lg m e) (hedg ▸ hmnd) hso' hcov' v]
    rw [applyStep_balance lg m hmnd e
      (hso e (List.mem_cons_self e L)) (hcov e (List.mem_cons_self e L)) v]
    simp only [List.map_cons, List.sum_cons]
    ring

theorem netBalance_as_sum (lg : FlowNetwork) (v : Nat) :
    lg.netBalance v =
      (lg.edges.map (fun e => (lg.flow e : Int) *
        ((if e.stop = v then 1 else 0) - (if e.start = v then 1 else 0)))).sum := by
  unfold FlowNetwork.netBalance FlowNetwork.inflowZ FlowNetwork.outflowZ
  unfold FlowNetwork.incoming_edges FlowNetwork.outgoing_edges
  rw [sum_map_filter_eq_int lg.edges (fun e => decide (e.stop = v))
      (fun e => (lg.flow e : Int)),
    sum_map_filter_eq_int lg.edges (fun e => decide (e.start = v))
      (fun e => (lg.flow e : Int))]
  rw [← sum_map_sub_int]
  apply congrArg
  apply List.map_congr_left
  intro x _
  by_cases h1 : x.stop = v <;> by_cases h2 : x.start = v <;>
    simp [h1, h2] <;> ring

theorem applyFlows_balance (net lg : FlowNetwork) (hnnd : net.edges.Nodup)
    (hgnd : lg.edges.Nodup)
    (hso : ∀ e ∈ lg.edges, e ∉ net.edges → e.opposite ∈ net.edges →
      lg.flow e ≤ net.flow e.opposite)
    (hcov : ∀ e ∈ lg.edges, 0 < lg.flow e → e ∈ net.edges ∨ e.opposite ∈ net.edges)
    (v : Nat) :
    (applyFlows net lg).netBalance v = net.netBalance v + lg.netBalance v := by
  rw [applyFlows_eq_fold]
  rw [apply_fold_balanceZ lg lg.edges hgnd net hnnd hso hcov v]
  rw [netBalance_as_sum lg v]

theorem emapGet_zero_of_all : ∀ (m : EMap), (∀ p ∈ m, p.2 = 0) → ∀ (e : Edge),
    emapGet m e = 0 := by
  intro m
  induction m with
  | nil => intro _ e; rfl
  | cons p t ih =>
    intro h e
    obtain ⟨k, v⟩ := p
    show (if k = e then v else emapGet t e) = 0
    split
    · exact h (k, v) (List.mem_cons_self _ _)
    · exact ih (fun q hq => h q (List.mem_cons_of_mem _ hq)) e

theorem lgOk_of_basic (rg : FlowNetwork) (st : BfsState)
    (hcp : ∀ x ∈ rg.edges, 1 ≤ rg.capacity x) (hb : BfsBasic rg st) :
    LgOk st.level_graph := by
  refine ⟨hb.lgNodup, ?_, ?_, ?_⟩
  · intro x hx
    rw [hb.lgSource]
    exact hb.noInto x hx
  · intro x hx
    rw [hb.lgCap x hx]
    exact hcp x (hb.lgSub x hx)
  · intro x hx
    rw [hb.lgFlow x]
    exact Nat.zero_le _

theorem applyFlows_edges (net lg : FlowNetwork) : (applyFlows net lg).edges = net.edges := by
  rw [applyFlows_eq_fold]
  exact apply_fold_edges lg lg.edges net

theorem applyFlows_source (net lg : FlowNetwork) :
    (applyFlows net lg).source = net.source := by
  rw [applyFlows_eq_fold]
  exact apply_fold_source lg lg.edges net

theorem applyFlows_sink (net lg : FlowNetwork) : (applyFlows net lg).sink = net.sink := by
  rw [applyFlows_eq_fold]
  exact apply_fold_sink lg lg.edges net

theorem applyFlows_capacity (net lg : FlowNetwork) (x : Edge) :
    (applyFlows net lg).capacity x = net.capacity x := by
  rw [applyFlows_eq_fold]
  exact apply_fold_capacity lg lg.edges net x

theorem applyFlows_flow (net lg : FlowNetwork) (hgnd : lg.edges.Nodup) (x : Edge)
    (hsub : subOn net lg lg.edges x ≤ net.flow x) :
    (applyFlows net lg).flow x =
      net.flow x + addOn net lg lg.edges x - subOn net lg lg.edges x := by
  rw [applyFlows_eq_fold]
  exact apply_fold_flow lg lg.edges hgnd net x hsub

theorem subOn_zero_of_opp_not_mem (net lg : FlowNetwork) (L : List Edge) (x : Edge)
    (h : x.opposite ∉ L) : subOn net lg L x = 0 := by
  unfold subOn
  rw [if_neg (fun hh => h hh.1)]

theorem subOn_le_flow (net lg : FlowNetwork)
    (hso : ∀ e ∈ lg.edges, e ∉ net.edges → e.opposite ∈ net.edges →
      lg.flow e ≤ net.flow e.opposite) (x : Edge) :
    subOn net lg lg.edges x ≤ net.flow x := by
  unfold subOn
  split
  · rename_i hg
    obtain ⟨hg1, hg2, hg3⟩ := hg
    have := hso x.opposite hg1 hg2 (by rw [opposite_opposite]; exact hg3)
    rwa [opposite_opposite] at this
  · exact Nat.zero_le _

theorem applyFlows_outflow_src (net lg : FlowNetwork) (hgnd : lg.edges.Nodup)
    (hnoInto : ∀ e ∈ lg.edges, e.stop ≠ net.source) :
    (applyFlows net lg).outflow net.source =
      net.outflow net.source +
        ((net.outgoing_edges net.source).map (fun x => addOn net lg lg.edges x)).sum := by
  unfold FlowNetwork.outflow
  have hog : (applyFlows net lg).outgoing_edges net.source =
      net.outgoing_edges net.source := by
    unfold FlowNetwork.outgoing_edges
    rw [applyFlows_edges]
  rw [hog]
  have hmap : (net.outgoing_edges net.source).map (applyFlows net lg).flow =
      (net.outgoing_edges net.source).map
        (fun x => net.flow x + addOn net lg lg.edges x) := by
    apply List.map_congr_left
    intro x hx
    have hxs : x.start = net.source :=
      ((FlowNetwork.mem_outgoing_edges net net.source x).mp hx).2
    have hxo : x.opposite ∉ lg.edges := by
      intro hmem
      exact hnoInto x.opposite hmem (by rw [opposite_stop, hxs])
    have hs0 : subOn net lg lg.edges x = 0 :=
      subOn_zero_of_opp_not_mem net lg lg.edges x hxo
    rw [applyFlows_flow net lg hgnd x (by rw [hs0]; exact Nat.zero_le _), hs0]
    omega
  rw [hmap, sum_map_add_distrib]

theorem applyFlows_outflow_src_progress (net lg : FlowNetwork) (hgnd : lg.edges.Nodup)
    (hnoInto : ∀ e ∈ lg.edges, e.stop ≠ net.source)
    (hsrcmem : ∀ e ∈ lg.edges, e.start = net.source → 0 < lg.flow e → e ∈ net.edges)
    (hpos : 1 ≤ lg.outflow net.source) :
    net.outflow net.source + 1 ≤ (applyFlows net lg).outflow net.source := by
  rw [applyFlows_outflow_src net lg hgnd hnoInto]
  have h1 : 1 ≤ ((net.outgoing_edges net.source).map
      (fun x => addOn net lg lg.edges x)).sum := by
    unfold FlowNetwork.outflow at hpos
    obtain ⟨e, he, hfe⟩ := exists_pos_of_sum_pos (lg.outgoing_edges net.source) lg.flow hpos
    obtain ⟨heg, hes⟩ := (FlowNetwork.mem_outgoing_edges lg net.source e).mp he
    have hen : e ∈ net.edges := hsrcmem e heg hes hfe
    have heout : e ∈ net.outgoing_edges net.source :=
      (FlowNetwork.mem_outgoing_edges net net.source e).mpr ⟨hen, hes⟩
    have hadd : 1 ≤ addOn net lg lg.edges e := by
      unfold addOn
      rw [if_pos ⟨heg, hen⟩]
      exact hfe
    have h2 : addOn net lg lg.edges e ≤
        ((net.outgoing_edges net.source).map (fun x => addOn net lg lg.edges x)).sum :=
      le_sum_of_mem (net.outgoing_edges net.source)
        (fun x => addOn net lg lg.edges x) e heout
    omega
  omega

theorem sum_map_mul_left_int {α : Type} (L : List α) (c : Int) (f : α → Int) :
    (L.map (fun x => c * f x)).sum = c * (L.map f).sum := by
  induction L with
  | nil => simp
  | cons a t ih =>
    simp only [List.map_cons, List.sum_cons, ih]
    ring

theorem sum_sum_comm {α β : Type} (L : List α) (M : List β) (f : α → β → Int) :
    (L.map (fun a => (M.map (f a)).sum)).sum =
      (M.map (fun b => (L.map (fun a => f a b)).sum)).sum := by
  induction L with
  | nil =>
    have h : (M.map (fun b => (([] : List α).map (fun a => f a b)).sum)).sum = 0 := by
      apply List.sum_eq_zero
      intro x hx
      obtain ⟨b, -, hb⟩ := List.mem_map.mp hx
      rw [← hb]
      rfl
    rw [h]
    rfl
  | cons a t ih =>
    simp only [List.map_cons, List.sum_cons, ih, sum_map_add_int]

theorem sum_indicator_zero {α : Type} [DecidableEq α] (V : List α) (a : α) (ha : a ∉ V) :
    (V.map (fun v => if a = v then (1 : Int) else 0)).sum = 0 := by
  apply List.sum_eq_zero
  intro x hx
  obtain ⟨v, hv, hxv⟩ := List.mem_map.mp hx
  rw [← hxv, if_neg]
  intro h
  exact ha (h ▸ hv)

theorem sum_indicator_one {α : Type} [DecidableEq α] : ∀ (V : List α), V.Nodup →
    ∀ (a : α), a ∈ V → (V.map (fun v => if a = v then (1 : Int) else 0)).sum = 1 := by
  intro V
  induction V with
  | nil => intro _ a ha; exact absurd ha (List.not_mem_nil a)
  | cons v t ih =>
    intro hnd a ha
    simp only [List.map_cons, List.sum_cons]
    by_cases hav : a = v
    · rw [if_pos hav]
      have hat : a ∉ t := by
        rw [hav]
        exact (List.nodup_cons.mp hnd).1
      rw [sum_indicator_zero t a hat]
      omega
    · rw [if_neg hav]
      rcases List.mem_cons.mp ha with heq | hat
      · exact absurd heq hav
      · rw [ih (List.nodup_cons.mp hnd).2 a hat]
        omega

theorem mem_vertices_of_edge (n : FlowNetwork) (e : Edge) (he : e ∈ n.edges) :
    e.start ∈ n.vertices ∧ e.stop ∈ n.vertices := by
  unfold FlowNetwork.vertices
  constructor <;>
    · rw [List.mem_dedup]
      exact List.mem_flatMap.mpr ⟨e, he, by simp⟩

theorem vertices_nodup (n : FlowNetwork) : n.vertices.Nodup := List.nodup_dedup _

theorem sum_netBalance_vertices (n : FlowNetwork) :
    (n.vertices.map n.netBalance).sum = 0 := by
  have hrw : n.vertices.map n.netBalance = n.vertices.map (fun v =>
      (n.edges.map (fun e => (n.flow e : Int) *
        ((if e.stop = v then 1 else 0) - (if e.start = v then 1 else 0)))).sum) := by
    apply List.map_congr_left
    intro v _
    exact netBalance_as_sum n v
  rw [hrw, sum_sum_comm]
  apply List.sum_eq_zero
  intro x hx
  obtain ⟨e, he, hex⟩ := List.mem_map.mp hx
  rw [← hex]
  have hsplit : (n.vertices.map (fun v => (n.flow e : Int) *
      ((if e.stop = v then 1 else 0) - (if e.start = v then 1 else 0)))).sum =
      (n.flow e : Int) *
          (n.vertices.map (fun v => if e.stop = v then (1 : Int) else 0)).sum -
        (n.flow e : Int) *
          (n.vertices.map (fun v => if e.start = v then (1 : Int) else 0)).sum := by
    rw [← sum_map_mul_left_int, ← sum_map_mul_left_int, ← sum_map_sub_int]
    apply congrArg
    apply List.map_congr_left
    intro v _
    ring
  rw [hsplit, sum_indicator_one n.vertices (vertices_nodup n) e.stop
      (mem_vertices_of_edge n e he).2,
    sum_indicator_one n.vertices (vertices_nodup n) e.start
      (mem_vertices_of_edge n e he).1]
  ring

theorem sum_map_eq_of_zero_off {α : Type} [DecidableEq α] (a b : α) (f : α → Int)
    (hab : a ≠ b) : ∀ (V : List α), V.Nodup → (∀ v ∈ V, v ≠ a → v ≠ b → f v = 0) →
    (V.map f).sum = (if a ∈ V then f a else 0) + (if b ∈ V then f b else 0) := by
  intro V
  induction V with
  | nil =>
    intro _ _
    simp
  | cons v t ih =>
    intro hnd h0
    have hvt : v ∉ t := (List.nodup_cons.mp hnd).1
    have hndt : t.Nodup := (List.nodup_cons.mp hnd).2
    have h0t : ∀ w ∈ t, w ≠ a → w ≠ b → f w = 0 :=
      fun w hw => h0 w (List.mem_cons_of_mem v hw)
    rw [List.map_cons, List.sum_cons, ih hndt h0t]
    by_cases hva : v = a
    · subst hva
      rw [if_pos (List.mem_cons_self v t), if_neg hvt]
      have hbvt : b ∈ v :: t ↔ b ∈ t := by
        constructor
        · intro h
          rcases List.mem_cons.mp h with h | h
          · exact absurd h.symm hab
          · exact h
        · exact List.mem_cons_of_mem v
      by_cases hbt : b ∈ t
      · rw [if_pos hbt, if_pos (hbvt.mpr hbt)]
        ring
      · rw [if_neg hbt, if_neg (fun h => hbt (hbvt.mp h))]
        ring
    · by_cases hvb : v = b
      · subst hvb
        rw [if_pos (List.mem_cons_self v t), if_neg hvt]
        have havt : a ∈ v :: t ↔ a ∈ t := by
          constructor
          · intro h
            rcases List.mem_cons.mp h with h | h
            · exact absurd h hab
            · exact h
          · exact List.mem_cons_of_mem v
        by_cases hat : a ∈ t
        · rw [if_pos hat, if_pos (havt.mpr hat)]
          ring
        · rw [if_neg hat, if_neg (fun h => hat (havt.mp h))]
          ring
      · have hfv : f v = 0 := h0 v (List.mem_cons_self v t) hva hvb
        rw [hfv]
        have havt : a ∈ v :: t ↔ a ∈ t := by
          constructor
          · intro h
            rcases List.mem_cons.mp h with h | h
            · exact absurd h.symm hva
            · exact h
          · exact List.mem_cons_of_mem v
        have hbvt : b ∈ v :: t ↔ b ∈ t := by
          constructor
          · intro h
            rcases List.mem_cons.mp h with h | h
            · exact absurd h.symm hvb
            · exact h
          · exact List.mem_cons_of_mem v
        by_cases hat : a ∈ t <;> by_cases hbt : b ∈ t
        · rw [if_pos hat, if_pos (havt.mpr hat), if_pos hbt, if_pos (hbvt.mpr hbt)]
          ring
        · rw [if_pos hat, if_pos (havt.mpr hat), if_neg hbt,
            if_neg (fun h => hbt (hbvt.mp h))]
          ring
        · rw [if_neg hat, if_neg (fun h => hat (havt.mp h)), if_pos hbt,
            if_pos (hbvt.mpr hbt)]
          ring
        · rw [if_neg hat, if_neg (fun h => hat (havt.mp h)), if_neg hbt,
            if_neg (fun h => hbt (hbvt.mp h))]
          ring

theorem outflow_zero_of_not_mem_vertices (n : FlowNetwork) (v : Nat)
    (h : v ∉ n.vertices) : n.outflow v = 0 := by
  unfold FlowNetwork.outflow
  apply List.sum_eq_zero
  intro x hx
  obtain ⟨e, he, hex⟩ := List.mem_map.mp hx
  have hmem := (FlowNetwork.mem_outgoing_edges n v e).mp he
  exact absurd (hmem.2 ▸ (mem_vertices_of_edge n e hmem.1).1) h

theorem inflow_zero_of_not_mem_vertices (n : FlowNetwork) (v : Nat)
    (h : v ∉ n.vertices) : n.inflow v = 0 := by
  unfold FlowNetwork.inflow
  apply List.sum_eq_zero
  intro x hx
  obtain ⟨e, he, hex⟩ := List.mem_map.mp hx
  have hmem := (FlowNetwork.mem_incoming_edges n v e).mp he
  exact absurd (hmem.2 ▸ (mem_vertices_of_edge n e hmem.1).2) h

theorem inflow_zero_of_quiet (n : FlowNetwork) (v : Nat)
    (h : ∀ e ∈ n.edges, e.stop = v → n.flow e = 0) : n.inflow v = 0 := by
  unfold FlowNetwork.inflow
  apply List.sum_eq_zero
  intro x hx
  obtain ⟨e, he, hex⟩ := List.mem_map.mp hx
  have hmem := (FlowNetwork.mem_incoming_edges n v e).mp he
  rw [← hex]
  exact h e hmem.1 hmem.2

theorem outflow_zero_of_quiet (n : FlowNetwork) (v : Nat)
    (h : ∀ e ∈ n.edges, e.start = v → n.flow e = 0) : n.outflow v = 0 := by
  unfold FlowNetwork.outflow
  apply List.sum_eq_zero
  intro x hx
  obtain ⟨e, he, hex⟩ := List.mem_map.mp hx
  have hmem := (FlowNetwork.mem_outgoing_edges n v e).mp he
  rw [← hex]
  exact h e hmem.1 hmem.2

theorem inflow_sink_eq_outflow_source (n : FlowNetwork) (h : NetInvC3 n) :
    n.inflow n.sink = n.outflow n.source := by
  have hsum := sum_netBalance_vertices n
  have hdec := sum_map_eq_of_zero_off n.source n.sink n.netBalance h.stne n.vertices
    (vertices_nodup n) (fun v _ hv1 hv2 => h.bal v hv1 hv2)
  rw [hsum] at hdec
  have hinS : n.inflow n.source = 0 := inflow_zero_of_quiet n n.source h.srcIn
  have houtK : n.outflow n.sink = 0 := outflow_zero_of_quiet n n.sink h.sinkOut
  have hbS : n.netBalance n.source = -(n.outflow n.source : Int) := by
    unfold FlowNetwork.netBalance
    rw [← FlowNetwork.inflow_eq_inflowZ, ← FlowNetwork.outflow_eq_outflowZ, hinS]
    push_cast
    ring
  have hbK : n.netBalance n.sink = (n.inflow n.sink : Int) := by
    unfold FlowNetwork.netBalance
    rw [← FlowNetwork.inflow_eq_inflowZ, ← FlowNetwork.outflow_eq_outflowZ, houtK]
    push_cast
    ring
  by_cases hS : n.source ∈ n.vertices <;> by_cases hK : n.sink ∈ n.vertices
  · rw [if_pos hS, if_pos hK, hbS, hbK] at hdec
    omega
  · rw [if_pos hS, if_neg hK, hbS] at hdec
    have h2 : n.inflow n.sink = 0 := inflow_zero_of_not_mem_vertices n n.sink hK
    omega
  · rw [if_neg hS, if_pos hK, hbK] at hdec
    have h2 : n.outflow n.source = 0 := outflow_zero_of_not_mem_vertices n n.source hS
    omega
  · have h2 : n.inflow n.sink = 0 := inflow_zero_of_not_mem_vertices n n.sink hK
    have h3 : n.outflow n.source = 0 := outflow_zero_of_not_mem_vertices n n.source hS
    omega

theorem validate_of_inv (n : FlowNetwork) (h : NetInvC3 n) :
    n.validate (some (n.outflow n.source)) = true := by
  unfold FlowNetwork.validate
  rw [Bool.and_eq_true, Bool.and_eq_true]
  refine ⟨⟨?_, ?_⟩, ?_⟩
  · rw [List.all_eq_true]
    intro e he
    simp only [decide_eq_true_eq]
    exact h.acap e he
  · rw [List.all_eq_true]
    intro v hv
    by_cases hvs : v = n.source ∨ v = n.sink
    · rw [if_pos hvs]
    · rw [if_neg hvs]
      push_neg at hvs
      have hb := h.bal v hvs.1 hvs.2
      unfold FlowNetwork.netBalance at hb
      rw [← FlowNetwork.inflow_eq_inflowZ, ← FlowNetwork.outflow_eq_outflowZ] at hb
      simp only [decide_eq_true_eq]
      omega
  · show (decide (n.outflow n.source = n.outflow n.source) &&
      decide (n.inflow n.sink = n.outflow n.source)) = true
    rw [Bool.and_eq_true]
    refine ⟨decide_eq_true rfl, decide_eq_true (inflow_sink_eq_outflow_source n h)⟩

theorem phase_spec (n : FlowNetwork) :
    ((phase n).hasBlocking = false ∧ (phase n).network = n) ∨
    ((phase n).hasBlocking = true ∧ ∃ lgf,
      BlockRes (construct_level_graph (rgOf n) (bfsFuelFor (rgOf n))).level_graph
        lgf false true ∧
      (phase n).network = applyFlows n lgf) := by
  have hb := construct_level_graph_basic (rgOf n) (rgOf_flow n) (bfsFuelFor (rgOf n))
  set st := construct_level_graph (rgOf n) (bfsFuelFor (rgOf n)) with hst
  have hlgok : LgOk st.level_graph := lgOk_of_basic (rgOf n) st (rgOf_capacity_pos n) hb
  have hres := blockingLoop_res (dfsFuelFor st.level_graph) (blockFuelFor st.level_graph)
    st.level_graph false hlgok (Or.inl (fun x _ => hb.lgFlow x))
  have hph : phase n = phaseOnLevel n st := by rw [hst]; rfl
  rw [hph]
  simp only [phaseOnLevel]
  rcases hbl : blockingLoop (dfsFuelFor st.level_graph) (blockFuelFor st.level_graph)
      st.level_graph false with ⟨lgf, hasB, okb⟩
  rw [hbl] at hres
  cases hasB with
  | false => exact Or.inl ⟨rfl, rfl⟩
  | true => exact Or.inr ⟨rfl, lgf, hres, rfl⟩

theorem phase_network_source (n : FlowNetwork) : (phase n).network.source = n.source := by
  rcases phase_spec n with ⟨-, hnet⟩ | ⟨-, lgf, -, hnet⟩
  · rw [hnet]
  · rw [hnet, applyFlows_source]

theorem phase_network_sink (n : FlowNetwork) : (phase n).network.sink = n.sink := by
  rcases phase_spec n with ⟨-, hnet⟩ | ⟨-, lgf, -, hnet⟩
  · rw [hnet]
  · rw [hnet, applyFlows_sink]

theorem phase_network_edges (n : FlowNetwork) : (phase n).network.edges = n.edges := by
  rcases phase_spec n with ⟨-, hnet⟩ | ⟨-, lgf, -, hnet⟩
  · rw [hnet]
  · rw [hnet, applyFlows_edges]

theorem phase_network_capacity (n : FlowNetwork) (x : Edge) :
    (phase n).network.capacity x = n.capacity x := by
  rcases phase_spec n with ⟨-, hnet⟩ | ⟨-, lgf, -, hnet⟩
  · rw [hnet]
  · rw [hnet, applyFlows_capacity]

theorem phase_C3 (n : FlowNetwork) (h : NetInvC3 n) : NetInvC3 (phase n).network := by
  rcases phase_spec n with ⟨-, hnet⟩ | ⟨-, lgf, hres, hnet⟩
  · rw [hnet]
    exact h
  · rw [hnet]
    have hb := construct_level_graph_basic (rgOf n) (rgOf_flow n) (bfsFuelFor (rgOf n))
    set st := construct_level_graph (rgOf n) (bfsFuelFor (rgOf n)) with hst
    have hsrc_lg : st.level_graph.source = n.source := by rw [hb.lgSource, rgOf_source]
    have hsink_lg : st.level_graph.sink = n.sink := by rw [hb.lgSink, rgOf_sink]
    have hedges : lgf.edges = st.level_graph.edges := hres.edges
    have hsubrg : ∀ x ∈ lgf.edges, x ∈ (rgOf n).edges := fun x hx =>
      hb.lgSub x (hedges ▸ hx)
    have hcapf : ∀ x ∈ lgf.edges, lgf.capacity x = (rgOf n).capacity x := by
      intro x hx
      rw [hres.cap x]
      exact hb.lgCap x (hedges ▸ hx)
    have hnd_f : lgf.edges.Nodup := hres.ok.nodup
    have hnoInto_f : ∀ x ∈ lgf.edges, x.stop ≠ n.source := by
      intro x hx
      have hni := hres.ok.noInto x hx
      rw [hres.source, hsrc_lg] at hni
      exact hni
    have hso : ∀ e ∈ lgf.edges, e ∉ n.edges → e.opposite ∈ n.edges →
        lgf.flow e ≤ n.flow e.opposite := by
      intro e he hne hoe
      rcases (mem_rgOf n e).mp (hsubrg e he) with ⟨hmem, -⟩ | ⟨-, hpos⟩
      · exact absurd hmem hne
      · calc lgf.flow e ≤ lgf.capacity e := hres.ok.flowLe e he
          _ = (rgOf n).capacity e := hcapf e he
          _ = n.flow e.opposite := rgOf_capacity_bwd n h.nodup e hoe hne hpos
    have hcov : ∀ e ∈ lgf.edges, 0 < lgf.flow e →
        e ∈ n.edges ∨ e.opposite ∈ n.edges := by
      intro e he _
      rcases (mem_rgOf n e).mp (hsubrg e he) with ⟨hmem, -⟩ | ⟨hmem, -⟩
      · exact Or.inl hmem
      · exact Or.inr hmem
    have hsub_le : ∀ x, subOn n lgf lgf.edges x ≤ n.flow x := subOn_le_flow n lgf hso
    have hflow : ∀ x, (applyFlows n lgf).flow x =
        n.flow x + addOn n lgf lgf.edges x - subOn n lgf lgf.edges x :=
      fun x => applyFlows_flow n lgf hnd_f x (hsub_le x)
    have hE : (applyFlows n lgf).edges = n.edges := applyFlows_edges n lgf
    have hS : (applyFlows n lgf).source = n.source := applyFlows_source n lgf
    have hK : (applyFlows n lgf).sink = n.sink := applyFlows_sink n lgf
    have hC : ∀ x, (applyFlows n lgf).capacity x = n.capacity x := applyFlows_capacity n lgf
    refine ⟨?_, ?_, ?_, ?_, ?_, ?_, ?_⟩
    · rw [hE]
      exact h.nodup
    · intro e he
      rw [hE] at he ⊢
      exact h.noap e he
    · rw [hS, hK]
      exact h.stne
    · intro e he
      rw [hE] at he
      rw [hC e, hflow e]
      by_cases hin : e ∈ lgf.edges
      · have hne_opp : e.opposite ∉ n.edges := h.noap e he
        have hlt : n.flow e < n.capacity e := by
          rcases (mem_rgOf n e).mp (hsubrg e hin) with ⟨-, hlt⟩ | ⟨hmem, -⟩
          · exact hlt
          · exact absurd hmem hne_opp
        have hbound : lgf.flow e ≤ n.capacity e - n.flow e := by
          calc lgf.flow e ≤ lgf.capacity e := hres.ok.flowLe e hin
            _ = (rgOf n).capacity e := hcapf e hin
            _ = n.capacity e - n.flow e := rgOf_capacity_fwd n h.nodup e he hne_opp hlt
        have haddv : addOn n lgf lgf.edges e = lgf.flow e := by
          unfold addOn
          rw [if_pos ⟨hin, he⟩]
        rw [haddv]
        omega
      · have haddv : addOn n lgf lgf.edges e = 0 := by
          unfold addOn
          rw [if_neg (fun hh => hin hh.1)]
        rw [haddv]
        have := h.acap e he
        omega
    · intro v hv1 hv2
      rw [hS] at hv1
      rw [hK] at hv2
      have hbal := applyFlows_balance n lgf h.nodup hnd_f hso hcov v
      have hlgz : ∀ w, w ≠ st.level_graph.source → w ≠ st.level_graph.sink →
          st.level_graph.netBalance w = 0 :=
        fun w _ _ => netBalance_zero_of_allzero st.level_graph hb.lgFlow w
      have hfz := hres.balance hlgz v (by rw [hsrc_lg]; exact hv1)
        (by rw [hsink_lg]; exact hv2)
      rw [hbal, hfz, h.bal v hv1 hv2]
      omega
    · intro e he hstop
      rw [hE] at he
      rw [hS] at hstop
      rw [hflow e]
      have hfe0 : n.flow e = 0 := h.srcIn e he hstop
      have hsub0 : subOn n lgf lgf.edges e = 0 := by
        have := hsub_le e
        omega
      have hadd0 : addOn n lgf lgf.edges e = 0 := by
        unfold addOn
        rw [if_neg (fun hh => hnoInto_f e hh.1 hstop)]
      omega
    · intro e he hstart
      rw [hE] at he
      rw [hK] at hstart
      rw [hflow e]
      have hfe0 : n.flow e = 0 := h.sinkOut e he hstart
      have hsub0 : subOn n lgf lgf.edges e = 0 := by
        have := hsub_le e
        omega
      have hlgstart : ∀ x, x.start = st.level_graph.sink → lgf.flow x = 0 := by
        apply hres.sinkStart
        · intro x _
          exact hb.lgFlow x
        · rw [hsrc_lg, hsink_lg]
          exact h.stne
      have hadd0 : addOn n lgf lgf.edges e = 0 := by
        unfold addOn
        split
        · exact hlgstart e (by rw [hsink_lg]; exact hstart)
        · rfl
      omega

theorem phase_T (n : FlowNetwork) (h : NetInvT n) :
    NetInvT (phase n).network ∧
      ((phase n).hasBlocking = true →
        n.outflow n.source + 1 ≤ (phase n).network.outflow n.source) := by
  rcases phase_spec n with ⟨hfb, hnet⟩ | ⟨hbt, lgf, hres, hnet⟩
  · constructor
    · rw [hnet]
      exact h
    · intro hcontra
      rw [hfb] at hcontra
      exact Bool.noConfusion hcontra
  · have hb := construct_level_graph_basic (rgOf n) (rgOf_flow n) (bfsFuelFor (rgOf n))
    set st := construct_level_graph (rgOf n) (bfsFuelFor (rgOf n)) with hst
    have hsrc_lg : st.level_graph.source = n.source := by rw [hb.lgSource, rgOf_source]
    have hedges : lgf.edges = st.level_graph.edges := hres.edges
    have hsubrg : ∀ x ∈ lgf.edges, x ∈ (rgOf n).edges := fun x hx =>
      hb.lgSub x (hedges ▸ hx)
    have hcapf : ∀ x ∈ lgf.edges, lgf.capacity x = (rgOf n).capacity x := by
      intro x hx
      rw [hres.cap x]
      exact hb.lgCap x (hedges ▸ hx)
    have hnd_f : lgf.edges.Nodup := hres.ok.nodup
    have hnoInto_f : ∀ x ∈ lgf.edges, x.stop ≠ n.source := by
      intro x hx
      have hni := hres.ok.noInto x hx
      rw [hres.source, hsrc_lg] at hni
      exact hni
    have hE : (applyFlows n lgf).edges = n.edges := applyFlows_edges n lgf
    have hS : (applyFlows n lgf).source = n.source := applyFlows_source n lgf
    have hC : ∀ x, (applyFlows n lgf).capacity x = n.capacity x := applyFlows_capacity n lgf
    rw [hnet]
    constructor
    · refine ⟨?_, ?_, ?_⟩
      · rw [hE]
        exact h.nodup
      · intro e he hes
        rw [hE] at he
        rw [hS] at hes
        rw [hC e]
        have hsub0 : subOn n lgf lgf.edges e = 0 := by
          apply subOn_zero_of_opp_not_mem
          intro hmem
          exact hnoInto_f e.opposite hmem (by rw [opposite_stop, hes])
        rw [applyFlows_flow n lgf hnd_f e (by rw [hsub0]; exact Nat.zero_le _), hsub0]
        by_cases hin : e ∈ lgf.edges
        · have hoz : e.opposite ∈ n.edges → n.flow e.opposite = 0 := by
            intro hoe
            exact h.srcIn e.opposite hoe (by rw [opposite_stop, hes])
          have hcf : n.flow e < n.capacity e := by
            rcases (mem_rgOf n e).mp (hsubrg e hin) with ⟨-, hlt⟩ | ⟨hmem, hpos⟩
            · exact hlt
            · have := hoz hmem
              omega
          have hbound : lgf.flow e ≤ n.capacity e - n.flow e := by
            calc lgf.flow e ≤ lgf.capacity e := hres.ok.flowLe e hin
              _ = (rgOf n).capacity e := hcapf e hin
              _ = n.capacity e - n.flow e := rgOf_capacity_fwd0 n h.nodup e he hoz hcf
          have haddv : addOn n lgf lgf.edges e = lgf.flow e := by
            unfold addOn
            rw [if_pos ⟨hin, he⟩]
          rw [haddv]
          omega
        · have haddv : addOn n lgf lgf.edges e = 0 := by
            unfold addOn
            rw [if_neg (fun hh => hin hh.1)]
          rw [haddv]
          have := h.srcCap e he hes
          omega
      · intro e he hesp
        rw [hE] at he
        rw [hS] at hesp
        have hfe0 : n.flow e = 0 := h.srcIn e he hesp
        have hsub0 : subOn n lgf lgf.edges e = 0 := by
          unfold subOn
          split
          · rename_i hg
            obtain ⟨hg1, hg2, -⟩ := hg
            rcases (mem_rgOf n e.opposite).mp (hsubrg e.opposite hg1) with
              ⟨hmem, -⟩ | ⟨hmem, hpos⟩
            · exact absurd hmem hg2
            · rw [opposite_opposite] at hpos
              omega
          · rfl
        have hadd0 : addOn n lgf lgf.edges e = 0 := by
          unfold addOn
          rw [if_neg (fun hh => hnoInto_f e hh.1 hesp)]
        rw [applyFlows_flow n lgf hnd_f e (by rw [hsub0]; exact Nat.zero_le _)]
        omega
    · intro _
      refine applyFlows_outflow_src_progress n lgf hnd_f hnoInto_f ?_ ?_
      · intro e he hes hpos
        rcases (mem_rgOf n e).mp (hsubrg e he) with ⟨hmem, -⟩ | ⟨hmem, hposo⟩
        · exact hmem
        · have := h.srcIn e.opposite hmem (by rw [opposite_stop, hes])
          omega
      · rcases hres.reachedOut rfl with hfe | hout
        · exact Bool.noConfusion hfe
        · rwa [hsrc_lg] at hout

theorem solve_succ_pos (f : Nat) (n : FlowNetwork) (hbb : (phase n).hasBlocking = true) :
    (solve (f + 1) n).1 = (solve f (phase n).network).1 := by
  simp [solve, hbb]

theorem solve_succ_neg (f : Nat) (n : FlowNetwork)
    (hbb : (phase n).hasBlocking = false) : (solve (f + 1) n).1 = n := by
  simp [solve, hbb]

theorem solve_C3 : ∀ (fuel : Nat) (n : FlowNetwork), NetInvC3 n →
    NetInvC3 (solve fuel n).1 := by
  intro fuel
  induction fuel with
  | zero => intro n h; exact h
  | succ f ih =>
    intro n h
    by_cases hbb : (phase n).hasBlocking = true
    · rw [solve_succ_pos f n hbb]
      exact ih (phase n).network (phase_C3 n h)
    · rw [solve_succ_neg f n (Bool.eq_false_iff.mpr hbb)]
      exact h

theorem solve_source : ∀ (fuel : Nat) (n : FlowNetwork),
    (solve fuel n).1.source = n.source := by
  intro fuel
  induction fuel with
  | zero => intro n; rfl
  | succ f ih =>
    intro n
    by_cases hbb : (phase n).hasBlocking = true
    · rw [solve_succ_pos f n hbb, ih, phase_network_source]
    · rw [solve_succ_neg f n (Bool.eq_false_iff.mpr hbb)]

theorem solve_sink : ∀ (fuel : Nat) (n : FlowNetwork),
    (solve fuel n).1.sink = n.sink := by
  intro fuel
  induction fuel with
  | zero => intro n; rfl
  | succ f ih =>
    intro n
    by_cases hbb : (phase n).hasBlocking = true
    · rw [solve_succ_pos f n hbb, ih, phase_network_sink]
    · rw [solve_succ_neg f n (Bool.eq_false_iff.mpr hbb)]

theorem filter_notmem_append_length {α : Type} [DecidableEq α] :
    ∀ (S : List α) (visited pushes : List α),
      (∀ x ∈ pushes, x ∉ visited) →
      (S.filter (fun x => decide (x ∉ visited ++ pushes))).length +
          (S.filter (fun x => decide (x ∈ pushes))).length =
        (S.filter (fun x => decide (x ∉ visited))).length := by
  intro S
  induction S with
  | nil => intro _ _ _; rfl
  | cons a t ih =>
    intro visited pushes hpv
    have hrec := ih visited pushes hpv
    by_cases hap : a ∈ pushes
    · have hav : a ∉ visited := hpv a hap
      have b1 : ¬ decide (a ∉ visited ++ pushes) = true :=
        fun hh => (of_decide_eq_true hh) (List.mem_append.mpr (Or.inr hap))
      have b2 : decide (a ∈ pushes) = true := decide_eq_true hap
      have b3 : decide (a ∉ visited) = true := decide_eq_true hav
      rw [@List.filter_cons_of_neg α (fun x => decide (x ∉ visited ++ pushes)) a t b1,
        @List.filter_cons_of_pos α (fun x => decide (x ∈ pushes)) a t b2,
        @List.filter_cons_of_pos α (fun x => decide (x ∉ visited)) a t b3,
        List.length_cons, List.length_cons]
      omega
    · by_cases hav : a ∈ visited
      · have b1 : ¬ decide (a ∉ visited ++ pushes) = true :=
          fun hh => (of_decide_eq_true hh) (List.mem_append.mpr (Or.inl hav))
        have b2 : ¬ decide (a ∈ pushes) = true :=
          fun hh => hap (of_decide_eq_true hh)
        have b3 : ¬ decide (a ∉ visited) = true :=
          fun hh => (of_decide_eq_true hh) hav
        rw [@List.filter_cons_of_neg α (fun x => decide (x ∉ visited ++ pushes)) a t b1,
          @List.filter_cons_of_neg α (fun x => decide (x ∈ pushes)) a t b2,
          @List.filter_cons_of_neg α (fun x => decide (x ∉ visited)) a t b3]
        exact hrec
      · have b1 : decide (a ∉ visited ++ pushes) = true :=
          decide_eq_true (fun hh => (List.mem_append.mp hh).elim hav hap)
        have b2 : ¬ decide (a ∈ pushes) = true :=
          fun hh => hap (of_decide_eq_true hh)
        have b3 : decide (a ∉ visited) = true := decide_eq_true hav
        rw [@List.filter_cons_of_pos α (fun x => decide (x ∉ visited ++ pushes)) a t b1,
          @List.filter_cons_of_neg α (fun x => decide (x ∈ pushes)) a t b2,
          @List.filter_cons_of_pos α (fun x => decide (x ∉ visited)) a t b3,
          List.length_cons, List.length_cons]
        omega

theorem bfsLoop_drains (rg : FlowNetwork) (hnd : rg.edges.Nodup) :
    ∀ (fuel : Nat) (st : BfsState),
      st.worklist.length +
          2 * (rg.edges.filter (fun x => decide (x ∉ st.visited))).length < fuel →
      (bfsLoop rg fuel st).worklist = [] := by
  intro fuel
  induction fuel with
  | zero => intro st h; exact absurd h (Nat.not_lt_zero _)
  | succ f ih =>
    intro st hm
    cases hw : st.worklist with
    | nil =>
      simp only [bfsLoop, hw]
    | cons e rest =>
      simp only [bfsLoop, hw]
      apply ih
      dsimp only
      have hsub : ∀ x ∈ (rg.outgoing_edges e.stop).filter
          (fun g => decide (g ∉ st.visited)), x ∈ rg.edges := by
        intro x hx
        exact ((FlowNetwork.mem_outgoing_edges rg e.stop x).mp
          (List.mem_filter.mp hx).1).1
      have hpnd : ((rg.outgoing_edges e.stop).filter
          (fun g => decide (g ∉ st.visited))).Nodup :=
        (FlowNetwork.outgoing_edges_nodup rg e.stop hnd).filter _
      have hnotv : ∀ x ∈ (rg.outgoing_edges e.stop).filter
          (fun g => decide (g ∉ st.visited)), x ∉ st.visited := by
        intro x hx
        exact of_decide_eq_true (List.mem_filter.mp hx).2
      have hkey := filter_notmem_append_length rg.edges st.visited
        ((rg.outgoing_edges e.stop).filter (fun g => decide (g ∉ st.visited))) hnotv
      have hlenp : (rg.edges.filter (fun x => decide (x ∈
          (rg.outgoing_edges e.stop).filter (fun g => decide (g ∉ st.visited))))).length =
          ((rg.outgoing_edges e.stop).filter (fun g => decide (g ∉ st.visited))).length := by
        apply length_filter_eq_of_mem_iff (hnd.filter _) hpnd
        intro x
        rw [List.mem_filter]
        constructor
        · intro hx
          exact of_decide_eq_true hx.2
        · intro hx
          exact ⟨hsub x hx, decide_eq_true hx⟩
      rw [hw] at hm
      rw [List.length_cons] at hm
      rw [List.length_append]
      omega

theorem dfsLoop_drains (lg : FlowNetwork) (hnd : lg.edges.Nodup) :
    ∀ (fuel : Nat) (st : DfsState),
      st.worklist.length +
          2 * (lg.edges.filter (fun x => decide (x ∉ st.visited))).length < fuel →
      (dfsLoop lg fuel st).reached = false →
      (dfsLoop lg fuel st).worklist = [] := by
  intro fuel
  induction fuel with
  | zero => intro st h _; exact absurd h (Nat.not_lt_zero _)
  | succ f ih =>
    intro st hm hr
    cases hw : st.worklist with
    | nil =>
      simp only [dfsLoop, hw]
    | cons e rest =>
      simp only [dfsLoop, hw] at hr ⊢
      by_cases hsink : e.stop = lg.sink
      · rw [if_pos hsink] at hr
        simp at hr
      · rw [if_neg hsink] at hr ⊢
        apply ih _ _ hr
        dsimp only
        have hsub : ∀ x ∈ (lg.outgoing_edges e.stop).filter
            (fun g => decide (lg.available_capacity g > 0 ∧ g ∉ st.visited)),
            x ∈ lg.edges := by
          intro x hx
          exact ((FlowNetwork.mem_outgoing_edges lg e.stop x).mp
            (List.mem_filter.mp hx).1).1
        have hpnd : ((lg.outgoing_edges e.stop).filter
            (fun g => decide (lg.available_capacity g > 0 ∧ g ∉ st.visited))).Nodup :=
          (FlowNetwork.outgoing_edges_nodup lg e.stop hnd).filter _
        have hnotv : ∀ x ∈ (lg.outgoing_edges e.stop).filter
            (fun g => decide (lg.available_capacity g > 0 ∧ g ∉ st.visited)),
            x ∉ st.visited := by
          intro x hx
          exact (of_decide_eq_true (List.mem_filter.mp hx).2).2
        have hkey := filter_notmem_append_length lg.edges st.visited
          ((lg.outgoing_edges e.stop).filter
            (fun g => decide (lg.available_capacity g > 0 ∧ g ∉ st.visited))) hnotv
        have hlenp : (lg.edges.filter (fun x => decide (x ∈
            (lg.outgoing_edges e.stop).filter
              (fun g => decide (lg.available_capacity g > 0 ∧ g ∉ st.visited))))).length =
            ((lg.outgoing_edges e.stop).filter
              (fun g => decide (lg.available_capacity g > 0 ∧ g ∉ st.visited))).length := by
          apply length_filter_eq_of_mem_iff (hnd.filter _) hpnd
          intro x
          rw [List.mem_filter]
          constructor
          · intro hx
            exact of_decide_eq_true hx.2
          · intro hx
            exact ⟨hsub x hx, decide_eq_true hx⟩
        rw [hw] at hm
        rw [List.length_cons] at hm
        rw [List.length_append, List.length_reverse]
        omega

theorem augment_LgOk (lg : FlowNetwork) (pf : Nat) (p : List Edge) (hok : LgOk lg)
    (hnd : p.Nodup) (hsub : ∀ x ∈ p, x ∈ lg.edges)
    (hple : ∀ x ∈ p, pf ≤ lg.available_capacity x) (hpf1 : 1 ≤ pf) :
    LgOk (augmentPath lg pf p) := by
  have hedges1 := augmentPath_edges pf p lg
  have hsrc1 := augmentPath_source pf p lg
  have hcap1 := augmentPath_capacity pf p lg
  have hflow1 := augmentPath_flow pf p lg hnd hsub
  refine ⟨?_, ?_, ?_, ?_⟩
  · rw [hedges1]
    exact hok.nodup
  · intro x hx
    rw [hedges1] at hx
    rw [hsrc1]
    exact hok.noInto x hx
  · intro x hx
    rw [hedges1] at hx
    rw [hcap1 x]
    exact hok.capPos x hx
  · intro x hx
    rw [hedges1] at hx
    rw [hcap1 x, hflow1 x]
    by_cases hxp : x ∈ p
    · have hav := hple x hxp
      unfold FlowNetwork.available_capacity at hav
      rw [if_pos hxp]
      by_cases hge : lg.flow x ≥ lg.capacity x
      · rw [if_pos hge] at hav
        omega
      · rw [if_neg hge] at hav
        omega
    · rw [if_neg hxp]
      have := hok.flowLe x hx
      omega

theorem augment_flow_sum (lg : FlowNetwork) (pf : Nat) (p : List Edge)
    (hnd : p.Nodup) (hsub : ∀ x ∈ p, x ∈ lg.edges) (hlnd : lg.edges.Nodup) :
    (lg.edges.map (augmentPath lg pf p).flow).sum =
      (lg.edges.map lg.flow).sum + pf * p.length := by
  have hflow1 := augmentPath_flow pf p lg hnd hsub
  have hmap : lg.edges.map (augmentPath lg pf p).flow =
      lg.edges.map (fun x => lg.flow x + (if x ∈ p then pf else 0)) :=
    List.map_congr_left (fun x _ => hflow1 x)
  rw [hmap, sum_map_add_distrib, sum_map_ite_mem]
  have hlen : (lg.edges.filter (fun x => decide (x ∈ p))).length = p.length := by
    apply length_filter_eq_of_mem_iff (hlnd.filter _) hnd
    intro x
    rw [List.mem_filter]
    constructor
    · intro hx
      exact of_decide_eq_true hx.2
    · intro hx
      exact ⟨hsub x hx, decide_eq_true hx⟩
  rw [hlen]

theorem blockingLoop_ok (dfsF : Nat) : ∀ (fuel : Nat) (lg : FlowNetwork) (once : Bool),
    LgOk lg →
    (lg.outgoing_edges lg.source).length + 2 * lg.edges.length < dfsF →
    (lg.edges.map lg.capacity).sum - (lg.edges.map lg.flow).sum < fuel →
    (blockingLoop dfsF fuel lg once).2.2 = true := by
  intro fuel
  induction fuel with
  | zero => intro lg once _ _ hm; exact absurd hm (Nat.not_lt_zero _)
  | succ f ih =>
    intro lg once hok hdfs hm
    simp only [blockingLoop]
    by_cases hr : (dfsLoop lg dfsF (dfsInit lg)).reached = true
    · rw [if_pos hr]
      have hwalk := dfsLoop_reached_walk lg hok.nodup hok.noInto dfsF (dfsInit lg)
        (dfsInit_inv lg hok.nodup) hr
      cases hm2 : (dfsLoop lg dfsF (dfsInit lg)).path.map lg.available_capacity with
      | nil => exact absurd (List.map_eq_nil_iff.mp hm2) hwalk.ne
      | cons a vs =>
        dsimp only
        by_cases hpf : vs.foldl min a = 0
        · rw [if_pos hpf]
        · rw [if_neg hpf]
          have hple : ∀ x ∈ (dfsLoop lg dfsF (dfsInit lg)).path,
              vs.foldl min a ≤ lg.available_capacity x := by
            intro x hx
            have hmem : lg.available_capacity x ∈ a :: vs := by
              rw [← hm2]
              exact List.mem_map_of_mem lg.available_capacity hx
            rcases List.mem_cons.mp hmem with heq | hmem
            · rw [heq]
              exact foldl_min_le_start vs a
            · exact foldl_min_le_mem vs a _ hmem
          have hok1 := augment_LgOk lg (vs.foldl min a)
            (dfsLoop lg dfsF (dfsInit lg)).path hok hwalk.nodup hwalk.sub hple
            (by omega)
          have he := augmentPath_edges (vs.foldl min a)
            (dfsLoop lg dfsF (dfsInit lg)).path lg
          have hs := augmentPath_source (vs.foldl min a)
            (dfsLoop lg dfsF (dfsInit lg)).path lg
          have hc := augmentPath_capacity (vs.foldl min a)
            (dfsLoop lg dfsF (dfsInit lg)).path lg
          refine ih _ true hok1 ?_ ?_
          · have hout : (augmentPath lg (vs.foldl min a)
                (dfsLoop lg dfsF (dfsInit lg)).path).outgoing_edges
                  (augmentPath lg (vs.foldl min a)
                    (dfsLoop lg dfsF (dfsInit lg)).path).source =
                lg.outgoing_edges lg.source := by
              unfold FlowNetwork.outgoing_edges
              rw [he, hs]
            rw [hout, he]
            exact hdfs
          · rw [he]
            have hcap2 : lg.edges.map (augmentPath lg (vs.foldl min a)
                (dfsLoop lg dfsF (dfsInit lg)).path).capacity =
                lg.edges.map lg.capacity :=
              List.map_congr_left (fun x _ => hc x)
            rw [hcap2]
            have hfs := augment_flow_sum lg (vs.foldl min a)
              (dfsLoop lg dfsF (dfsInit lg)).path hwalk.nodup hwalk.sub hok.nodup
            rw [hfs]
            have hlen1 : 1 ≤ (dfsLoop lg dfsF (dfsInit lg)).path.length :=
              List.length_pos.mpr hwalk.ne
            have hpf1 : 1 ≤ vs.foldl min a := by omega
            have hFle : (lg.edges.map (augmentPath lg (vs.foldl min a)
                (dfsLoop lg dfsF (dfsInit lg)).path).flow).sum ≤
                (lg.edges.map lg.capacity).sum := by
              rw [← hcap2]
              apply List.sum_le_sum
              intro x hx
              exact hok1.flowLe x (by rw [he]; exact hx)
            rw [hfs] at hFle
            have hmul : 1 * 1 ≤ (vs.foldl min a) *
                (dfsLoop lg dfsF (dfsInit lg)).path.length :=
              Nat.mul_le_mul hpf1 hlen1
            omega
    · rw [if_neg hr]
      have hmeas : (dfsInit lg).worklist.length +
          2 * (lg.edges.filter (fun x => decide (x ∉ (dfsInit lg).visited))).length <
            dfsF := by
        show (lg.outgoing_edges lg.source).reverse.length + 2 * _ < dfsF
        rw [List.length_reverse]
        have hf := List.length_filter_le
          (fun x => decide (x ∉ (dfsInit lg).visited)) lg.edges
        omega
      have hdrain := dfsLoop_drains lg hok.nodup dfsF (dfsInit lg) hmeas
        (Bool.eq_false_iff.mpr hr)
      rw [hdrain]
      rfl

theorem phase_ok (n : FlowNetwork) : (phase n).ok = true := by
  have hb := construct_level_graph_basic (rgOf n) (rgOf_flow n) (bfsFuelFor (rgOf n))
  set st := construct_level_graph (rgOf n) (bfsFuelFor (rgOf n)) with hst
  have hlgok : LgOk st.level_graph := lgOk_of_basic (rgOf n) st (rgOf_capacity_pos n) hb
  have hbfs : st.worklist = [] := by
    rw [hst]
    unfold construct_level_graph
    apply bfsLoop_drains (rgOf n) (rgOf_nodup n)
    dsimp only
    have hf := List.length_filter_le
      (fun x => decide (x ∉ ([] : List Edge))) (rgOf n).edges
    unfold bfsFuelFor
    omega
  have hblock := blockingLoop_ok (dfsFuelFor st.level_graph)
    (blockFuelFor st.level_graph) st.level_graph false hlgok
    (by unfold dfsFuelFor; omega)
    (by
      unfold blockFuelFor
      have := Nat.sub_le ((st.level_graph.edges.map st.level_graph.capacity).sum)
        ((st.level_graph.edges.map st.level_graph.flow).sum)
      omega)
  have hph : phase n = phaseOnLevel n st := by rw [hst]; rfl
  rw [hph]
  simp only [phaseOnLevel]
  rcases hbl : blockingLoop (dfsFuelFor st.level_graph) (blockFuelFor st.level_graph)
      st.level_graph false with ⟨lgf, hasB, okb⟩
  rw [hbl] at hblock
  have hokb : okb = true := hblock
  cases hasB with
  | false =>
    show (decide (st.worklist = []) && okb) = true
    rw [hbfs, hokb]
    rfl
  | true =>
    show (decide (st.worklist = []) && okb) = true
    rw [hbfs, hokb]
    rfl

theorem outflow_le_capSrc (n : FlowNetwork) (h : NetInvT n) :
    n.outflow n.source ≤ ((n.outgoing_edges n.source).map n.capacity).sum := by
  unfold FlowNetwork.outflow
  apply List.sum_le_sum
  intro x hx
  obtain ⟨hxe, hxs⟩ := (FlowNetwork.mem_outgoing_edges n n.source x).mp hx
  exact h.srcCap x hxe hxs

theorem phase_capSrc (n : FlowNetwork) :
    (((phase n).network.outgoing_edges (phase n).network.source).map
      (phase n).network.capacity).sum =
    ((n.outgoing_edges n.source).map n.capacity).sum := by
  have hog : (phase n).network.outgoing_edges (phase n).network.source =
      n.outgoing_edges n.source := by
    unfold FlowNetwork.outgoing_edges
    rw [phase_network_edges, phase_network_source]
  rw [hog]
  apply congrArg
  apply List.map_congr_left
  intro x _
  exact phase_network_capacity n x

theorem solve_succ_pos2 (f : Nat) (n : FlowNetwork)
    (hbb : (phase n).hasBlocking = true) :
    (solve (f + 1) n).2 = ((phase n).ok && (solve f (phase n).network).2) := by
  simp [solve, hbb]

theorem solve_succ_neg2 (f : Nat) (n : FlowNetwork)
    (hbb : (phase n).hasBlocking = false) : (solve (f + 1) n).2 = (phase n).ok := by
  simp [solve, hbb]

theorem solve_ok : ∀ (fuel : Nat) (n : FlowNetwork), NetInvT n →
    ((n.outgoing_edges n.source).map n.capacity).sum - n.outflow n.source < fuel →
    (solve fuel n).2 = true := by
  intro fuel
  induction fuel with
  | zero => intro n _ hm; exact absurd hm (Nat.not_lt_zero _)
  | succ f ih =>
    intro n h hm
    by_cases hbb : (phase n).hasBlocking = true
    · rw [solve_succ_pos2 f n hbb]
      have hT := phase_T n h
      have hprog := hT.2 hbb
      have hinv2 := hT.1
      have hcap := phase_capSrc n
      have hsrc := phase_network_source n
      have hle := outflow_le_capSrc (phase n).network hinv2
      rw [hcap] at hle
      rw [hsrc] at hle
      have hihm : (((phase n).network.outgoing_edges (phase n).network.source).map
          (phase n).network.capacity).sum -
          (phase n).network.outflow (phase n).network.source < f := by
        rw [hcap, hsrc]
        omega
      rw [ih (phase n).network hinv2 hihm, phase_ok n]
      rfl
    · rw [solve_succ_neg2 f n (Bool.eq_false_iff.mpr hbb), phase_ok n]

theorem pairwise_of_all {α : Type} (R : α → α → Prop) : ∀ (l : List α),
    (∀ a ∈ l, ∀ b ∈ l, R a b) → l.Pairwise R := by
  intro l
  induction l with
  | nil => intro _; exact List.Pairwise.nil
  | cons a t ih =>
    intro h
    refine List.Pairwise.cons ?_ (ih ?_)
    · intro b hb
      exact h a (List.mem_cons_self a t) b (List.mem_cons_of_mem a hb)
    · intro x hx y hy
      exact h x (List.mem_cons_of_mem a hx) y (List.mem_cons_of_mem a hy)

theorem leveled_mono_put (L : List (Nat × Nat)) (w n v : Nat)
    (h : Leveled L v) : Leveled (levelsPut L w n) v := by
  by_cases hvw : v = w
  · subst hvw
    exact ⟨n, levelsGet_put L v n⟩
  · obtain ⟨k, hk⟩ := h
    exact ⟨k, by rw [levelsGet_put_ne L w v n hvw, hk]⟩

theorem expanded_mono (rg : FlowNetwork) (V P : List Edge) (v : Nat)
    (h : Expanded rg V v) : Expanded rg (V ++ P) v :=
  fun x hx => List.mem_append.mpr (Or.inl (h x hx))

theorem mem_pushes_facts (rg : FlowNetwork) (V : List Edge) (w : Nat) (x : Edge)
    (hx : x ∈ (rg.outgoing_edges w).filter (fun g => decide (g ∉ V))) :
    x ∈ rg.edges ∧ x.start = w ∧ x ∉ V := by
  obtain ⟨h1, h2⟩ := List.mem_filter.mp hx
  obtain ⟨he, hs⟩ := (FlowNetwork.mem_outgoing_edges rg w x).mp h1
  exact ⟨he, hs, of_decide_eq_true h2⟩

theorem expanded_after (rg : FlowNetwork) (V : List Edge) (w : Nat) :
    Expanded rg (V ++ (rg.outgoing_edges w).filter (fun g => decide (g ∉ V))) w := by
  intro x hx
  by_cases hv : x ∈ V
  · exact List.mem_append.mpr (Or.inl hv)
  · exact List.mem_append.mpr (Or.inr (List.mem_filter.mpr ⟨hx, decide_eq_true hv⟩))

theorem no_push_of_expanded (rg : FlowNetwork) (V : List Edge) (w : Nat) (x : Edge)
    (hexp : Expanded rg V w)
    (hx : x ∈ (rg.outgoing_edges w).filter (fun g => decide (g ∉ V))) : False := by
  obtain ⟨h1, h2⟩ := List.mem_filter.mp hx
  exact (of_decide_eq_true h2) (hexp x h1)

theorem bfsEq_step_stable (rg : FlowNetwork) (st : BfsState) (e : Edge)
    (rest : List Edge) (hw : st.worklist = e :: rest) (hinv : BfsEq rg st)
    (lg' : FlowNetwork) (L' : List (Nat × Nat))
    (hL : ∀ u, levelsGet L' u = levelsGet st.vertex_levels u)
    (hlev : Leveled st.vertex_levels e.stop) :
    BfsEq rg
      { level_graph := lg', vertex_levels := L',
        worklist := rest ++ (rg.outgoing_edges e.stop).filter
          (fun g => decide (g ∉ st.visited)),
        visited := st.visited ++ (rg.outgoing_edges e.stop).filter
          (fun g => decide (g ∉ st.visited)) } := by
  have hbv : ∀ g, bval L' g = bval st.vertex_levels g := by
    intro g
    unfold bval
    rw [hL]
  have hlvd : ∀ v, Leveled L' v ↔ Leveled st.vertex_levels v := by
    intro v
    constructor
    · rintro ⟨k, hk⟩
      rw [hL] at hk
      exact ⟨k, hk⟩
    · rintro ⟨k, hk⟩
      exact ⟨k, by rw [hL]; exact hk⟩
  set P := (rg.outgoing_edges e.stop).filter (fun g => decide (g ∉ st.visited)) with hP
  have hmem : ∀ g ∈ rest, g ∈ st.worklist := by
    intro g hg
    rw [hw]
    exact List.mem_cons_of_mem e hg
  have hmono := hinv.mono
  rw [hw] at hmono
  have hmonoR := (List.pairwise_cons.mp hmono).2
  have hwin := hinv.win
  rw [hw] at hwin
  have hwinR := (List.pairwise_cons.mp hwin).2
  have hPforce : ∀ x ∈ P, e.stop = rg.source := by
    intro x hx
    by_contra hne
    exact no_push_of_expanded rg st.visited e.stop x (hinv.exp e.stop hne hlev) hx
  have hPfacts : ∀ x ∈ P, x ∈ rg.edges ∧ x.start = e.stop ∧ x ∉ st.visited :=
    fun x hx => mem_pushes_facts rg st.visited e.stop x hx
  have hPout : ∀ x ∈ P, x ∈ rg.outgoing_edges rg.source := by
    intro x hx
    refine (FlowNetwork.mem_outgoing_edges rg rg.source x).mpr ⟨(hPfacts x hx).1, ?_⟩
    rw [(hPfacts x hx).2.1]
    exact hPforce x hx
  have hPbval : ∀ x ∈ P, bval L' x = 1 := by
    intro x hx
    rw [hbv]
    unfold bval
    rw [(hPfacts x hx).2.1, hPforce x hx, hinv.src0]
    rfl
  refine ⟨?_, ?_, ?_, ?_, ?_, ?_, ?_, ?_, ?_⟩
  · dsimp only
    rw [hL]
    exact hinv.src0
  · dsimp only
    intro g hg
    rcases List.mem_append.mp hg with hg | hg
    · exact hinv.qrg g (hmem g hg)
    · exact (hPfacts g hg).1
  · dsimp only
    intro g hg
    rcases List.mem_append.mp hg with hg | hg
    · exact (hlvd _).mpr (hinv.starts g (hmem g hg))
    · rw [(hPfacts g hg).2.1]
      exact (hlvd _).mpr hlev
  · dsimp only
    intro g hg k hk
    rw [hL] at hk
    rw [hbv]
    rcases List.mem_append.mp hg with hg | hg
    · exact hinv.popb g (hmem g hg) k hk
    · have hb1 : bval st.vertex_levels g = 1 := by
        unfold bval
        rw [(hPfacts g hg).2.1, hPforce g hg, hinv.src0]
        rfl
      rw [hb1]
      rcases hinv.phase with ⟨S, B, hqd, hSne, hSsub, hscov, hlev1, hBsrc⟩ |
        ⟨hscov2, hsrcv⟩
      · exact hlev1 g.stop k hk
      · obtain ⟨k2, hk2, hk21⟩ := hscov2 g (hPout g hg)
        have hkk : k = k2 := by
          rw [hk2] at hk
          exact (Option.some.inj hk).symm
        omega
  · dsimp only
    rw [List.pairwise_append]
    refine ⟨?_, ?_, ?_⟩
    · refine List.Pairwise.imp ?_ hmonoR
      intro a b hab
      rw [hbv, hbv]
      exact hab
    · apply pairwise_of_all
      intro a _ b hb
      right
      rw [(hPfacts b hb).2.1]
      exact hPforce b hb
    · intro a _ b hb
      right
      rw [(hPfacts b hb).2.1]
      exact hPforce b hb
  · dsimp only
    rw [List.pairwise_append]
    refine ⟨?_, ?_, ?_⟩
    · refine List.Pairwise.imp ?_ hwinR
      intro a b hab
      rw [hbv, hbv]
      rcases hab with h | h
      · exact Or.inl h
      · exact Or.inr (expanded_mono rg st.visited P a.stop h)
    · apply pairwise_of_all
      intro a ha b hb
      left
      rw [hPbval a ha, hPbval b hb]
      omega
    · intro a _ b hb
      left
      rw [hPbval b hb]
      omega
  · dsimp only
    intro v hv hlv
    exact expanded_mono rg st.visited P v (hinv.exp v hv ((hlvd v).mp hlv))
  · dsimp only
    intro v k hk g hg
    rw [hL] at hk
    rcases List.mem_append.mp hg with hg | hg
    · rcases hinv.levq v k hk g (hmem g hg) with h | h
      · left
        rw [hbv]
        exact h
      · right
        exact (hlvd _).mpr h
    · rcases hinv.phase with ⟨S, B, hqd, hSne, hSsub, hscov, hlev1, hBsrc⟩ |
        ⟨hscov2, hsrcv⟩
      · left
        have := hlev1 v k hk
        rw [hbv]
        omega
      · right
        obtain ⟨k2, hk2, -⟩ := hscov2 g (hPout g hg)
        exact (hlvd _).mpr ⟨k2, hk2⟩
  · dsimp only
    rcases hinv.phase with ⟨S, B, hqd, hSne, hSsub, hscov, hlev1, hBsrc⟩ |
      ⟨hscov2, hsrcv⟩
    · cases S with
      | nil => exact absurd rfl hSne
      | cons s S2 =>
        rw [hw, List.cons_append] at hqd
        have h1 : e = s := by injection hqd
        have h2 : rest = S2 ++ B := by injection hqd with hh1 hh2
        obtain ⟨pk, hpk⟩ := hlev
        have hpk1 : pk ≤ 1 := hlev1 e.stop pk hpk
        cases S2 with
        | nil =>
          right
          constructor
          · intro h hh
            rcases hscov h hh with hhs | hhl
            · have hhe : h = e := by
                rw [List.mem_singleton] at hhs
                rw [hhs, ← h1]
              refine ⟨pk, ?_, hpk1⟩
              rw [hL, hhe]
              exact hpk
            · obtain ⟨k, hk, hk1⟩ := hhl
              exact ⟨k, by rw [hL]; exact hk, hk1⟩
          · intro g hg hgs
            rcases List.mem_append.mp hg with hg | hg
            · have hgB : g ∈ B := by
                rw [h2] at hg
                simpa using hg
              exact expanded_mono rg st.visited P rg.source (hBsrc g hgB hgs)
            · rw [← hPforce g hg]
              exact expanded_after rg st.visited e.stop
        | cons s2 S3 =>
          left
          refine ⟨s2 :: S3, B ++ P, ?_, List.cons_ne_nil s2 S3, ?_, ?_, ?_, ?_⟩
          · rw [h2, List.append_assoc]
          · intro g hg
            exact hSsub g (List.mem_cons_of_mem s hg)
          · intro h hh
            rcases hscov h hh with hhs | hhl
            · rcases List.mem_cons.mp hhs with hh1 | hh2
              · right
                refine ⟨pk, ?_, hpk1⟩
                rw [hL, hh1, ← h1]
                exact hpk
              · left
                exact hh2
            · right
              obtain ⟨k, hk, hk1⟩ := hhl
              exact ⟨k, by rw [hL]; exact hk, hk1⟩
          · intro v k hk
            rw [hL] at hk
            exact hlev1 v k hk
          · intro g hg hgs
            rcases List.mem_append.mp hg with hg | hg
            · exact expanded_mono rg st.visited P rg.source (hBsrc g hg hgs)
            · rw [← hPforce g hg]
              exact expanded_after rg st.visited e.stop
    · right
      constructor
      · intro h hh
        obtain ⟨k, hk, hk1⟩ := hscov2 h hh
        exact ⟨k, by rw [hL]; exact hk, hk1⟩
      · intro g hg hgs
        rcases List.mem_append.mp hg with hg | hg
        · exact expanded_mono rg st.visited P rg.source (hsrcv g (hmem g hg) hgs)
        · rw [← hPforce g hg]
          exact expanded_after rg st.visited e.stop

theorem pairwise_imp_mem {α : Type} {R S : α → α → Prop} : ∀ (l : List α),
    (∀ a ∈ l, ∀ b ∈ l, R a b → S a b) → l.Pairwise R → l.Pairwise S := by
  intro l
  induction l with
  | nil => intro _ _; exact List.Pairwise.nil
  | cons a t ih =>
    intro h hp
    obtain ⟨h1, h2⟩ := List.pairwise_cons.mp hp
    refine List.Pairwise.cons ?_ (ih ?_ h2)
    · intro b hb
      exact h a (List.mem_cons_self a t) b (List.mem_cons_of_mem a hb) (h1 b hb)
    · intro x hx y hy
      exact h x (List.mem_cons_of_mem a hx) y (List.mem_cons_of_mem a hy)

theorem bval_pos (L : List (Nat × Nat)) (g : Edge) : 1 ≤ bval L g := by
  unfold bval
  omega

theorem bfsEq_step_fresh (rg : FlowNetwork) (st : BfsState) (e : Edge)
    (rest : List Edge) (hw : st.worklist = e :: rest) (hinv : BfsEq rg st)
    (lg' : FlowNetwork)
    (hfresh : levelsGet st.vertex_levels e.stop = none) :
    BfsEq rg
      { level_graph := lg',
        vertex_levels := levelsPut st.vertex_levels e.stop (bval st.vertex_levels e),
        worklist := rest ++ (rg.outgoing_edges e.stop).filter
          (fun g => decide (g ∉ st.visited)),
        visited := st.visited ++ (rg.outgoing_edges e.stop).filter
          (fun g => decide (g ∉ st.visited)) } := by
  set ve := bval st.vertex_levels e with hvedef
  set L' := levelsPut st.vertex_levels e.stop ve with hLdef
  set P := (rg.outgoing_edges e.stop).filter (fun g => decide (g ∉ st.visited)) with hP
  have hnsrc : e.stop ≠ rg.source := by
    intro h
    rw [h, hinv.src0] at hfresh
    exact Option.noConfusion hfresh
  have hL'stop : levelsGet L' e.stop = some ve := levelsGet_put st.vertex_levels e.stop ve
  have hL'ne : ∀ u, u ≠ e.stop → levelsGet L' u = levelsGet st.vertex_levels u :=
    fun u hu => levelsGet_put_ne st.vertex_levels e.stop u ve hu
  have hmem : ∀ g ∈ rest, g ∈ st.worklist := by
    intro g hg
    rw [hw]
    exact List.mem_cons_of_mem e hg
  have heq : e ∈ st.worklist := by
    rw [hw]
    exact List.mem_cons_self e rest
  have hstne : ∀ g ∈ st.worklist, g.start ≠ e.stop := by
    intro g hg h
    obtain ⟨k, hk⟩ := hinv.starts g hg
    rw [h, hfresh] at hk
    exact Option.noConfusion hk
  have hbvst : ∀ g ∈ st.worklist, bval L' g = bval st.vertex_levels g := by
    intro g hg
    unfold bval
    rw [hL'ne g.start (hstne g hg)]
  have hmono := hinv.mono
  rw [hw] at hmono
  have hmonoE := (List.pairwise_cons.mp hmono).1
  have hmonoR := (List.pairwise_cons.mp hmono).2
  have hwin := hinv.win
  rw [hw] at hwin
  have hwinE := (List.pairwise_cons.mp hwin).1
  have hwinR := (List.pairwise_cons.mp hwin).2
  have hPfacts : ∀ x ∈ P, x ∈ rg.edges ∧ x.start = e.stop ∧ x ∉ st.visited :=
    fun x hx => mem_pushes_facts rg st.visited e.stop x hx
  have hPbval : ∀ x ∈ P, bval L' x = ve + 1 := by
    intro x hx
    unfold bval
    rw [(hPfacts x hx).2.1, hL'stop]
    rfl
  have hlvd : ∀ v, Leveled L' v → v = e.stop ∨ Leveled st.vertex_levels v := by
    intro v hv
    by_cases hve2 : v = e.stop
    · exact Or.inl hve2
    · obtain ⟨k, hk⟩ := hv
      rw [hL'ne v hve2] at hk
      exact Or.inr ⟨k, hk⟩
  have hlvput : ∀ v, Leveled st.vertex_levels v → Leveled L' v :=
    fun v hv => leveled_mono_put st.vertex_levels e.stop ve v hv
  have hkey : ve = 1 ∨
      ((∀ h ∈ rg.outgoing_edges rg.source,
          ∃ k, levelsGet st.vertex_levels h.stop = some k ∧ k ≤ 1) ∧
        (∀ g ∈ st.worklist, g.start = rg.source →
          Expanded rg st.visited rg.source)) := by
    rcases hinv.phase with ⟨S, B, hqd, hSne, hSsub, hscov, hlev1, hBsrc⟩ | hr
    · left
      cases S with
      | nil => exact absurd rfl hSne
      | cons s S2 =>
        rw [hw, List.cons_append] at hqd
        have h1 : e = s := by injection hqd
        have hes : e ∈ rg.outgoing_edges rg.source := by
          rw [h1]
          exact hSsub s (List.mem_cons_self s S2)
        have hstart : e.start = rg.source :=
          ((FlowNetwork.mem_outgoing_edges rg rg.source e).mp hes).2
        rw [hvedef]
        unfold bval
        rw [hstart, hinv.src0]
        rfl
    · right
      exact hr
  have hgout : ∀ g ∈ st.worklist, g.start = rg.source →
      g ∈ rg.outgoing_edges rg.source := by
    intro g hg hgs
    exact (FlowNetwork.mem_outgoing_edges rg rg.source g).mpr ⟨hinv.qrg g hg, hgs⟩
  refine ⟨?_, ?_, ?_, ?_, ?_, ?_, ?_, ?_, ?_⟩
  · dsimp only
    rw [hL'ne rg.source (fun h => hnsrc h.symm)]
    exact hinv.src0
  · dsimp only
    intro g hg
    rcases List.mem_append.mp hg with hg | hg
    · exact hinv.qrg g (hmem g hg)
    · exact (hPfacts g hg).1
  · dsimp only
    intro g hg
    rcases List.mem_append.mp hg with hg | hg
    · exact hlvput _ (hinv.starts g (hmem g hg))
    · rw [(hPfacts g hg).2.1]
      exact ⟨ve, hL'stop⟩
  · dsimp only
    intro g hg k hk
    rcases List.mem_append.mp hg with hg | hg
    · rw [hbvst g (hmem g hg)]
      by_cases hgs : g.stop = e.stop
      · rw [hgs, hL'stop] at hk
        have hkve : k = ve := (Option.some.inj hk).symm
        rcases hmonoE g hg with hle | hsrc
        · omega
        · rcases hkey with hve1 | ⟨hscov2, hsrcv⟩
          · have := bval_pos st.vertex_levels g
            omega
          · obtain ⟨k2, hk2, -⟩ := hscov2 g (hgout g (hmem g hg) hsrc)
            rw [hgs, hfresh] at hk2
            exact Option.noConfusion hk2
      · rw [hL'ne g.stop hgs] at hk
        exact hinv.popb g (hmem g hg) k hk
    · rw [hPbval g hg]
      by_cases hgs : g.stop = e.stop
      · rw [hgs, hL'stop] at hk
        have hkve : k = ve := (Option.some.inj hk).symm
        omega
      · rw [hL'ne g.stop hgs] at hk
        rcases hinv.levq g.stop k hk e heq with hle | hlev2
        · omega
        · obtain ⟨k2, hk2⟩ := hlev2
          rw [hfresh] at hk2
          exact Option.noConfusion hk2
  · dsimp only
    rw [List.pairwise_append]
    refine ⟨?_, ?_, ?_⟩
    · refine pairwise_imp_mem rest ?_ hmonoR
      intro a ha b hb hab
      rw [hbvst a (hmem a ha), hbvst b (hmem b hb)]
      exact hab
    · apply pairwise_of_all
      intro a ha b hb
      left
      rw [hPbval a ha, hPbval b hb]
    · intro a ha b hb
      left
      rw [hbvst a (hmem a ha), hPbval b hb]
      rcases hwinE a ha with hle | hexp
      · omega
      · exact absurd hb (fun hb2 => no_push_of_expanded rg st.visited e.stop b hexp hb2)
  · dsimp only
    rw [List.pairwise_append]
    refine ⟨?_, ?_, ?_⟩
    · refine pairwise_imp_mem rest ?_ hwinR
      intro a ha b hb hab
      rw [hbvst a (hmem a ha), hbvst b (hmem b hb)]
      rcases hab with h | h
      · exact Or.inl h
      · exact Or.inr (expanded_mono rg st.visited P a.stop h)
    · apply pairwise_of_all
      intro a ha b hb
      left
      rw [hPbval a ha, hPbval b hb]
      omega
    · intro a ha b hb
      rw [hbvst a (hmem a ha), hPbval b hb]
      rcases hmonoE a ha with hle | hsrc
      · left
        omega
      · rcases hkey with hve1 | ⟨hscov2, hsrcv⟩
        · left
          have := bval_pos st.vertex_levels a
          omega
        · right
          obtain ⟨k2, hk2, -⟩ := hscov2 a (hgout a (hmem a ha) hsrc)
          by_cases has : a.stop = rg.source
          · have hexp2 := hsrcv a (hmem a ha) hsrc
            rw [← has] at hexp2
            exact expanded_mono rg st.visited P a.stop hexp2
          · exact expanded_mono rg st.visited P a.stop
              (hinv.exp a.stop has ⟨k2, hk2⟩)
  · dsimp only
    intro v hv hlv
    rcases hlvd v hlv with hve2 | hold
    · rw [hve2]
      exact expanded_after rg st.visited e.stop
    · exact expanded_mono rg st.visited P v (hinv.exp v hv hold)
  · dsimp only
    intro v k hk g hg
    by_cases hv : v = e.stop
    · rw [hv, hL'stop] at hk
      have hkve : k = ve := (Option.some.inj hk).symm
      rcases List.mem_append.mp hg with hg | hg
      · rw [hbvst g (hmem g hg)]
        rcases hmonoE g hg with hle | hsrc
        · left
          omega
        · rcases hkey with hve1 | ⟨hscov2, hsrcv⟩
          · left
            have := bval_pos st.vertex_levels g
            omega
          · right
            obtain ⟨k2, hk2, -⟩ := hscov2 g (hgout g (hmem g hg) hsrc)
            exact hlvput _ ⟨k2, hk2⟩
      · left
        rw [hPbval g hg]
        omega
    · rw [hL'ne v hv] at hk
      rcases List.mem_append.mp hg with hg | hg
      · rcases hinv.levq v k hk g (hmem g hg) with h | h
        · left
          rw [hbvst g (hmem g hg)]
          exact h
        · right
          exact hlvput _ h
      · left
        rw [hPbval g hg]
        rcases hinv.levq v k hk e heq with h | h
        · omega
        · obtain ⟨k2, hk2⟩ := h
          rw [hfresh] at hk2
          exact Option.noConfusion hk2
  · dsimp only
    rcases hinv.phase with ⟨S, B, hqd, hSne, hSsub, hscov, hlev1, hBsrc⟩ |
      ⟨hscov2, hsrcv⟩
    · cases S with
      | nil => exact absurd rfl hSne
      | cons s S2 =>
        rw [hw, List.cons_append] at hqd
        have h1 : e = s := by injection hqd
        have h2 : rest = S2 ++ B := by injection hqd with hh1 hh2
        have hes : e ∈ rg.outgoing_edges rg.source := by
          rw [h1]
          exact hSsub s (List.mem_cons_self s S2)
        have hstart : e.start = rg.source :=
          ((FlowNetwork.mem_outgoing_edges rg rg.source e).mp hes).2
        have hve1 : ve = 1 := by
          rw [hvedef]
          unfold bval
          rw [hstart, hinv.src0]
          rfl
        cases S2 with
        | nil =>
          right
          constructor
          · intro h hh
            rcases hscov h hh with hhs | hhl
            · have hhe : h = e := by
                rw [List.mem_singleton] at hhs
                rw [hhs, ← h1]
              refine ⟨ve, ?_, by omega⟩
              rw [hhe]
              exact hL'stop
            · obtain ⟨k, hk, hk1⟩ := hhl
              by_cases hhe2 : h.stop = e.stop
              · rw [hhe2, hfresh] at hk
                exact Option.noConfusion hk
              · exact ⟨k, by rw [hL'ne h.stop hhe2]; exact hk, hk1⟩
          · intro g hg hgs
            rcases List.mem_append.mp hg with hg | hg
            · have hgB : g ∈ B := by
                rw [h2] at hg
                simpa using hg
              exact expanded_mono rg st.visited P rg.source (hBsrc g hgB hgs)
            · rw [(hPfacts g hg).2.1] at hgs
              exact absurd hgs hnsrc
        | cons s2 S3 =>
          left
          refine ⟨s2 :: S3, B ++ P, ?_, List.cons_ne_nil s2 S3, ?_, ?_, ?_, ?_⟩
          · rw [h2, List.append_assoc]
          · intro g hg
            exact hSsub g (List.mem_cons_of_mem s hg)
          · intro h hh
            rcases hscov h hh with hhs | hhl
            · rcases List.mem_cons.mp hhs with hh1 | hh2
              · right
                refine ⟨ve, ?_, by omega⟩
                rw [hh1, ← h1]
                exact hL'stop
              · left
                exact hh2
            · right
              obtain ⟨k, hk, hk1⟩ := hhl
              by_cases hhe2 : h.stop = e.stop
              · rw [hhe2, hfresh] at hk
                exact Option.noConfusion hk
              · exact ⟨k, by rw [hL'ne h.stop hhe2]; exact hk, hk1⟩
          · intro v k hk
            by_cases hv : v = e.stop
            · rw [hv, hL'stop] at hk
              have : k = ve := (Option.some.inj hk).symm
              omega
            · rw [hL'ne v hv] at hk
              exact hlev1 v k hk
          · intro g hg hgs
            rcases List.mem_append.mp hg with hg | hg
            · exact expanded_mono rg st.visited P rg.source (hBsrc g hg hgs)
            · rw [(hPfacts g hg).2.1] at hgs
              exact absurd hgs hnsrc
    · right
      constructor
      · intro h hh
        obtain ⟨k, hk, hk1⟩ := hscov2 h hh
        by_cases hhe2 : h.stop = e.stop
        · rw [hhe2, hfresh] at hk
          exact Option.noConfusion hk
        · exact ⟨k, by rw [hL'ne h.stop hhe2]; exact hk, hk1⟩
      · intro g hg hgs
        rcases List.mem_append.mp hg with hg | hg
        · exact expanded_mono rg st.visited P rg.source (hsrcv g (hmem g hg) hgs)
        · rw [(hPfacts g hg).2.1] at hgs
          exact absurd hgs hnsrc

theorem levelsGet_put_same (L : List (Nat × Nat)) (w n : Nat)
    (h : levelsGet L w = some n) :
    ∀ u, levelsGet (levelsPut L w n) u = levelsGet L u := by
  intro u
  by_cases hu : u = w
  · rw [hu, levelsGet_put, h]
  · exact levelsGet_put_ne L w u n hu

theorem bfsLoop_eq_spec (rg : FlowNetwork) : ∀ (fuel : Nat) (st : BfsState),
    BfsEq rg st → bfsLoop rg fuel st = specBfsLoop rg fuel st := by
  intro fuel
  induction fuel with
  | zero => intro st _; rfl
  | succ f ih =>
    intro st hinv
    cases hw : st.worklist with
    | nil => simp only [bfsLoop, specBfsLoop, hw]
    | cons e rest =>
      simp only [bfsLoop, specBfsLoop, hw]
      cases hstop : levelsGet st.vertex_levels e.stop with
      | none =>
        simp only [hstop]
        apply ih
        exact bfsEq_step_fresh rg st e rest hw hinv _ hstop
      | some prev =>
        have hheadmem : e ∈ st.worklist := by
          rw [hw]
          exact List.mem_cons_self e rest
        have hple : prev ≤ bval st.vertex_levels e := hinv.popb e hheadmem prev hstop
        have hple2 : prev ≤ (levelsGet st.vertex_levels e.start).getD 0 + 1 := hple
        have hdec : decide ((levelsGet st.vertex_levels e.start).getD 0 + 1 ≤ prev) =
            decide ((levelsGet st.vertex_levels e.start).getD 0 + 1 = prev) := by
          by_cases h : (levelsGet st.vertex_levels e.start).getD 0 + 1 ≤ prev
          · rw [decide_eq_true h, decide_eq_true (Nat.le_antisymm h hple2)]
          · rw [decide_eq_false h, decide_eq_false (fun hh => h (le_of_eq hh))]
        simp only [hstop]
        simp only [hdec]
        apply ih
        refine bfsEq_step_stable rg st e rest hw hinv _ _ ?_ ⟨prev, hstop⟩
        intro u
        split
        · rename_i hc
          have hveq : (levelsGet st.vertex_levels e.start).getD 0 + 1 = prev :=
            of_decide_eq_true hc
          exact levelsGet_put_same st.vertex_levels e.stop _
            (by rw [hveq]; exact hstop) u
        · rfl

theorem bfsEq_init (rg : FlowNetwork) :
    BfsEq rg
      { level_graph := FlowNetwork.empty rg.source rg.sink,
        vertex_levels := [(rg.source, 0)],
        worklist := rg.outgoing_edges rg.source,
        visited := [] } := by
  have hget : ∀ v k, levelsGet [(rg.source, 0)] v = some k → v = rg.source ∧ k = 0 := by
    intro v k hk
    simp only [levelsGet] at hk
    by_cases hv : rg.source = v
    · rw [if_pos hv] at hk
      exact ⟨hv.symm, (Option.some.inj hk).symm⟩
    · rw [if_neg hv] at hk
      exact Option.noConfusion hk
  have hsrc0 : levelsGet [(rg.source, 0)] rg.source = some 0 := by
    simp [levelsGet]
  have hbv1 : ∀ g ∈ rg.outgoing_edges rg.source, bval [(rg.source, 0)] g = 1 := by
    intro g hg
    unfold bval
    rw [((FlowNetwork.mem_outgoing_edges rg rg.source g).mp hg).2, hsrc0]
    rfl
  refine ⟨hsrc0, ?_, ?_, ?_, ?_, ?_, ?_, ?_, ?_⟩
  · dsimp only
    intro g hg
    exact ((FlowNetwork.mem_outgoing_edges rg rg.source g).mp hg).1
  · dsimp only
    intro g hg
    rw [((FlowNetwork.mem_outgoing_edges rg rg.source g).mp hg).2]
    exact ⟨0, hsrc0⟩
  · dsimp only
    intro g hg k hk
    have h0 := (hget g.stop k hk).2
    have hb := bval_pos [(rg.source, 0)] g
    omega
  · dsimp only
    apply pairwise_of_all
    intro a _ b hb
    right
    exact ((FlowNetwork.mem_outgoing_edges rg rg.source b).mp hb).2
  · dsimp only
    apply pairwise_of_all
    intro a ha b hb
    left
    rw [hbv1 a ha, hbv1 b hb]
    omega
  · dsimp only
    intro v hv hlv
    obtain ⟨k, hk⟩ := hlv
    exact absurd (hget v k hk).1 hv
  · dsimp only
    intro v k hk g hg
    left
    have h0 := (hget v k hk).2
    have hb := bval_pos [(rg.source, 0)] g
    omega
  · dsimp only
    cases hout : rg.outgoing_edges rg.source with
    | nil =>
      right
      constructor
      · intro h hh
        exact absurd hh (List.not_mem_nil h)
      · intro g hg _
        exact absurd hg (List.not_mem_nil g)
    | cons a t =>
      left
      refine ⟨a :: t, [], (List.append_nil _).symm, List.cons_ne_nil a t,
        fun g hg => hg, fun h hh => Or.inl hh, ?_, ?_⟩
      · intro v k hk
        have h0 := (hget v k hk).2
        omega
      · intro g hg
        exact absurd hg (List.not_mem_nil g)

theorem bfsCov_init (rg : FlowNetwork) :
    BfsCov rg
      { level_graph := FlowNetwork.empty rg.source rg.sink,
        vertex_levels := [(rg.source, 0)],
        worklist := rg.outgoing_edges rg.source,
        visited := [] } := by
  refine ⟨?_, ?_⟩
  · dsimp only
    intro x hx
    exact absurd hx (List.not_mem_nil x)
  · dsimp only
    intro v k hk
    left
    simp only [levelsGet] at hk
    by_cases hv : rg.source = v
    · exact hv.symm
    · rw [if_neg hv] at hk
      exact Option.noConfusion hk

theorem bfsCov_step_fresh (rg : FlowNetwork) (st : BfsState) (e : Edge)
    (rest : List Edge) (hw : st.worklist = e :: rest) (hinv : BfsEq rg st)
    (hcov : BfsCov rg st)
    (hfresh : levelsGet st.vertex_levels e.stop = none) :
    BfsCov rg
      { level_graph := st.level_graph.add_edge e (rg.capacity e) (rg.flow e),
        vertex_levels := levelsPut st.vertex_levels e.stop (bval st.vertex_levels e),
        worklist := rest ++ (rg.outgoing_edges e.stop).filter
          (fun g => decide (g ∉ st.visited)),
        visited := st.visited ++ (rg.outgoing_edges e.stop).filter
          (fun g => decide (g ∉ st.visited)) } := by
  have heq : e ∈ st.worklist := by
    rw [hw]
    exact List.mem_cons_self e rest
  refine ⟨?_, ?_⟩
  · dsimp only
    intro x hx
    rcases List.mem_append.mp hx with hx | hx
    · rcases hcov.vis x hx with hin | hlev
      · rw [hw] at hin
        rcases List.mem_cons.mp hin with hxe | hxr
        · right
          rw [hxe]
          exact ⟨bval st.vertex_levels e, levelsGet_put st.vertex_levels e.stop _⟩
        · left
          exact List.mem_append.mpr (Or.inl hxr)
      · right
        exact leveled_mono_put st.vertex_levels e.stop _ x.stop hlev
    · left
      exact List.mem_append.mpr (Or.inr hx)
  · dsimp only
    intro v k hk
    by_cases hv : v = e.stop
    · subst hv
      rw [levelsGet_put] at hk
      have hkve : bval st.vertex_levels e = k := Option.some.inj hk
      obtain ⟨j, hj⟩ := hinv.starts e heq
      refine Or.inr ⟨e, (FlowNetwork.mem_add_edge st.level_graph e e
        (rg.capacity e) (rg.flow e)).mpr (Or.inr rfl), rfl, j, ?_, ?_⟩
      · have hne : e.start ≠ e.stop := by
          intro hh
          rw [hh, hfresh] at hj
          exact Option.noConfusion hj
        exact (levelsGet_put_ne st.vertex_levels e.stop e.start _ hne).trans hj
      · have hbv : bval st.vertex_levels e = j + 1 := by
          simp only [bval, hj, Option.getD_some]
        omega
    · rw [levelsGet_put_ne st.vertex_levels e.stop v _ hv] at hk
      rcases hcov.pre v k hk with hsrc | ⟨e2, he2, hstop2, j, hj, hjk⟩
      · exact Or.inl hsrc
      · refine Or.inr ⟨e2, (FlowNetwork.mem_add_edge st.level_graph e e2
          (rg.capacity e) (rg.flow e)).mpr (Or.inl he2), hstop2, j, ?_, hjk⟩
        have hne : e2.start ≠ e.stop := by
          intro hh
          rw [hh, hfresh] at hj
          exact Option.noConfusion hj
        exact (levelsGet_put_ne st.vertex_levels e.stop e2.start _ hne).trans hj

theorem bfsCov_step_stable (rg : FlowNetwork) (st : BfsState) (e : Edge)
    (rest : List Edge) (hw : st.worklist = e :: rest) (hcov : BfsCov rg st)
    (lg' : FlowNetwork) (L' : List (Nat × Nat))
    (hL : ∀ u, levelsGet L' u = levelsGet st.vertex_levels u)
    (hlg : ∀ x ∈ st.level_graph.edges, x ∈ lg'.edges)
    (hlev : Leveled st.vertex_levels e.stop) :
    BfsCov rg
      { level_graph := lg', vertex_levels := L',
        worklist := rest ++ (rg.outgoing_edges e.stop).filter
          (fun g => decide (g ∉ st.visited)),
        visited := st.visited ++ (rg.outgoing_edges e.stop).filter
          (fun g => decide (g ∉ st.visited)) } := by
  refine ⟨?_, ?_⟩
  · dsimp only
    intro x hx
    rcases List.mem_append.mp hx with hx | hx
    · rcases hcov.vis x hx with hin | hlevx
      · rw [hw] at hin
        rcases List.mem_cons.mp hin with hxe | hxr
        · right
          rw [hxe]
          obtain ⟨k, hk⟩ := hlev
          exact ⟨k, by rw [hL]; exact hk⟩
        · left
          exact List.mem_append.mpr (Or.inl hxr)
      · right
        obtain ⟨k, hk⟩ := hlevx
        exact ⟨k, by rw [hL]; exact hk⟩
    · left
      exact List.mem_append.mpr (Or.inr hx)
  · dsimp only
    intro v k hk
    rw [hL] at hk
    rcases hcov.pre v k hk with hsrc | ⟨e2, he2, hstop2, j, hj, hjk⟩
    · exact Or.inl hsrc
    · exact Or.inr ⟨e2, hlg e2 he2, hstop2, j, by rw [hL]; exact hj, hjk⟩

theorem bfsLoop_cov (rg : FlowNetwork) : ∀ (fuel : Nat) (st : BfsState),
    BfsEq rg st → BfsCov rg st →
    BfsEq rg (bfsLoop rg fuel st) ∧ BfsCov rg (bfsLoop rg fuel st) := by
  intro fuel
  induction fuel with
  | zero => intro st h1 h2; exact ⟨h1, h2⟩
  | succ f ih =>
    intro st h1 h2
    cases hw : st.worklist with
    | nil =>
      simp only [bfsLoop, hw]
      exact ⟨h1, h2⟩
    | cons e rest =>
      simp only [bfsLoop, hw]
      have hheadmem : e ∈ st.worklist := by
        rw [hw]
        exact List.mem_cons_self e rest
      cases hstop : levelsGet st.vertex_levels e.stop with
      | none =>
        simp only [hstop]
        apply ih
        · exact bfsEq_step_fresh rg st e rest hw h1 _ hstop
        · exact bfsCov_step_fresh rg st e rest hw h1 h2 hstop
      | some prev =>
        have hple : prev ≤ bval st.vertex_levels e := h1.popb e hheadmem prev hstop
        have hple2 : prev ≤ (levelsGet st.vertex_levels e.start).getD 0 + 1 := hple
        simp only [hstop]
        have hL : ∀ u, levelsGet
            (if decide ((levelsGet st.vertex_levels e.start).getD 0 + 1 ≤ prev) = true
              then levelsPut st.vertex_levels e.stop
                ((levelsGet st.vertex_levels e.start).getD 0 + 1)
              else st.vertex_levels) u = levelsGet st.vertex_levels u := by
          intro u
          split
          · rename_i hc
            have hveq : (levelsGet st.vertex_levels e.start).getD 0 + 1 = prev :=
              Nat.le_antisymm (of_decide_eq_true hc) hple2
            exact levelsGet_put_same st.vertex_levels e.stop _
              (by rw [hveq]; exact hstop) u
          · rfl
        apply ih
        · exact bfsEq_step_stable rg st e rest hw h1 _ _ hL ⟨prev, hstop⟩
        · refine bfsCov_step_stable rg st e rest hw h2 _ _ hL ?_ ⟨prev, hstop⟩
          intro x hx
          split
          · exact (FlowNetwork.mem_add_edge st.level_graph e x
              (rg.capacity e) (rg.flow e)).mpr (Or.inl hx)
          · exact hx

theorem walksTo_append (net : FlowNetwork) (e : Edge) : ∀ (p : List Edge) (a : Nat),
    walksTo net a p e.start = true → e ∈ net.edges →
    walksTo net a (p ++ [e]) e.stop = true := by
  intro p
  induction p with
  | nil =>
    intro a hw he
    have ha : a = e.start := by
      simp only [walksTo, decide_eq_true_eq] at hw
      exact hw
    subst ha
    simp [walksTo, he]
  | cons g t ih =>
    intro a hw he
    simp only [walksTo, Bool.and_eq_true, decide_eq_true_eq] at hw
    obtain ⟨⟨h1, h2⟩, h3⟩ := hw
    rw [List.cons_append]
    simp only [walksTo, Bool.and_eq_true, decide_eq_true_eq]
    exact ⟨⟨h1, h2⟩, ih g.stop h3 he⟩

theorem walk_leveled (rg : FlowNetwork) (L : List (Nat × Nat))
    (hcov : ∀ e ∈ rg.edges, Leveled L e.start → Leveled L e.stop) :
    ∀ (p : List Edge) (a v : Nat), Leveled L a → walksTo rg a p v = true →
      Leveled L v := by
  intro p
  induction p with
  | nil =>
    intro a v ha hw
    have hav : a = v := by
      simp only [walksTo, decide_eq_true_eq] at hw
      exact hw
    rw [← hav]
    exact ha
  | cons g t ih =>
    intro a v ha hw
    simp only [walksTo, Bool.and_eq_true, decide_eq_true_eq] at hw
    obtain ⟨⟨hge, hgs⟩, hrest⟩ := hw
    exact ih g.stop v (hcov g hge (by rw [hgs]; exact ha)) hrest

theorem leveled_lg_walk (rg : FlowNetwork) (st : BfsState) (hcov : BfsCov rg st) :
    ∀ (b k v : Nat), k ≤ b → levelsGet st.vertex_levels v = some k →
      ∃ p, walksTo st.level_graph rg.source p v = true := by
  intro b
  induction b with
  | zero =>
    intro k v hkb hv
    rcases hcov.pre v k hv with hsrc | ⟨e, he, hestop, j, hj, hjk⟩
    · exact ⟨[], by rw [hsrc]; simp [walksTo]⟩
    · exfalso
      omega
  | succ b ih =>
    intro k v hkb hv
    rcases hcov.pre v k hv with hsrc | ⟨e, he, hestop, j, hj, hjk⟩
    · exact ⟨[], by rw [hsrc]; simp [walksTo]⟩
    · obtain ⟨p, hp⟩ := ih j e.start (by omega) hj
      exact ⟨p ++ [e], by
        rw [← hestop]
        exact walksTo_append st.level_graph e p rg.source hp he⟩

theorem walk_blocked (lg : FlowNetwork) (V : List Edge)
    (hcl : ∀ g, (g ∈ V ∨ g ∈ lg.outgoing_edges lg.source) →
      g.stop ≠ lg.sink ∧ ∀ x ∈ lg.outgoing_edges g.stop, x ∈ V) :
    ∀ (p : List Edge) (g : Edge), (g ∈ V ∨ g ∈ lg.outgoing_edges lg.source) →
      walksTo lg g.stop p lg.sink ≠ true := by
  intro p
  induction p with
  | nil =>
    intro g hg hwalk
    have hsnk : g.stop = lg.sink := by
      simp only [walksTo, decide_eq_true_eq] at hwalk
      exact hwalk
    exact (hcl g hg).1 hsnk
  | cons x t ih =>
    intro g hg hwalk
    simp only [walksTo, Bool.and_eq_true, decide_eq_true_eq] at hwalk
    obtain ⟨⟨hxe, hxs⟩, hrest⟩ := hwalk
    have hxout : x ∈ lg.outgoing_edges g.stop :=
      (FlowNetwork.mem_outgoing_edges lg g.stop x).mpr ⟨hxe, hxs⟩
    exact ih x (Or.inl ((hcl g hg).2 x hxout)) hrest

theorem dfsLoop_closure (lg : FlowNetwork)
    (hca : ∀ x ∈ lg.edges, 0 < lg.available_capacity x) :
    ∀ (fuel : Nat) (st : DfsState),
    (∀ g ∈ st.worklist, g ∈ st.visited ∨ g ∈ lg.outgoing_edges lg.source) →
    (∀ g, (g ∈ st.visited ∨ g ∈ lg.outgoing_edges lg.source) →
      g ∈ st.worklist ∨
        (g.stop ≠ lg.sink ∧ ∀ x ∈ lg.outgoing_edges g.stop, x ∈ st.visited)) →
    (dfsLoop lg fuel st).reached = false →
    (dfsLoop lg fuel st).worklist = [] →
    ∀ g, (g ∈ (dfsLoop lg fuel st).visited ∨ g ∈ lg.outgoing_edges lg.source) →
      g.stop ≠ lg.sink ∧
        ∀ x ∈ lg.outgoing_edges g.stop, x ∈ (dfsLoop lg fuel st).visited := by
  intro fuel
  induction fuel with
  | zero =>
    intro st hD0 hD1 hr hd g hg
    have hd2 : st.worklist = [] := hd
    have hg2 : g ∈ st.visited ∨ g ∈ lg.outgoing_edges lg.source := hg
    rcases hD1 g hg2 with hin | hdone
    · rw [hd2] at hin
      exact absurd hin (List.not_mem_nil g)
    · exact hdone
  | succ n ih =>
    intro st hD0 hD1 hr hd g hg
    cases hw : st.worklist with
    | nil =>
      simp only [dfsLoop, hw] at hg ⊢
      rcases hD1 g hg with hin | hdone
      · rw [hw] at hin
        exact absurd hin (List.not_mem_nil g)
      · exact hdone
    | cons e rest =>
      simp only [dfsLoop, hw] at hr hd hg ⊢
      by_cases hsink : e.stop = lg.sink
      · rw [if_pos hsink] at hr
        simp at hr
      · rw [if_neg hsink] at hr hd hg ⊢
        refine ih _ ?_ ?_ hr hd g hg
        · dsimp only
          intro x hx
          rcases List.mem_append.mp hx with hx | hx
          · left
            exact List.mem_append.mpr (Or.inr (List.mem_reverse.mp hx))
          · rcases hD0 x (by rw [hw]; exact List.mem_cons_of_mem e hx) with hv | hout
            · left
              exact List.mem_append.mpr (Or.inl hv)
            · right
              exact hout
        · dsimp only
          intro x hx
          have hsplit : x ∈ (lg.outgoing_edges e.stop).filter
              (fun y => decide (lg.available_capacity y > 0 ∧ y ∉ st.visited)) ∨
              (x ∈ st.visited ∨ x ∈ lg.outgoing_edges lg.source) := by
            rcases hx with hx | hx
            · rcases List.mem_append.mp hx with hx | hx
              · right
                exact Or.inl hx
              · left
                exact hx
            · right
              exact Or.inr hx
          rcases hsplit with hxp | hx2
          · left
            exact List.mem_append.mpr (Or.inl (List.mem_reverse.mpr hxp))
          · rcases hD1 x hx2 with hin | hdone
            · rw [hw] at hin
              rcases List.mem_cons.mp hin with hxe | hxr
              · right
                subst hxe
                refine ⟨hsink, ?_⟩
                intro y hy
                by_cases hyv : y ∈ st.visited
                · exact List.mem_append.mpr (Or.inl hyv)
                · refine List.mem_append.mpr (Or.inr (List.mem_filter.mpr
                    ⟨hy, decide_eq_true ⟨?_, hyv⟩⟩))
                  exact hca y ((FlowNetwork.mem_outgoing_edges lg x.stop y).mp hy).1
              · left
                exact List.mem_append.mpr (Or.inr hxr)
            · right
              exact ⟨hdone.1, fun y hy => List.mem_append.mpr (Or.inl (hdone.2 y hy))⟩

theorem blockingLoop_once (dfsF : Nat) : ∀ (fuel : Nat) (lg : FlowNetwork),
    (blockingLoop dfsF fuel lg true).2.1 = true := by
  intro fuel
  induction fuel with
  | zero => intro lg; rfl
  | succ n ih =>
    intro lg
    simp only [blockingLoop]
    by_cases hr : (dfsLoop lg dfsF (dfsInit lg)).reached = true
    · rw [if_pos hr]
      cases hm : (dfsLoop lg dfsF (dfsInit lg)).path.map lg.available_capacity with
      | nil => rfl
      | cons a vs =>
        dsimp only
        by_cases hpf : vs.foldl min a = 0
        · rw [if_pos hpf]
        · rw [if_neg hpf]
          exact ih _
    · rw [if_neg hr]

theorem blockingLoop_false_first (dfsF fuel : Nat) (lg : FlowNetwork)
    (hfu : 1 ≤ fuel)
    (h : (blockingLoop dfsF fuel lg false).2.1 = false) :
    (dfsLoop lg dfsF (dfsInit lg)).reached = false := by
  cases fuel with
  | zero => omega
  | succ n =>
    cases hx : (dfsLoop lg dfsF (dfsInit lg)).reached with
    | false => rfl
    | true =>
      exfalso
      simp only [blockingLoop] at h
      rw [if_pos hx] at h
      cases hm : (dfsLoop lg dfsF (dfsInit lg)).path.map lg.available_capacity with
      | nil =>
        rw [hm] at h
        have h2 : true = false := h
        exact Bool.noConfusion h2
      | cons a vs =>
        rw [hm] at h
        dsimp only at h
        by_cases hpf : vs.foldl min a = 0
        · rw [if_pos hpf] at h
          have h2 : true = false := h
          exact Bool.noConfusion h2
        · rw [if_neg hpf] at h
          rw [blockingLoop_once dfsF] at h
          exact Bool.noConfusion h

theorem phase_hasB (m : FlowNetwork) :
    (phase m).hasBlocking =
      (blockingLoop
          (dfsFuelFor (construct_level_graph (rgOf m) (bfsFuelFor (rgOf m))).level_graph)
          (blockFuelFor (construct_level_graph (rgOf m) (bfsFuelFor (rgOf m))).level_graph)
          (construct_level_graph (rgOf m) (bfsFuelFor (rgOf m))).level_graph
          false).2.1 := by
  set st := construct_level_graph (rgOf m) (bfsFuelFor (rgOf m)) with hst
  have hph : phase m = phaseOnLevel m st := by rw [hst]; rfl
  rw [hph]
  simp only [phaseOnLevel]
  rcases hbl : blockingLoop (dfsFuelFor st.level_graph) (blockFuelFor st.level_graph)
      st.level_graph false with ⟨lgf, hasB, okb⟩
  cases hasB with
  | false => rfl
  | true => rfl

theorem phase_no_aug (m : FlowNetwork) (hstsk : m.source ≠ m.sink)
    (hfb : (phase m).hasBlocking = false) (p : List Edge) :
    isAugPath m p = false := by
  cases haug : isAugPath m p with
  | false => rfl
  | true =>
    exfalso
    unfold isAugPath at haug
    rw [Bool.and_eq_true] at haug
    have hwalk : walksTo (rgOf m) m.source p m.sink = true := haug.2
    have hb := construct_level_graph_basic (rgOf m) (rgOf_flow m) (bfsFuelFor (rgOf m))
    have hpair := bfsLoop_cov (rgOf m) (bfsFuelFor (rgOf m))
      { level_graph := FlowNetwork.empty (rgOf m).source (rgOf m).sink,
        vertex_levels := [((rgOf m).source, 0)],
        worklist := (rgOf m).outgoing_edges (rgOf m).source,
        visited := [] } (bfsEq_init (rgOf m)) (bfsCov_init (rgOf m))
    have hEq : BfsEq (rgOf m)
        (construct_level_graph (rgOf m) (bfsFuelFor (rgOf m))) := hpair.1
    have hCov : BfsCov (rgOf m)
        (construct_level_graph (rgOf m) (bfsFuelFor (rgOf m))) := hpair.2
    have hdrain : (construct_level_graph (rgOf m) (bfsFuelFor (rgOf m))).worklist = [] := by
      unfold construct_level_graph
      apply bfsLoop_drains (rgOf m) (rgOf_nodup m)
      dsimp only
      have hf := List.length_filter_le
        (fun x => decide (x ∉ ([] : List Edge))) (rgOf m).edges
      unfold bfsFuelFor
      omega
    have hreach : (dfsLoop
        (construct_level_graph (rgOf m) (bfsFuelFor (rgOf m))).level_graph
        (dfsFuelFor (construct_level_graph (rgOf m) (bfsFuelFor (rgOf m))).level_graph)
        (dfsInit (construct_level_graph (rgOf m)
          (bfsFuelFor (rgOf m))).level_graph)).reached = false := by
      apply blockingLoop_false_first
        (dfsFuelFor (construct_level_graph (rgOf m) (bfsFuelFor (rgOf m))).level_graph)
        (blockFuelFor (construct_level_graph (rgOf m) (bfsFuelFor (rgOf m))).level_graph)
        (construct_level_graph (rgOf m) (bfsFuelFor (rgOf m))).level_graph
      · unfold blockFuelFor
        omega
      · rw [← phase_hasB m]
        exact hfb
    have hrw : (dfsLoop
        (construct_level_graph (rgOf m) (bfsFuelFor (rgOf m))).level_graph
        (dfsFuelFor (construct_level_graph (rgOf m) (bfsFuelFor (rgOf m))).level_graph)
        (dfsInit (construct_level_graph (rgOf m)
          (bfsFuelFor (rgOf m))).level_graph)).worklist = [] := by
      apply dfsLoop_drains _ hb.lgNodup
      · show ((construct_level_graph (rgOf m)
            (bfsFuelFor (rgOf m))).level_graph.outgoing_edges
            (construct_level_graph (rgOf m)
              (bfsFuelFor (rgOf m))).level_graph.source).reverse.length + 2 * _ < _
        rw [List.length_reverse]
        have hf := List.length_filter_le
          (fun x => decide (x ∉ (dfsInit (construct_level_graph (rgOf m)
            (bfsFuelFor (rgOf m))).level_graph).visited))
          (construct_level_graph (rgOf m) (bfsFuelFor (rgOf m))).level_graph.edges
        unfold dfsFuelFor
        omega
      · exact hreach
    have hca : ∀ x ∈ (construct_level_graph (rgOf m)
        (bfsFuelFor (rgOf m))).level_graph.edges,
        0 < (construct_level_graph (rgOf m)
          (bfsFuelFor (rgOf m))).level_graph.available_capacity x := by
      intro x hx
      unfold FlowNetwork.available_capacity
      rw [hb.lgFlow x, hb.lgCap x hx]
      have hc1 : 1 ≤ (rgOf m).capacity x := rgOf_capacity_pos m x (hb.lgSub x hx)
      rw [if_neg (by omega)]
      omega
    have hD0 : ∀ g ∈ (dfsInit (construct_level_graph (rgOf m)
        (bfsFuelFor (rgOf m))).level_graph).worklist,
        g ∈ (dfsInit (construct_level_graph (rgOf m)
          (bfsFuelFor (rgOf m))).level_graph).visited ∨
        g ∈ (construct_level_graph (rgOf m)
          (bfsFuelFor (rgOf m))).level_graph.outgoing_edges
            (construct_level_graph (rgOf m) (bfsFuelFor (rgOf m))).level_graph.source := by
      intro g hg
      right
      exact List.mem_reverse.mp hg
    have hD1 : ∀ g, (g ∈ (dfsInit (construct_level_graph (rgOf m)
        (bfsFuelFor (rgOf m))).level_graph).visited ∨
        g ∈ (construct_level_graph (rgOf m)
          (bfsFuelFor (rgOf m))).level_graph.outgoing_edges
            (construct_level_graph (rgOf m)
              (bfsFuelFor (rgOf m))).level_graph.source) →
        g ∈ (dfsInit (construct_level_graph (rgOf m)
          (bfsFuelFor (rgOf m))).level_graph).worklist ∨
        (g.stop ≠ (construct_level_graph (rgOf m)
          (bfsFuelFor (rgOf m))).level_graph.sink ∧
          ∀ x ∈ (construct_level_graph (rgOf m)
            (bfsFuelFor (rgOf m))).level_graph.outgoing_edges g.stop,
            x ∈ (dfsInit (construct_level_graph (rgOf m)
              (bfsFuelFor (rgOf m))).level_graph).visited) := by
      intro g hg
      left
      rcases hg with hg | hg
      · exact absurd hg (List.not_mem_nil g)
      · exact List.mem_reverse.mpr hg
    have hcl := dfsLoop_closure (construct_level_graph (rgOf m)
        (bfsFuelFor (rgOf m))).level_graph hca
      (dfsFuelFor (construct_level_graph (rgOf m) (bfsFuelFor (rgOf m))).level_graph)
      (dfsInit (construct_level_graph (rgOf m) (bfsFuelFor (rgOf m))).level_graph)
      hD0 hD1 hreach hrw
    have hcovfact : ∀ e ∈ (rgOf m).edges,
        Leveled (construct_level_graph (rgOf m)
          (bfsFuelFor (rgOf m))).vertex_levels e.start →
        Leveled (construct_level_graph (rgOf m)
          (bfsFuelFor (rgOf m))).vertex_levels e.stop := by
      intro e he hstart
      by_cases hes : e.start = (rgOf m).source
      · rcases hEq.phase with ⟨S, B, hq, hSne, -⟩ | ⟨hscov, -⟩
        · rw [hdrain] at hq
          exact absurd (List.append_eq_nil.mp hq.symm).1 hSne
        · obtain ⟨k, hk, -⟩ := hscov e
            ((FlowNetwork.mem_outgoing_edges (rgOf m) (rgOf m).source e).mpr ⟨he, hes⟩)
          exact ⟨k, hk⟩
      · have hevis : e ∈ (construct_level_graph (rgOf m)
            (bfsFuelFor (rgOf m))).visited :=
          hEq.exp e.start hes hstart e
            ((FlowNetwork.mem_outgoing_edges (rgOf m) e.start e).mpr ⟨he, rfl⟩)
        rcases hCov.vis e hevis with hin | hlev
        · rw [hdrain] at hin
          exact absurd hin (List.not_mem_nil e)
        · exact hlev
    have hsrceq : (rgOf m).source = m.source := rgOf_source m
    have hsnkeq : (rgOf m).sink = m.sink := rgOf_sink m
    have hsrclev : Leveled (construct_level_graph (rgOf m)
        (bfsFuelFor (rgOf m))).vertex_levels m.source := by
      rw [← hsrceq]
      exact ⟨0, hEq.src0⟩
    obtain ⟨ks, hks⟩ := walk_leveled (rgOf m)
      (construct_level_graph (rgOf m) (bfsFuelFor (rgOf m))).vertex_levels
      hcovfact p m.source m.sink hsrclev hwalk
    obtain ⟨q, hq⟩ := leveled_lg_walk (rgOf m)
      (construct_level_graph (rgOf m) (bfsFuelFor (rgOf m))) hCov ks ks m.sink
      (Nat.le_refl ks) hks
    cases q with
    | nil =>
      have hq2 : (rgOf m).source = m.sink := by
        simp only [walksTo, decide_eq_true_eq] at hq
        exact hq
      rw [hsrceq] at hq2
      exact hstsk hq2
    | cons g t =>
      simp only [walksTo, Bool.and_eq_true, decide_eq_true_eq] at hq
      obtain ⟨⟨hge, hgs⟩, hrest⟩ := hq
      have hgout : g ∈ (construct_level_graph (rgOf m)
          (bfsFuelFor (rgOf m))).level_graph.outgoing_edges
          (construct_level_graph (rgOf m) (bfsFuelFor (rgOf m))).level_graph.source := by
        refine (FlowNetwork.mem_outgoing_edges (construct_level_graph (rgOf m)
          (bfsFuelFor (rgOf m))).level_graph (construct_level_graph (rgOf m)
          (bfsFuelFor (rgOf m))).level_graph.source g).mpr ⟨hge, ?_⟩
        rw [hb.lgSource]
        exact hgs
      have hblocked := walk_blocked (construct_level_graph (rgOf m)
          (bfsFuelFor (rgOf m))).level_graph
        (dfsLoop (construct_level_graph (rgOf m) (bfsFuelFor (rgOf m))).level_graph
          (dfsFuelFor (construct_level_graph (rgOf m)
            (bfsFuelFor (rgOf m))).level_graph)
          (dfsInit (construct_level_graph (rgOf m)
            (bfsFuelFor (rgOf m))).level_graph)).visited
        hcl t g (Or.inr hgout)
      apply hblocked
      have hsink2 : (construct_level_graph (rgOf m)
          (bfsFuelFor (rgOf m))).level_graph.sink = m.sink := by
        rw [hb.lgSink]
        exact hsnkeq
      rw [hsink2]
      exact hrest

theorem solve_final_phase : ∀ (fuel : Nat) (n : FlowNetwork),
    (solve fuel n).2 = true → (phase (solve fuel n).1).hasBlocking = false := by
  intro fuel
  induction fuel with
  | zero =>
    intro n h
    have h2 : false = true := h
    exact Bool.noConfusion h2
  | succ f ih =>
    intro n h
    by_cases hbb : (phase n).hasBlocking = true
    · rw [solve_succ_pos f n hbb]
      apply ih
      have h2 := h
      rw [solve_succ_pos2 f n hbb, Bool.and_eq_true] at h2
      exact h2.2
    · have hbf : (phase n).hasBlocking = false := Bool.eq_false_iff.mpr hbb
      rw [solve_succ_neg f n hbf]
      exact hbf

theorem solve_edges : ∀ (fuel : Nat) (n : FlowNetwork),
    (solve fuel n).1.edges = n.edges := by
  intro fuel
  induction fuel with
  | zero => intro n; rfl
  | succ f ih =>
    intro n
    by_cases hbb : (phase n).hasBlocking = true
    · rw [solve_succ_pos f n hbb, ih, phase_network_edges]
    · rw [solve_succ_neg f n (Bool.eq_false_iff.mpr hbb)]

theorem solve_capacity : ∀ (fuel : Nat) (n : FlowNetwork) (x : Edge),
    (solve fuel n).1.capacity x = n.capacity x := by
  intro fuel
  induction fuel with
  | zero => intro n x; rfl
  | succ f ih =>
    intro n x
    by_cases hbb : (phase n).hasBlocking = true
    · rw [solve_succ_pos f n hbb, ih, phase_network_capacity]
    · rw [solve_succ_neg f n (Bool.eq_false_iff.mpr hbb)]

theorem inflow_eq_outflow_of_bal (n : FlowNetwork) (v : Nat)
    (h : n.netBalance v = 0) : n.inflow v = n.outflow v := by
  have h2 : n.inflowZ v = n.outflowZ v := by
    unfold FlowNetwork.netBalance at h
    omega
  have h3 : (n.inflow v : Int) = (n.outflow v : Int) := by
    rw [FlowNetwork.inflow_eq_inflowZ, FlowNetwork.outflow_eq_outflowZ]
    exact h2
  exact_mod_cast h3

end dinic

theorem filter_pos_length_le_sum {α : Type} (f : α → Nat) :
    ∀ (L : List α), (L.filter (fun e => decide (f e > 0))).length ≤ (L.map f).sum := by
  intro L
  induction L with
  | nil => exact Nat.le_refl 0
  | cons a t ih =>
    rw [List.filter_cons, List.map_cons, List.sum_cons]
    by_cases h : f a > 0
    · rw [if_pos (decide_eq_true h)]
      rw [List.length_cons]
      omega
    · rw [if_neg (fun hc => h (of_decide_eq_true hc))]
      omega

theorem all_eq_nodup_sum_le {α : Type} (f : α → Nat) (a : α) :
    ∀ (L : List α), L.Nodup → (∀ x ∈ L, x = a) → (L.map f).sum ≤ f a := by
  intro L hnd hall
  cases L with
  | nil => exact Nat.zero_le _
  | cons x t =>
    have hxa : x = a := hall x (List.mem_cons_self x t)
    cases t with
    | nil =>
      rw [List.map_cons, List.map_nil, List.sum_cons, List.sum_nil, hxa]
      omega
    | cons y t2 =>
      exfalso
      have hya : y = a := hall y (List.mem_cons_of_mem x (List.mem_cons_self y t2))
      have hxm : x ∈ y :: t2 := by
        rw [hxa, ← hya]
        exact List.mem_cons_self y t2
      exact (List.nodup_cons.mp hnd).1 hxm

namespace flow_network

namespace FlowNetwork

theorem add_edge_flow_zero (net : FlowNetwork) (e : Edge) (c : Nat)
    (h : ∀ x, net.flow x = 0) : ∀ x, (net.add_edge e c 0).flow x = 0 := by
  intro x
  unfold FlowNetwork.flow FlowNetwork.add_edge
  dsimp only
  by_cases hx : x = e
  · rw [hx]
    exact emapGet_put net.flows e 0
  · rw [emapGet_put_ne net.flows e x 0 hx]
    exact h x

end FlowNetwork

end flow_network

namespace assignment_network

open flow_network models

theorem pairwise_distinct {α : Type} (R : α → α → Prop)
    (hsym : ∀ x y, R x y → R y x) :
    ∀ (L : List α), L.Pairwise R → ∀ x ∈ L, ∀ y ∈ L, x ≠ y → R x y := by
  intro L
  induction L with
  | nil => intro _ x hx; exact absurd hx (List.not_mem_nil x)
  | cons p t ih =>
    intro h x hx y hy hxy
    have hc := List.pairwise_cons.mp h
    rcases List.mem_cons.mp hx with hxp | hxt
    · rcases List.mem_cons.mp hy with hyp | hyt
      · exfalso
        rw [hxp, hyp] at hxy
        exact hxy rfl
      · rw [hxp]
        exact hc.1 y hyt
    · rcases List.mem_cons.mp hy with hyp | hyt
      · rw [hyp]
        exact hsym p x (hc.1 x hxt)
      · exact ih hc.2 x hxt y hyt hxy

theorem bimapInsert_ok (m : List (Nat × Nat)) (a b : Nat) (h : BimapOk m) :
    BimapOk (bimapInsert m a b) := by
  unfold BimapOk bimapInsert
  rw [List.pairwise_append]
  refine ⟨List.Pairwise.filter _ h, List.pairwise_singleton _ _, ?_⟩
  intro p hp q hq
  rw [List.mem_singleton] at hq
  subst hq
  exact of_decide_eq_true (List.mem_filter.mp hp).2

theorem bimapok_right_unique (m : List (Nat × Nat)) (h : BimapOk m)
    (a b n : Nat) (ha : (a, n) ∈ m) (hb : (b, n) ∈ m) : a = b := by
  by_contra hab
  have hpw : m.Pairwise (fun p q => p.1 ≠ q.1 ∧ p.2 ≠ q.2) := h
  have hne : ((a, n) : Nat × Nat) ≠ (b, n) := fun hh => hab (congrArg Prod.fst hh)
  have hr := pairwise_distinct (fun p q => p.1 ≠ q.1 ∧ p.2 ≠ q.2)
    (fun x y hxy => ⟨Ne.symm hxy.1, Ne.symm hxy.2⟩) m hpw (a, n) ha (b, n) hb hne
  exact hr.2 rfl

theorem bimapok_left_unique (m : List (Nat × Nat)) (h : BimapOk m)
    (a n1 n2 : Nat) (h1 : (a, n1) ∈ m) (h2 : (a, n2) ∈ m) : n1 = n2 := by
  by_contra hn
  have hpw : m.Pairwise (fun p q => p.1 ≠ q.1 ∧ p.2 ≠ q.2) := h
  have hne : ((a, n1) : Nat × Nat) ≠ (a, n2) := fun hh => hn (congrArg Prod.snd hh)
  have hr := pairwise_distinct (fun p q => p.1 ≠ q.1 ∧ p.2 ≠ q.2)
    (fun x y hxy => ⟨Ne.symm hxy.1, Ne.symm hxy.2⟩) m hpw (a, n1) h1 (a, n2) h2 hne
  exact hr.1 rfl

theorem getByLeft_mem (m : List (Nat × Nat)) (a n : Nat)
    (h : getByLeft m a = some n) : (a, n) ∈ m := by
  unfold getByLeft at h
  rw [Option.map_eq_some'] at h
  obtain ⟨q, hq, hq2⟩ := h
  have h1 := List.find?_some hq
  have h2 := List.mem_of_find?_eq_some hq
  obtain ⟨q1, q2⟩ := q
  dsimp only at hq2
  have hqa : q1 = a := of_decide_eq_true h1
  rw [← hqa, ← hq2]
  exact h2

theorem getByRight_mem (m : List (Nat × Nat)) (b a : Nat)
    (h : getByRight m b = some a) : (a, b) ∈ m := by
  unfold getByRight at h
  rw [Option.map_eq_some'] at h
  obtain ⟨q, hq, hq2⟩ := h
  have h1 := List.find?_some hq
  have h2 := List.mem_of_find?_eq_some hq
  obtain ⟨q1, q2⟩ := q
  dsimp only at hq2
  have hqb : q2 = b := of_decide_eq_true h1
  rw [← hqb, ← hq2]
  exact h2

theorem submapGet_mem (m : List (Nat × Submission)) (k : Nat) (s : Submission)
    (h : submapGet m k = some s) : (k, s) ∈ m := by
  unfold submapGet at h
  rw [Option.map_eq_some'] at h
  obtain ⟨q, hq, hq2⟩ := h
  have h1 := List.find?_some hq
  have h2 := List.mem_of_find?_eq_some hq
  obtain ⟨q1, q2⟩ := q
  dsimp only at hq2
  have hqk : q1 = k := of_decide_eq_true h1
  rw [← hqk, ← hq2]
  exact h2

theorem mem_submapGet : ∀ (m : List (Nat × Submission)),
    (m.map (·.1)).Nodup → ∀ (k : Nat) (s : Submission),
    (k, s) ∈ m → submapGet m k = some s := by
  intro m
  induction m with
  | nil => intro _ k s hmem; exact absurd hmem (List.not_mem_nil _)
  | cons p t ih =>
    intro hnd k s hmem
    simp only [List.map_cons, List.nodup_cons] at hnd
    unfold submapGet
    by_cases hp : p.1 = k
    · rw [@List.find?_cons_of_pos (Nat × Submission)
        (fun q => decide (q.1 = k)) p t (decide_eq_true hp)]
      rcases List.mem_cons.mp hmem with hpe | htm
      · rw [← hpe]
        rfl
      · exfalso
        apply hnd.1
        rw [hp]
        exact List.mem_map.mpr ⟨(k, s), htm, rfl⟩
    · rw [@List.find?_cons_of_neg (Nat × Submission)
        (fun q => decide (q.1 = k)) p t (fun hc => hp (of_decide_eq_true hc))]
      rcases List.mem_cons.mp hmem with hpe | htm
      · exfalso
        rw [← hpe] at hp
        exact hp rfl
      · exact ih hnd.2 k s htm

theorem submap_key_unique (m : List (Nat × Submission))
    (hnd : (m.map (·.1)).Nodup) (k : Nat) (x y : Submission)
    (hx : (k, x) ∈ m) (hy : (k, y) ∈ m) : x = y := by
  have h1 := mem_submapGet m hnd k x hx
  have h2 := mem_submapGet m hnd k y hy
  rw [h1] at h2
  exact Option.some.inj h2

theorem submapPut_keys (s : Submission) : ∀ (m : List (Nat × Submission)) (k : Nat),
    k ∈ (submapPut m s).map (·.1) → k ∈ m.map (·.1) ∨ k = s.id := by
  intro m
  induction m with
  | nil =>
    intro k hk
    right
    simp [submapPut] at hk
    exact hk
  | cons p t ih =>
    intro k hk
    unfold submapPut at hk
    by_cases hp : p.1 = s.id
    · rw [if_pos hp] at hk
      simp only [List.map_cons, List.mem_cons] at hk
      rcases hk with hk | hk
      · right
        exact hk
      · left
        simp only [List.map_cons, List.mem_cons]
        right
        exact hk
    · rw [if_neg hp] at hk
      simp only [List.map_cons, List.mem_cons] at hk
      rcases hk with hk | hk
      · left
        simp only [List.map_cons, List.mem_cons]
        left
        exact hk
      · rcases ih k hk with h1 | h2
        · left
          simp only [List.map_cons, List.mem_cons]
          right
          exact h1
        · right
          exact h2

theorem submapPut_ok (m : List (Nat × Submission)) (s : Submission)
    (h : SubmapOk m) : SubmapOk (submapPut m s) := by
  induction m with
  | nil =>
    unfold submapPut
    constructor
    · intro p hp
      rw [List.mem_singleton] at hp
      rw [hp]
    · exact List.nodup_singleton _
  | cons p t ih =>
    obtain ⟨hkeys, hnd⟩ := h
    simp only [List.map_cons, List.nodup_cons] at hnd
    have hta : SubmapOk t :=
      ⟨fun q hq => hkeys q (List.mem_cons_of_mem p hq), hnd.2⟩
    unfold submapPut
    by_cases hp : p.1 = s.id
    · rw [if_pos hp]
      constructor
      · intro q hq
        rcases List.mem_cons.mp hq with h1 | h2
        · rw [h1]
        · exact hkeys q (List.mem_cons_of_mem p h2)
      · simp only [List.map_cons, List.nodup_cons]
        exact ⟨hp ▸ hnd.1, hnd.2⟩
    · rw [if_neg hp]
      have hih := ih hta
      constructor
      · intro q hq
        rcases List.mem_cons.mp hq with h1 | h2
        · rw [h1]
          exact hkeys p (List.mem_cons_self p t)
        · exact hih.1 q h2
      · simp only [List.map_cons, List.nodup_cons]
        refine ⟨?_, hih.2⟩
        intro hc
        rcases submapPut_keys s t p.1 hc with h1 | h2
        · exact hnd.1 h1
        · exact hp h2

theorem subsMap_ok (S0 : List Submission) :
    SubmapOk (S0.foldl (fun acc s => submapPut acc s) []) := by
  suffices h : ∀ (S1 : List Submission) (acc : List (Nat × Submission)),
      SubmapOk acc → SubmapOk (S1.foldl (fun acc s => submapPut acc s) acc) by
    exact h S0 [] ⟨fun p hp => absurd hp (List.not_mem_nil p), List.nodup_nil⟩
  intro S1
  induction S1 with
  | nil => intro acc h; exact h
  | cons s t ih =>
    intro acc h
    exact ih _ (submapPut_ok acc s h)

theorem addNodes_inv (g : Nat) : ∀ (subs : List Submission) (net : FlowNetwork)
    (subm subn : List (Nat × Nat)) (idx : Nat),
    2 ≤ idx → idx % 2 = 0 →
    NodesInv g idx net subm subn →
    ∃ idx2, 2 ≤ idx2 ∧ idx2 % 2 = 0 ∧
      NodesInv g idx2 (addNodes g subs net subm subn idx).1
        (addNodes g subs net subm subn idx).2.1
        (addNodes g subs net subm subn idx).2.2 := by
  intro subs
  induction subs with
  | nil =>
    intro net subm subn idx h2 he hinv
    exact ⟨idx, h2, he, hinv⟩
  | cons s rest ih =>
    intro net subm subn idx h2 he hinv
    have hstep : addNodes g (s :: rest) net subm subn idx =
        addNodes g rest
          ((net.add_edge ⟨0, idx⟩ g 0).add_edge ⟨idx + 1, 1⟩ g 0)
          (bimapInsert subm s.submitter idx)
          (bimapInsert subn s.id (idx + 1)) (idx + 2) := rfl
    rw [hstep]
    apply ih _ _ _ (idx + 2) (by omega) (by omega)
    refine ⟨?_, ?_, ?_, ?_, ?_, ?_, ?_, ?_, ?_, ?_, ?_⟩
    · rw [FlowNetwork.add_edge_source, FlowNetwork.add_edge_source]
      exact hinv.src
    · rw [FlowNetwork.add_edge_sink, FlowNetwork.add_edge_sink]
      exact hinv.snk
    · exact FlowNetwork.add_edge_nodup _ _ _ _
        (FlowNetwork.add_edge_nodup _ _ _ _ hinv.nodup)
    · exact FlowNetwork.add_edge_flow_zero _ _ _
        (FlowNetwork.add_edge_flow_zero _ _ _ hinv.flows0)
    · intro e hee
      rw [FlowNetwork.mem_add_edge] at hee
      rcases hee with hee | hee
      · rw [FlowNetwork.mem_add_edge] at hee
        rcases hee with hee | hee
        · rcases hinv.shape e hee with ⟨a1, a2, a3, a4⟩ | ⟨a1, a2, a3, a4⟩
          · exact Or.inl ⟨a1, a2, a3, by omega⟩
          · exact Or.inr ⟨a1, a2, a3, by omega⟩
        · subst hee
          left
          exact ⟨rfl, h2, he, (by omega : idx < idx + 2)⟩
      · subst hee
        right
        exact ⟨rfl, (by omega : 3 ≤ idx + 1), (by omega : (idx + 1) % 2 = 1),
          (by omega : idx + 1 < idx + 2)⟩
    · exact bimapInsert_ok subm s.submitter idx hinv.mOk
    · exact bimapInsert_ok subn s.id (idx + 1) hinv.nOk
    · intro p hp
      unfold bimapInsert at hp
      rcases List.mem_append.mp hp with hp | hp
      · have hold := hinv.mVal p (List.mem_filter.mp hp).1
        exact ⟨hold.1, hold.2.1, by omega⟩
      · rw [List.mem_singleton] at hp
        subst hp
        exact ⟨h2, he, (by omega : idx < idx + 2)⟩
    · intro p hp
      unfold bimapInsert at hp
      rcases List.mem_append.mp hp with hp | hp
      · have hold := hinv.nVal p (List.mem_filter.mp hp).1
        exact ⟨hold.1, hold.2.1, by omega⟩
      · rw [List.mem_singleton] at hp
        subst hp
        exact ⟨(by omega : 3 ≤ idx + 1), (by omega : (idx + 1) % 2 = 1),
          (by omega : idx + 1 < idx + 2)⟩
    · intro p hp
      unfold bimapInsert at hp
      rcases List.mem_append.mp hp with hp | hp
      · have hold := hinv.mCap p (List.mem_filter.mp hp).1
        have hbound := hinv.mVal p (List.mem_filter.mp hp).1
        constructor
        · rw [FlowNetwork.mem_add_edge]
          left
          rw [FlowNetwork.mem_add_edge]
          left
          exact hold.1
        · have hne1 : (⟨0, p.2⟩ : Edge) ≠ ⟨idx + 1, 1⟩ := by
            intro hh
            have h0 : (0 : Nat) = idx + 1 := congrArg Edge.start hh
            omega
          have hne2 : (⟨0, p.2⟩ : Edge) ≠ ⟨0, idx⟩ := by
            intro hh
            have h0 : p.2 = idx := congrArg Edge.stop hh
            omega
          rw [FlowNetwork.add_edge_capacity_ne _ _ _ _ _ hne1,
            FlowNetwork.add_edge_capacity_ne _ _ _ _ _ hne2]
          exact hold.2
      · rw [List.mem_singleton] at hp
        subst hp
        dsimp only
        constructor
        · rw [FlowNetwork.mem_add_edge]
          left
          rw [FlowNetwork.mem_add_edge]
          right
          rfl
        · have hne1 : (⟨0, idx⟩ : Edge) ≠ ⟨idx + 1, 1⟩ := by
            intro hh
            have h0 : (0 : Nat) = idx + 1 := congrArg Edge.start hh
            omega
          rw [FlowNetwork.add_edge_capacity_ne _ _ _ _ _ hne1]
          exact FlowNetwork.add_edge_capacity_self _ _ _ _
    · intro p hp
      unfold bimapInsert at hp
      rcases List.mem_append.mp hp with hp | hp
      · have hold := hinv.nCap p (List.mem_filter.mp hp).1
        have hbound := hinv.nVal p (List.mem_filter.mp hp).1
        constructor
        · rw [FlowNetwork.mem_add_edge]
          left
          rw [FlowNetwork.mem_add_edge]
          left
          exact hold.1
        · have hne1 : (⟨p.2, 1⟩ : Edge) ≠ ⟨idx + 1, 1⟩ := by
            intro hh
            have h0 : p.2 = idx + 1 := congrArg Edge.start hh
            omega
          have hne2 : (⟨p.2, 1⟩ : Edge) ≠ ⟨0, idx⟩ := by
            intro hh
            have h0 : (1 : Nat) = idx := congrArg Edge.stop hh
            omega
          rw [FlowNetwork.add_edge_capacity_ne _ _ _ _ _ hne1,
            FlowNetwork.add_edge_capacity_ne _ _ _ _ _ hne2]
          exact hold.2
      · rw [List.mem_singleton] at hp
        subst hp
        dsimp only
        constructor
        · rw [FlowNetwork.mem_add_edge]
          right
          rfl
        · exact FlowNetwork.add_edge_capacity_self _ _ _ _

theorem addMiddleFor_inv (g : Nat) (played_games : List PlayedGame)
    (subm subn : List (Nat × Nat)) (subsMap : List (Nat × Submission))
    (src : Submission) (src_node : Nat)
    (hsrcm : (src.submitter, src_node) ∈ subm)
    (hsv2 : 2 ≤ src_node) (hsve : src_node % 2 = 0)
    (hnv : ∀ p ∈ subn, 3 ≤ p.2 ∧ p.2 % 2 = 1) :
    ∀ (ds : List Submission) (net : FlowNetwork),
    (∀ d ∈ ds, (d.id, d) ∈ subsMap) →
    MidInv g subm subn subsMap played_games net →
    MidInv g subm subn subsMap played_games
      (addMiddleFor played_games subn src src_node ds net) := by
  intro ds
  induction ds with
  | nil => intro net _ hinv; exact hinv
  | cons dst rest ih =>
    intro net hds hinv
    have hstep : addMiddleFor played_games subn src src_node (dst :: rest) net =
        addMiddleFor played_games subn src src_node rest
          (if src.submitter = dst.submitter then net
            else if dst.link ∈ playedLinks played_games src.submitter then net
            else
              match getByLeft subn dst.id with
              | none => net
              | some dst_node => net.add_edge ⟨src_node, dst_node⟩ 1 0) := rfl
    rw [hstep]
    apply ih _ (fun d hd => hds d (List.mem_cons_of_mem dst hd))
    by_cases hsub : src.submitter = dst.submitter
    · rw [if_pos hsub]
      exact hinv
    · rw [if_neg hsub]
      by_cases hpl : dst.link ∈ playedLinks played_games src.submitter
      · rw [if_pos hpl]
        exact hinv
      · rw [if_neg hpl]
        cases hgl : getByLeft subn dst.id with
        | none => exact hinv
        | some dst_node =>
          have hdn := getByLeft_mem subn dst.id dst_node hgl
          have hdnv := hnv (dst.id, dst_node) hdn
          have hdn3 : 3 ≤ dst_node := hdnv.1
          have hdno : dst_node % 2 = 1 := hdnv.2
          refine ⟨?_, ?_, ?_, ?_, ?_, ?_, ?_⟩
          · rw [FlowNetwork.add_edge_source]
            exact hinv.src
          · rw [FlowNetwork.add_edge_sink]
            exact hinv.snk
          · exact FlowNetwork.add_edge_nodup _ _ _ _ hinv.nodup
          · exact FlowNetwork.add_edge_flow_zero _ _ _ hinv.flows0
          · intro e hee
            rw [FlowNetwork.mem_add_edge] at hee
            rcases hee with hee | hee
            · exact hinv.shape e hee
            · subst hee
              right
              right
              exact ⟨hsv2, hsve, hdn3, hdno, src.submitter, dst, hsrcm, hdn,
                hds dst (List.mem_cons_self dst rest),
                fun hh => hsub hh.symm, hpl⟩
          · intro p hp
            have hold := hinv.mCap p hp
            constructor
            · rw [FlowNetwork.mem_add_edge]
              left
              exact hold.1
            · have hne1 : (⟨0, p.2⟩ : Edge) ≠ ⟨src_node, dst_node⟩ := by
                intro hh
                have h0 : (0 : Nat) = src_node := congrArg Edge.start hh
                omega
              rw [FlowNetwork.add_edge_capacity_ne _ _ _ _ _ hne1]
              exact hold.2
          · intro p hp
            have hold := hinv.nCap p hp
            constructor
            · rw [FlowNetwork.mem_add_edge]
              left
              exact hold.1
            · have hne1 : (⟨p.2, 1⟩ : Edge) ≠ ⟨src_node, dst_node⟩ := by
                intro hh
                have h0 : (1 : Nat) = dst_node := congrArg Edge.stop hh
                omega
              rw [FlowNetwork.add_edge_capacity_ne _ _ _ _ _ hne1]
              exact hold.2

theorem addMiddle_inv (g : Nat) (played_games : List PlayedGame)
    (subm subn : List (Nat × Nat)) (subsMap : List (Nat × Submission))
    (allSubs : List Submission)
    (hall : ∀ d ∈ allSubs, (d.id, d) ∈ subsMap)
    (hmv : ∀ p ∈ subm, 2 ≤ p.2 ∧ p.2 % 2 = 0)
    (hnv : ∀ p ∈ subn, 3 ≤ p.2 ∧ p.2 % 2 = 1) :
    ∀ (srcs : List Submission) (net : FlowNetwork),
    MidInv g subm subn subsMap played_games net →
    MidInv g subm subn subsMap played_games
      (addMiddle played_games subm subn allSubs srcs net) := by
  intro srcs
  induction srcs with
  | nil => intro net hinv; exact hinv
  | cons src rest ih =>
    intro net hinv
    have hstep : addMiddle played_games subm subn allSubs (src :: rest) net =
        addMiddle played_games subm subn allSubs rest
          (match getByLeft subm src.submitter with
            | none => net
            | some src_node =>
              addMiddleFor played_games subn src src_node allSubs net) := rfl
    rw [hstep]
    apply ih
    cases hgl : getByLeft subm src.submitter with
    | none => exact hinv
    | some src_node =>
      have hsm := getByLeft_mem subm src.submitter src_node hgl
      have hsmv := hmv (src.submitter, src_node) hsm
      exact addMiddleFor_inv g played_games subm subn subsMap src src_node hsm
        hsmv.1 hsmv.2 hnv allSubs net hall hinv

theorem build_ok (exchange : Exchange) (submissions : List Submission)
    (played_games : List PlayedGame) :
    BuildOk exchange.games_per_member played_games
      (build exchange submissions played_games) := by
  have hsub := subsMap_ok submissions
  have hall : ∀ d ∈ (submissions.foldl (fun acc s => submapPut acc s) []).map (·.2),
      (d.id, d) ∈ submissions.foldl (fun acc s => submapPut acc s) [] := by
    intro d hd
    obtain ⟨p, hp, hp2⟩ := List.mem_map.mp hd
    have hk := hsub.1 p hp
    obtain ⟨p1, p2⟩ := p
    dsimp only at hk hp2
    rw [← hp2, ← hk]
    exact hp
  have hstart : NodesInv exchange.games_per_member 2 (FlowNetwork.empty 0 1) [] [] := by
    refine ⟨rfl, rfl, List.nodup_nil, ?_, ?_, ?_, ?_, ?_, ?_, ?_, ?_⟩
    · intro x
      rfl
    · intro e he
      exact absurd he (List.not_mem_nil e)
    · exact List.Pairwise.nil
    · exact List.Pairwise.nil
    · intro p hp
      exact absurd hp (List.not_mem_nil p)
    · intro p hp
      exact absurd hp (List.not_mem_nil p)
    · intro p hp
      exact absurd hp (List.not_mem_nil p)
    · intro p hp
      exact absurd hp (List.not_mem_nil p)
  obtain ⟨idx2, hi2, hie, hni⟩ := addNodes_inv exchange.games_per_member
    ((submissions.foldl (fun acc s => submapPut acc s) []).map (·.2))
    (FlowNetwork.empty 0 1) [] [] 2 (Nat.le_refl 2) rfl hstart
  rcases haddn : addNodes exchange.games_per_member
      ((submissions.foldl (fun acc s => submapPut acc s) []).map (·.2))
      (FlowNetwork.empty 0 1) [] [] 2 with ⟨net1, subm, subn⟩
  rw [haddn] at hni
  dsimp only at hni
  simp only [build]
  rw [haddn]
  dsimp only
  have hmid0 : MidInv exchange.games_per_member subm subn
      (submissions.foldl (fun acc s => submapPut acc s) []) played_games net1 := by
    refine ⟨hni.src, hni.snk, hni.nodup, hni.flows0, ?_, hni.mCap, hni.nCap⟩
    intro e he
    rcases hni.shape e he with ⟨a1, a2, a3, a4⟩ | ⟨a1, a2, a3, a4⟩
    · exact Or.inl ⟨a1, a2, a3⟩
    · exact Or.inr (Or.inl ⟨a1, a2, a3⟩)
  have hmid := addMiddle_inv exchange.games_per_member played_games subm subn
    (submissions.foldl (fun acc s => submapPut acc s) [])
    ((submissions.foldl (fun acc s => submapPut acc s) []).map (·.2)) hall
    (fun p hp => ⟨(hni.mVal p hp).1, (hni.mVal p hp).2.1⟩)
    (fun p hp => ⟨(hni.nVal p hp).1, (hni.nVal p hp).2.1⟩)
    ((submissions.foldl (fun acc s => submapPut acc s) []).map (·.2)) net1 hmid0
  exact ⟨hmid, hsub,
    fun p hp => ⟨(hni.mVal p hp).1, (hni.mVal p hp).2.1⟩,
    fun p hp => ⟨(hni.nVal p hp).1, (hni.nVal p hp).2.1⟩,
    hni.mOk, hni.nOk⟩

theorem netinv_of_buildok {g : Nat} {played_games : List PlayedGame}
    {an : AssignmentNetwork} (hb : BuildOk g played_games an) :
    dinic.NetInvC3 an.network := by
  refine ⟨hb.inv.nodup, ?_, ?_, ?_, ?_, ?_, ?_⟩
  · intro e he hop
    have h1 := hb.inv.shape e he
    have h2 := hb.inv.shape e.opposite hop
    unfold BuiltEdge at h1 h2
    rw [opposite_start, opposite_stop] at h2
    rcases h1 with ⟨a1, a2, a3⟩ | ⟨a1, a2, a3⟩ | ⟨a1, a2, a3, a4, -⟩ <;>
      rcases h2 with ⟨b1, b2, b3⟩ | ⟨b1, b2, b3⟩ | ⟨b1, b2, b3, b4, -⟩ <;> omega
  · rw [hb.inv.src, hb.inv.snk]
    omega
  · intro e he
    rw [hb.inv.flows0 e]
    exact Nat.zero_le _
  · intro v hv1 hv2
    exact dinic.netBalance_zero_of_allzero an.network hb.inv.flows0 v
  · intro e he hes
    exact hb.inv.flows0 e
  · intro e he hes
    exact hb.inv.flows0 e

theorem assignments_entry (g : Nat) (played_games : List PlayedGame)
    (an : AssignmentNetwork) (hb : BuildOk g played_games an)
    (NS : FlowNetwork)
    (hE : NS.edges = an.network.edges)
    (hC : ∀ x, NS.capacity x = an.network.capacity x)
    (hinv : dinic.NetInvC3 NS)
    (hS0 : NS.source = 0) (hS1 : NS.sink = 1)
    (u : Nat) (l : List Submission)
    (hul : (u, l) ∈ an.submitter_nodes.map (fun p => (p.1, entryList an NS p.2))) :
    (∀ t ∈ l, t.submitter ≠ u) ∧
    (∀ t ∈ l, t.link ∉ playedLinks played_games u) ∧
    l.length ≤ g := by
  obtain ⟨p, hpm, hpe⟩ := List.mem_map.mp hul
  have hp1 : p.1 = u := congrArg Prod.fst hpe
  have hl : entryList an NS p.2 = l := congrArg Prod.snd hpe
  have hun := hb.mVal p hpm
  have hup : (u, p.2) ∈ an.submitter_nodes := by
    rw [← hp1, Prod.mk.eta]
    exact hpm
  have hab : ∀ t ∈ l, t.submitter ≠ u ∧ t.link ∉ playedLinks played_games u := by
    intro t ht
    rw [← hl] at ht
    unfold entryList at ht
    obtain ⟨e, he, hGe⟩ := List.mem_filterMap.mp ht
    obtain ⟨hea, heb⟩ := List.mem_filter.mp he
    obtain ⟨hee, hes⟩ := (FlowNetwork.mem_outgoing_edges NS p.2 e).mp hea
    rw [hE] at hee
    have hshape := hb.inv.shape e hee
    unfold BuiltEdge at hshape
    rcases hshape with ⟨a1, a2, a3⟩ | ⟨a1, a2, a3⟩ |
      ⟨a1, a2, a3, a4, usr, dst, husr, hdstn, hdstm, hdne, hdnp⟩
    · exfalso
      omega
    · exfalso
      omega
    · rw [hes] at husr
      have husru : usr = u := bimapok_right_unique _ hb.mOk usr u p.2 husr hup
      rw [Option.bind_eq_some] at hGe
      obtain ⟨sid, hsid, hsg⟩ := hGe
      have hsidm := getByRight_mem _ _ _ hsid
      have hsmem := submapGet_mem _ _ _ hsg
      have hsiddst : sid = dst.id :=
        bimapok_right_unique _ hb.nOk sid dst.id e.stop hsidm hdstn
      have htdst : t = dst := by
        apply submap_key_unique _ hb.subsOk.2 dst.id
        · rw [← hsiddst]
          exact hsmem
        · exact hdstm
      rw [htdst, ← husru]
      exact ⟨hdne, hdnp⟩
  refine ⟨fun t ht => (hab t ht).1, fun t ht => (hab t ht).2, ?_⟩
  have hlen1 : l.length ≤
      ((NS.outgoing_edges p.2).filter (fun e => decide (NS.flow e > 0))).length := by
    rw [← hl]
    unfold entryList
    exact List.length_filterMap_le _ _
  have hlen2 := filter_pos_length_le_sum NS.flow (NS.outgoing_edges p.2)
  have houtf : NS.outflow p.2 = ((NS.outgoing_edges p.2).map NS.flow).sum := rfl
  have hbal : NS.inflow p.2 = NS.outflow p.2 := by
    apply dinic.inflow_eq_outflow_of_bal
    apply hinv.bal
    · rw [hS0]
      omega
    · rw [hS1]
      omega
  have hinfl : NS.inflow p.2 ≤ NS.flow ⟨0, p.2⟩ := by
    unfold FlowNetwork.inflow
    apply all_eq_nodup_sum_le
    · exact FlowNetwork.incoming_edges_nodup NS p.2 hinv.nodup
    · intro x hx
      obtain ⟨hxe, hxs⟩ := (FlowNetwork.mem_incoming_edges NS p.2 x).mp hx
      rw [hE] at hxe
      have hsx := hb.inv.shape x hxe
      unfold BuiltEdge at hsx
      rcases hsx with ⟨a1, a2, a3⟩ | ⟨a1, a2, a3⟩ | ⟨a1, a2, a3, a4, -⟩
      · cases x with
        | mk xs xt =>
          dsimp only at a1 hxs
          rw [a1, hxs]
      · exfalso
        omega
      · exfalso
        omega
  have hmem0 := hb.inv.mCap p hpm
  have hflowcap : NS.flow ⟨0, p.2⟩ ≤ NS.capacity ⟨0, p.2⟩ := by
    apply hinv.acap
    rw [hE]
    exact hmem0.1
  have hcap : NS.capacity ⟨0, p.2⟩ = g := by
    rw [hC]
    exact hmem0.2
  omega

theorem assignments_count (g : Nat) (played_games : List PlayedGame)
    (an : AssignmentNetwork) (hb : BuildOk g played_games an)
    (NS : FlowNetwork)
    (hE : NS.edges = an.network.edges)
    (hC : ∀ x, NS.capacity x = an.network.capacity x)
    (hinv : dinic.NetInvC3 NS)
    (hS0 : NS.source = 0) (hS1 : NS.sink = 1)
    (s : Submission) :
    (an.submitter_nodes.map (fun p => (p.1, entryList an NS p.2))).countP
      (fun p => decide (s ∈ p.2)) ≤ g := by
  rw [List.countP_map]
  rw [List.countP_eq_length_filter]
  cases hfl : an.submitter_nodes.filter
      ((fun p => decide (s ∈ p.2)) ∘ fun p => (p.1, entryList an NS p.2)) with
  | nil =>
    exact Nat.zero_le g
  | cons q0 qrest =>
    have hq0 : q0 ∈ an.submitter_nodes.filter
        ((fun p => decide (s ∈ p.2)) ∘ fun p => (p.1, entryList an NS p.2)) := by
      rw [hfl]
      exact List.mem_cons_self q0 qrest
    have hq0p : s ∈ entryList an NS q0.2 :=
      of_decide_eq_true (List.mem_filter.mp hq0).2
    unfold entryList at hq0p
    obtain ⟨e0, he0, hGe0⟩ := List.mem_filterMap.mp hq0p
    rw [Option.bind_eq_some] at hGe0
    obtain ⟨sid0, hsid0, hsg0⟩ := hGe0
    have hmem0 := getByRight_mem _ _ _ hsid0
    have hsmem0 := submapGet_mem _ _ _ hsg0
    have hsid0e : sid0 = s.id := hb.subsOk.1 (sid0, s) hsmem0
    rw [hsid0e] at hmem0
    have hsnv := hb.nVal (s.id, e0.stop) hmem0
    have h3s : 3 ≤ e0.stop := hsnv.1
    have hodd : e0.stop % 2 = 1 := hsnv.2
    have hedge : ∀ q1 ∈ an.submitter_nodes.filter
        ((fun p => decide (s ∈ p.2)) ∘ fun p => (p.1, entryList an NS p.2)),
        (⟨q1.2, e0.stop⟩ : Edge) ∈ NS.edges ∧ NS.flow ⟨q1.2, e0.stop⟩ > 0 := by
      intro q1 hq1
      have hq1p : s ∈ entryList an NS q1.2 :=
        of_decide_eq_true (List.mem_filter.mp hq1).2
      unfold entryList at hq1p
      obtain ⟨e1, he1, hGe1⟩ := List.mem_filterMap.mp hq1p
      obtain ⟨he1a, he1b⟩ := List.mem_filter.mp he1
      obtain ⟨he1e, he1s⟩ := (FlowNetwork.mem_outgoing_edges NS q1.2 e1).mp he1a
      rw [Option.bind_eq_some] at hGe1
      obtain ⟨sid1, hsid1, hsg1⟩ := hGe1
      have hmem1 := getByRight_mem _ _ _ hsid1
      have hsmem1 := submapGet_mem _ _ _ hsg1
      have hsid1e : sid1 = s.id := hb.subsOk.1 (sid1, s) hsmem1
      rw [hsid1e] at hmem1
      have hstopeq : e1.stop = e0.stop :=
        bimapok_left_unique _ hb.nOk s.id e1.stop e0.stop hmem1 hmem0
      have he1eq : (⟨q1.2, e0.stop⟩ : Edge) = e1 := by
        cases e1 with
        | mk a b =>
          dsimp only at he1s hstopeq
          rw [he1s, hstopeq]
      constructor
      · rw [he1eq]
        exact he1e
      · rw [he1eq]
        exact of_decide_eq_true he1b
    have hpw : (an.submitter_nodes.filter
        ((fun p => decide (s ∈ p.2)) ∘ fun p => (p.1, entryList an NS p.2))).Pairwise
        (fun p q => p.1 ≠ q.1 ∧ p.2 ≠ q.2) := List.Pairwise.filter _ hb.mOk
    have hmapnd : ((an.submitter_nodes.filter
        ((fun p => decide (s ∈ p.2)) ∘ fun p => (p.1, entryList an NS p.2))).map
        (fun q1 => (⟨q1.2, e0.stop⟩ : Edge))).Nodup := by
      refine List.Pairwise.map _ ?_ hpw
      intro a b hab hc
      exact hab.2 ((Edge.mk.injEq _ _ _ _).mp hc).1
    have hsubset : ∀ x ∈ (an.submitter_nodes.filter
        ((fun p => decide (s ∈ p.2)) ∘ fun p => (p.1, entryList an NS p.2))).map
        (fun q1 => (⟨q1.2, e0.stop⟩ : Edge)),
        x ∈ (NS.incoming_edges e0.stop).filter (fun e => decide (NS.flow e > 0)) := by
      intro x hx
      obtain ⟨q1, hq1, hq1e⟩ := List.mem_map.mp hx
      obtain ⟨hxe, hxf⟩ := hedge q1 hq1
      rw [← hq1e]
      refine List.mem_filter.mpr ⟨?_, decide_eq_true hxf⟩
      exact (FlowNetwork.mem_incoming_edges NS e0.stop _).mpr ⟨hxe, rfl⟩
    have hcount := length_le_of_nodup_subset _ _ hmapnd hsubset
    rw [List.length_map] at hcount
    have hlen2 := filter_pos_length_le_sum NS.flow (NS.incoming_edges e0.stop)
    have hinfl : NS.inflow e0.stop = ((NS.incoming_edges e0.stop).map NS.flow).sum := rfl
    have hbal : NS.inflow e0.stop = NS.outflow e0.stop := by
      apply dinic.inflow_eq_outflow_of_bal
      apply hinv.bal
      · rw [hS0]
        omega
      · rw [hS1]
        omega
    have houtfl : NS.outflow e0.stop ≤ NS.flow ⟨e0.stop, 1⟩ := by
      unfold FlowNetwork.outflow
      apply all_eq_nodup_sum_le
      · exact FlowNetwork.outgoing_edges_nodup NS e0.stop hinv.nodup
      · intro x hx
        obtain ⟨hxe, hxs⟩ := (FlowNetwork.mem_outgoing_edges NS e0.stop x).mp hx
        rw [hE] at hxe
        have hsx := hb.inv.shape x hxe
        unfold BuiltEdge at hsx
        rcases hsx with ⟨a1, a2, a3⟩ | ⟨a1, a2, a3⟩ | ⟨a1, a2, a3, a4, -⟩
        · exfalso
          omega
        · cases x with
          | mk a b =>
            dsimp only at a1 hxs
            rw [a1, hxs]
        · exfalso
          omega
    have hmemn := hb.inv.nCap (s.id, e0.stop) hmem0
    have hmemn1 : (⟨e0.stop, 1⟩ : Edge) ∈ an.network.edges := hmemn.1
    have hmemn2 : an.network.capacity ⟨e0.stop, 1⟩ = g := hmemn.2
    have hflowcap : NS.flow ⟨e0.stop, 1⟩ ≤ NS.capacity ⟨e0.stop, 1⟩ := by
      apply hinv.acap
      rw [hE]
      exact hmemn1
    have hcap : NS.capacity ⟨e0.stop, 1⟩ = g := by
      rw [hC]
      exact hmemn2
    rw [hfl] at hcount
    omega

end assignment_network

namespace assignment_service

open models

/-- With every channel send succeeding, the assignment pass walks the whole
list: late exchanges become MissedByBot, failed compute paths become
AssignmentError and the pass continues, successful ones become
AssignmentsSent. -/
theorem assignLoop_all_say (now : Int) (computeOk sayOk : Nat → Bool)
    (h : ∀ i, sayOk i = true) (l : List Exchange) :
    assignLoop now computeOk sayOk l =
      (l.map fun ex =>
        (ex.id,
          if now - ex.submissions_end > EXCHANGE_END_THRESHOLD then ExchangeState.MissedByBot
          else if computeOk ex.id then ExchangeState.AssignmentsSent
          else ExchangeState.AssignmentError), true) := by
  induction l with
  | nil => rfl
  | cons ex rest ih =>
    by_cases hl : now - ex.submissions_end > EXCHANGE_END_THRESHOLD
    · simp [assignLoop, hl, ih]
    · by_cases hc : computeOk ex.id
      · simp [assignLoop, hl, hc, h ex.id, ih]
      · simp [assignLoop, hl, hc, ih]

/-- With every channel send succeeding, the announcement pass walks the
whole list: late exchanges become MissedByBot without a message, the rest
are announced and become AcceptingSubmissions. -/
theorem announceLoop_all_say (now : Int) (sayOk : Nat → Bool)
    (h : ∀ i, sayOk i = true) (l : List Exchange) :
    announceLoop now sayOk l =
      (l.map fun ex =>
        (ex.id,
          if now - ex.submissions_start > EXCHANGE_START_THRESHOLD then ExchangeState.MissedByBot
          else ExchangeState.AcceptingSubmissions),
       (l.filter fun ex =>
          decide (¬ now - ex.submissions_start > EXCHANGE_START_THRESHOLD)).map (fun ex => ex.id),
       true) := by
  induction l with
  | nil => rfl
  | cons ex rest ih =>
    by_cases hl : now - ex.submissions_start > EXCHANGE_START_THRESHOLD
    · have hl' : ¬ (now ≤ EXCHANGE_START_THRESHOLD + ex.submissions_start) := by omega
      simp [announceLoop, hl, ih, List.filter_cons, hl']
    · have hl' : now ≤ EXCHANGE_START_THRESHOLD + ex.submissions_start := by omega
      simp [announceLoop, hl, h ex.id, ih, List.filter_cons, hl']

end assignment_service

theorem mem_sortedInsert {α : Type} (le : α → α → Bool) (x y : α) (l : List α) :
    y ∈ sortedInsert le x l ↔ y = x ∨ y ∈ l := by
  induction l with
  | nil => simp [sortedInsert]
  | cons z rest ih =>
    by_cases h : le x z
    · simp [sortedInsert, h]
    · simp [sortedInsert, h, ih]
      tauto

theorem mem_sortBy {α : Type} (le : α → α → Bool) (y : α) (l : List α) :
    y ∈ sortBy le l ↔ y ∈ l := by
  induction l with
  | nil => simp [sortBy]
  | cons x rest ih => simp [sortBy, mem_sortedInsert, ih]

namespace repository

open models

theorem mem_get_starting_exchanges (exchanges : List Exchange) (date : Int) (e : Exchange) :
    e ∈ get_starting_exchanges exchanges date ↔
      e ∈ exchanges ∧ e.state = ExchangeState.NotStartedYet ∧ e.submissions_start ≤ date := by
  simp [get_starting_exchanges, mem_sortBy, List.mem_filter]

theorem mem_get_ending_exchanges (exchanges : List Exchange) (date : Int) (e : Exchange) :
    e ∈ get_ending_exchanges exchanges date ↔
      e ∈ exchanges ∧ e.state = ExchangeState.AcceptingSubmissions ∧ e.submissions_end ≤ date := by
  simp [get_ending_exchanges, mem_sortBy, List.mem_filter]

end repository

theorem filter_length_lt_exists {α : Type} (p : α → Bool) (l : List α)
    (h : (l.filter p).length < l.length) : ∃ x ∈ l, p x = false := by
  induction l with
  | nil => simp at h
  | cons x rest ih =>
    by_cases hx : p x
    · simp [List.filter_cons, hx] at h
      obtain ⟨y, hy, hpy⟩ := ih (by omega)
      exact ⟨y, List.mem_cons_of_mem _ hy, hpy⟩
    · exact ⟨x, List.mem_cons_self x rest, by simpa using hx⟩

/-- C5: the submit conflict path at the failing input — the caller resubmits
their own unchanged link; the existing row has the same link and the same
submitter, yet the command replies with the team-rule user error because
submit.rs compares the links before the submitters. -/
theorem submit_own_link_team_error :
    commands.submit_conflict_check
      [{ id := 1, exchange_id := 4, link := "https://itch.io/jam/x/rate/1".data,
         submitter := 7, submitted_at := 10 }]
      { exchange_id := 4, link := "https://itch.io/jam/x/rate/1".data,
        submitter := 7, submitted_at := 20 }
      = commands.SubmitReply.teamRuleError := by
  rfl

/-- C4 (counterexample): two ending exchanges within END_THRESHOLD; the
compute-and-deliver path of the first fails at its last step (the closing
channel message).  The claim says the exchange is set to AssignmentError and
the scheduler continues with the next ending exchange; instead the whole
pass aborts with no state update at all, and exchange 2 is never processed. -/
theorem perform_assignments_say_failure_aborts :
    assignment_service.perform_assignments
      [{ id := 1, guild := 0, channel := 0, jam_type := .Itch, jam_link := [], slug := [],
         display_name := [], state := .AcceptingSubmissions, submissions_start := 0,
         submissions_end := 500, games_per_member := 1 },
       { id := 2, guild := 0, channel := 0, jam_type := .Itch, jam_link := [], slug := [],
         display_name := [], state := .AcceptingSubmissions, submissions_start := 0,
         submissions_end := 600, games_per_member := 1 }]
      1000 (fun _ => true) (fun i => decide (i ≠ 1))
      = ([], false) := by
  rfl

/-- C4 (amended): when every closing channel message sends, the assignment
pass handles every ending exchange — late ones become MissedByBot, failed
compute paths become AssignmentError and the pass continues, the rest become
AssignmentsSent; the delivery step attempts a DM for every user and its
outcome never depends on the per-user DM results; but when the closing
channel message of an exchange fails, the pass aborts with no state recorded
for that exchange and without processing the remaining ending exchanges. -/
theorem perform_assignments_error_handling :
    (∀ (exchanges : List models.Exchange) (now : Int) (computeOk sayOk : Nat → Bool),
       (∀ i, sayOk i = true) →
       assignment_service.perform_assignments exchanges now computeOk sayOk =
         ((repository.get_ending_exchanges exchanges now).map fun ex =>
           (ex.id,
             if now - ex.submissions_end > assignment_service.EXCHANGE_END_THRESHOLD then
               models.ExchangeState.MissedByBot
             else if computeOk ex.id then models.ExchangeState.AssignmentsSent
             else models.ExchangeState.AssignmentError), true)) ∧
    (∀ (loadOk : Bool) (asg : List (Nat × List models.Submission)) (dmOk dmOk' : Nat → Bool),
       assignment_service.perform_assignments_for_exchange loadOk asg dmOk =
         assignment_service.perform_assignments_for_exchange loadOk asg dmOk' ∧
       assignment_service.perform_assignments_for_exchange true asg dmOk =
         (asg.map (fun p => p.1), true)) ∧
    (∀ (now : Int) (computeOk sayOk : Nat → Bool) (ex : models.Exchange)
       (rest : List models.Exchange),
       ¬ now - ex.submissions_end > assignment_service.EXCHANGE_END_THRESHOLD →
       computeOk ex.id = true → sayOk ex.id = false →
       assignment_service.assignLoop now computeOk sayOk (ex :: rest) = ([], false)) := by
  refine ⟨?_, ?_, ?_⟩
  · intro exchanges now computeOk sayOk hsay
    exact assignment_service.assignLoop_all_say now computeOk sayOk hsay _
  · intro loadOk asg dmOk dmOk'
    exact ⟨rfl, rfl⟩
  · intro now computeOk sayOk ex rest hlate hc hs
    simp [assignment_service.assignLoop, hlate, hc, hs]

/-- Witness for the amended C4 theorem at concrete inputs. -/
theorem perform_assignments_error_handling_witness :
    assignment_service.perform_assignments
      [{ id := 1, guild := 0, channel := 0, jam_type := .Itch, jam_link := [], slug := [],
         display_name := [], state := .AcceptingSubmissions, submissions_start := 0,
         submissions_end := 500, games_per_member := 1 }]
      1000 (fun _ => false) (fun _ => true)
      = ([(1, models.ExchangeState.AssignmentError)], true) ∧
    assignment_service.perform_assignments_for_exchange true [(7, [])] (fun _ => false)
      = ([7], true) := by
  constructor
  · rw [perform_assignments_error_handling.1 _ 1000 (fun _ => false) (fun _ => true)
      (fun _ => rfl)]
    rfl
  · exact (perform_assignments_error_handling.2.1 true [(7, [])] (fun _ => false)
      (fun _ => true)).2

/-- C6 (counterexample): the submit path creates a submission while the
parent exchange is in state AssignmentsSent — the overlap lookup matches the
exchange by guild and slug without any state filter, and the entry link
normalises, so add_or_update_submission is reached. -/
theorem submit_reaches_insert_after_assignments_sent :
    (commands.submit_creates
      [{ id := 9, guild := 2, channel := 3, jam_type := .Itch,
         jam_link := "https://itch.io/jam/x".data, slug := "jam1".data,
         display_name := [], state := .AssignmentsSent,
         submissions_start := 0, submissions_end := 50, games_per_member := 2 }]
      2 3 "jam1".data 100 "https://itch.io/jam/x/rate/5".data).map
        (fun ex => (ex.id, ex.state))
      = some (9, models.ExchangeState.AssignmentsSent) := by
  rfl

/-- C6 (amended): revoke deletes a submission only while the parent exchange
is AcceptingSubmissions and otherwise reports false and leaves every row in
place; the submit path's exchange lookup, by contrast, reads only guild,
channel, time window and slug, so whether a submission row is created or
updated is independent of the exchange state. -/
theorem submission_lifecycle_gating :
    (∀ (exchanges : List models.Exchange) (subs : List models.Submission) (xid uid : Nat),
       (repository.revoke exchanges subs xid uid).2 = true →
       ∃ e ∈ exchanges, e.id = xid ∧ e.state = models.ExchangeState.AcceptingSubmissions) ∧
    (∀ (exchanges : List models.Exchange) (subs : List models.Submission) (xid uid : Nat),
       (¬ ∃ e ∈ exchanges, e.id = xid ∧ e.state = models.ExchangeState.AcceptingSubmissions) →
       repository.revoke exchanges subs xid uid = (subs, false)) ∧
    (∀ (σ : models.ExchangeState → models.ExchangeState) (exchanges : List models.Exchange)
       (guild channel : Nat) (slug : List Char) (start stop : Int),
       repository.get_overlapping_exchanges (exchanges.map (commands.stateMap σ))
           guild channel slug start stop
         = (repository.get_overlapping_exchanges exchanges guild channel slug start stop).map
             (commands.stateMap σ)) := by
  refine ⟨?_, ?_, ?_⟩
  · intro exchanges subs xid uid h
    simp only [repository.revoke, decide_eq_true_eq] at h
    obtain ⟨s, _, hdel⟩ := filter_length_lt_exists _ _ h
    have hd := of_decide_eq_true (by simpa using hdel)
    obtain ⟨hxid, _, e, he, heid, hest⟩ := hd
    exact ⟨e, he, hxid ▸ heid, hest⟩
  · intro exchanges subs xid uid h
    have hall : ∀ s ∈ subs,
        (! decide (s.exchange_id = xid ∧ s.submitter = uid ∧
          ∃ e ∈ exchanges, e.id = s.exchange_id ∧
            e.state = models.ExchangeState.AcceptingSubmissions)) = true := by
      intro s _
      simp only [Bool.not_eq_true', decide_eq_false_iff_not]
      rintro ⟨hxid, _, e, he, heid, hest⟩
      exact h ⟨e, he, hxid ▸ heid, hest⟩
    simp only [repository.revoke]
    rw [List.filter_eq_self.mpr hall]
    simp
  · intro σ exchanges guild channel slug start stop
    simp only [repository.get_overlapping_exchanges, List.filter_map]
    congr 1

/-- Witness for the amended C6 theorem at concrete inputs. -/
theorem submission_lifecycle_gating_witness :
    repository.revoke
      [{ id := 9, guild := 2, channel := 3, jam_type := .Itch,
         jam_link := "https://itch.io/jam/x".data, slug := "jam1".data,
         display_name := [], state := .AssignmentsSent,
         submissions_start := 0, submissions_end := 50, games_per_member := 2 }]
      [{ id := 1, exchange_id := 9, link := "https://itch.io/jam/x/rate/5".data,
         submitter := 7, submitted_at := 10 }] 9 7
      = ([{ id := 1, exchange_id := 9, link := "https://itch.io/jam/x/rate/5".data,
            submitter := 7, submitted_at := 10 }], false) := by
  apply submission_lifecycle_gating.2.1
  rintro ⟨e, he, -, hest⟩
  simp at he
  subst he
  simp at hest

namespace jam_types

theorem stripPre_eq_some (p : List Char) :
    ∀ (l r : List Char), stripPre p l = some r ↔ l = p ++ r := by
  induction p with
  | nil => intro l r; simp [stripPre]
  | cons c cs ih =>
    intro l r
    cases l with
    | nil => simp [stripPre]
    | cons d ds =>
      by_cases h : c = d
      · subst h; simp [stripPre, ih]
      · simp only [stripPre, if_neg h, List.cons_append, List.cons.injEq]
        constructor
        · intro hh; exact Option.noConfusion hh
        · rintro ⟨hdc, -⟩; exact absurd hdc.symm h

theorem takeWhile_ne_nil_iff_headD (p : Char → Bool) (l : List Char)
    (hd : p ' ' = false) :
    (l.takeWhile p ≠ []) ↔ p (l.head?.getD ' ') = true := by
  cases l with
  | nil => simp [hd]
  | cons c cs => by_cases h : p c <;> simp [List.takeWhile_cons, h]

theorem isDigitC_space : isDigitC ' ' = false := rfl

theorem isSlugC_space : isSlugC ' ' = false := rfl

theorem ratePat_length :
    ('/' :: 'r' :: 'a' :: 't' :: 'e' :: '/' :: ([] : List Char)).length = 6 := rfl

theorem matchRateAt_some (l : List Char) :
    matchRateAt l =
      if rateMatchAt l 0 then some ((l.drop 6).takeWhile isDigitC) else none := by
  unfold matchRateAt rateMatchAt
  cases hsp : stripPre ('/' :: 'r' :: 'a' :: 't' :: 'e' :: '/' :: []) l with
  | none =>
    have htake : ¬ l.take 6 = '/' :: 'r' :: 'a' :: 't' :: 'e' :: '/' :: [] := by
      intro habs
      have hl : l = ('/' :: 'r' :: 'a' :: 't' :: 'e' :: '/' :: []) ++ l.drop 6 := by
        conv_lhs => rw [← List.take_append_drop 6 l]
        rw [habs]
      rw [(stripPre_eq_some _ l (l.drop 6)).mpr hl] at hsp
      exact Option.noConfusion hsp
    simp [htake]
  | some rest =>
    have hl : l = ('/' :: 'r' :: 'a' :: 't' :: 'e' :: '/' :: []) ++ rest :=
      (stripPre_eq_some _ l rest).mp hsp
    subst hl
    rw [List.drop_zero, ← ratePat_length, List.take_left, List.drop_left]
    by_cases hds : rest.takeWhile isDigitC = []
    · have hh : isDigitC (rest.head?.getD ' ') = false := by
        rcases Bool.eq_false_or_eq_true (isDigitC (rest.head?.getD ' ')) with h | h
        · exact absurd ((takeWhile_ne_nil_iff_headD _ _ isDigitC_space).mpr h) (by simp [hds])
        · exact h
      simp [hds, hh]
    · have hh : isDigitC (rest.head?.getD ' ') = true :=
        (takeWhile_ne_nil_iff_headD _ _ isDigitC_space).mp hds
      simp [hds, hh]

theorem matchSlugAt_some (l : List Char) :
    matchSlugAt l =
      if slugMatchAt l 0 then some ((l.drop 1).takeWhile isSlugC) else none := by
  unfold matchSlugAt slugMatchAt
  cases l with
  | nil => simp
  | cons c cs =>
    by_cases hc : c = '/'
    · subst hc
      by_cases hss : cs.takeWhile isSlugC = []
      · have hh : isSlugC (cs.head?.getD ' ') = false := by
          rcases Bool.eq_false_or_eq_true (isSlugC (cs.head?.getD ' ')) with h | h
          · exact absurd ((takeWhile_ne_nil_iff_headD _ _ isSlugC_space).mpr h) (by simp [hss])
          · exact h
        simp [hss, hh]
      · have hh : isSlugC (cs.head?.getD ' ') = true :=
          (takeWhile_ne_nil_iff_headD _ _ isSlugC_space).mp hss
        simp [hss, hh]
    · simp [hc]

theorem rateMatchAt_shift (c : Char) (cs : List Char) (i : Nat) :
    rateMatchAt (c :: cs) (i + 1) = rateMatchAt cs i := by
  unfold rateMatchAt
  have h2 : i + 1 + 6 = (i + 6) + 1 := by omega
  rw [List.drop_succ_cons, h2, List.drop_succ_cons]

theorem slugMatchAt_shift (c : Char) (cs : List Char) (i : Nat) :
    slugMatchAt (c :: cs) (i + 1) = slugMatchAt cs i := by
  unfold slugMatchAt
  have h2 : i + 1 + 1 = (i + 1) + 1 := rfl
  rw [List.drop_succ_cons, h2, List.drop_succ_cons]

theorem firstRateIdx_cons (c : Char) (cs : List Char) :
    firstRateIdx (c :: cs) =
      if rateMatchAt (c :: cs) 0 then some 0
      else (firstRateIdx cs).map (fun i => i + 1) := by
  unfold firstRateIdx
  rw [show (c :: cs).length = cs.length + 1 from rfl, List.range_succ_eq_map]
  by_cases h : rateMatchAt (c :: cs) 0
  · simp [List.find?_cons, h]
  · rw [if_neg h]
    have hshift : (rateMatchAt (c :: cs)) ∘ Nat.succ = rateMatchAt cs := by
      funext i
      exact rateMatchAt_shift c cs i
    simp [List.find?_cons, h, List.find?_map, hshift]

theorem firstSlugIdx_cons (c : Char) (cs : List Char) :
    firstSlugIdx (c :: cs) =
      if slugMatchAt (c :: cs) 0 then some 0
      else (firstSlugIdx cs).map (fun i => i + 1) := by
  unfold firstSlugIdx
  rw [show (c :: cs).length = cs.length + 1 from rfl, List.range_succ_eq_map]
  by_cases h : slugMatchAt (c :: cs) 0
  · simp [List.find?_cons, h]
  · rw [if_neg h]
    have hshift : (slugMatchAt (c :: cs)) ∘ Nat.succ = slugMatchAt cs := by
      funext i
      exact slugMatchAt_shift c cs i
    simp [List.find?_cons, h, List.find?_map, hshift]

theorem scanRate_eq (t : List Char) :
    scanRate t = (firstRateIdx t).map (fun i => (t.drop (i + 6)).takeWhile isDigitC) := by
  induction t with
  | nil => simp [scanRate, firstRateIdx]
  | cons c cs ih =>
    rw [show scanRate (c :: cs) =
        (match matchRateAt (c :: cs) with
         | some ds => some ds
         | none => scanRate cs) from rfl]
    rw [matchRateAt_some, firstRateIdx_cons]
    by_cases h : rateMatchAt (c :: cs) 0
    · simp [h]
    · simp only [h, if_neg, Bool.false_eq_true, ite_false, ih, Option.map_map]
      congr 1

theorem scanSlug_eq (t : List Char) :
    scanSlug t = (firstSlugIdx t).map (fun i => (t.drop (i + 1)).takeWhile isSlugC) := by
  induction t with
  | nil => simp [scanSlug, firstSlugIdx]
  | cons c cs ih =>
    rw [show scanSlug (c :: cs) =
        (match matchSlugAt (c :: cs) with
         | some ss => some ss
         | none => scanSlug cs) from rfl]
    rw [matchSlugAt_some, firstSlugIdx_cons]
    by_cases h : slugMatchAt (c :: cs) 0
    · simp [h]
    · simp only [h, if_neg, Bool.false_eq_true, ite_false, ih, Option.map_map]
      congr 1

theorem slugMatchAt_takeWhile_ne_nil (t : List Char) (i : Nat)
    (h : slugMatchAt t i = true) : (t.drop (i + 1)).takeWhile isSlugC ≠ [] := by
  unfold slugMatchAt at h
  rw [Bool.and_eq_true] at h
  apply (takeWhile_ne_nil_iff_headD _ _ isSlugC_space).mpr
  rw [← List.headD_eq_head?]
  exact h.2

end jam_types

/-- C9 (counterexample): the entry link is the jam link followed by
/rate/12/extra — the tail does not match the anchored shape /rate/[0-9]+/?$
claimed by the spec, yet normalize_jam_entry_link accepts it (and
canonicalises to /rate/12), because regex_captures performs an unanchored
search over the tail. -/
theorem normalize_entry_link_unanchored :
    jam_types.normalize_jam_entry_link .Itch
        "https://itch.io/jam/x".data "https://itch.io/jam/x/rate/12/extra".data
      = some "https://itch.io/jam/x/rate/12".data ∧
    jam_types.stripPre "https://itch.io/jam/x".data
        "https://itch.io/jam/x/rate/12/extra".data = some "/rate/12/extra".data ∧
    jam_types.itchTailAnchored "/rate/12/extra".data = false := by
  refine ⟨?_, ?_, ?_⟩ <;> rfl

/-- C9 (amended): normalize_jam_entry_link strips the jam link off the entry
link and then performs an unanchored leftmost search of the tail: for Itch
it returns Some(jam_link + "/rate/" + id) where id is the maximal digit run
of the leftmost /rate/[0-9]+ occurrence anywhere in the tail, and None when
there is none; for Ludum Dare it takes the maximal [a-z0-9-] run of the
leftmost /[a-z0-9-] occurrence anywhere in the tail, returns None when that
run is one of results, games, theme, stats, and Some(jam_link + "/" + slug)
otherwise.  Nothing anchors the match to the end (or the start) of the
tail. -/
theorem normalize_entry_link_characterized (jt : jam_types.JamType)
    (jam_link entry_link : List Char) :
    jam_types.normalize_jam_entry_link jt jam_link entry_link =
      jam_types.normalizeEntryLinkSpec jt jam_link entry_link := by
  cases jt with
  | Itch =>
    unfold jam_types.normalize_jam_entry_link jam_types.normalizeEntryLinkSpec
    cases hsp : jam_types.stripPre jam_link entry_link with
    | none => rfl
    | some t =>
      simp only [Option.some_bind, jam_types.scanRate_eq, Option.map_map]
      cases jam_types.firstRateIdx t <;> rfl
  | LudumDare =>
    unfold jam_types.normalize_jam_entry_link jam_types.normalizeEntryLinkSpec
    cases hsp : jam_types.stripPre jam_link entry_link with
    | none => rfl
    | some t =>
      simp only [Option.some_bind, jam_types.scanSlug_eq]
      cases hidx : jam_types.firstSlugIdx t with
      | none => rfl
      | some i =>
        have hidx' : (List.range t.length).find? (jam_types.slugMatchAt t) = some i := by
          unfold jam_types.firstSlugIdx at hidx
          exact hidx
        have hmatch : jam_types.slugMatchAt t i = true := List.find?_some hidx'
        have hne := jam_types.slugMatchAt_takeWhile_ne_nil t i hmatch
        by_cases hforb : jam_types.forbiddenSlug ((t.drop (i + 1)).takeWhile jam_types.isSlugC)
        · simp [hforb]
        · simp [hforb, hne]

namespace dinic

open flow_network networks

theorem residual_loopNetAt (j : Nat) :
    construct_residual_graph (loopNetAt (j + 1)) (FlowNetwork.empty 0 1) =
      loopResidual j := by
  have h1 : ¬ ((1 : Nat) > j + 1) := by omega
  have h2 : (0 : Nat) < j + 1 := Nat.succ_pos j
  simp [construct_residual_graph, loopNetAt, mkNet, FlowNetwork.clear, FlowNetwork.empty,
    FlowNetwork.add_edge, FlowNetwork.capacity, FlowNetwork.flow, emapGet, emapPut,
    Edge.opposite, loopResidual, h1, h2]

theorem level_graph_loopResidual (j : Nat) :
    construct_level_graph (loopResidual j) (bfsFuelFor (loopResidual j)) = loopBfs := rfl

theorem blocking_loopBfs :
    blockingLoop (dfsFuelFor loopBfs.level_graph) (blockFuelFor loopBfs.level_graph)
      loopBfs.level_graph false = (loopLevelFlows, true, true) := rfl

theorem applyFlows_loopNetAt (j : Nat) :
    applyFlows (loopNetAt (j + 1)) loopLevelFlows = loopNetAt (j + 1 + 1) := rfl

/-- One phase of the solver on the loopNet family: the augmenting path
0 -> 2 -> 1 is found again and again, each time raising the flows on (0,2)
and (2,1) by one, because the residual edges it uses are regenerated from
the frozen circulation flows on (2,0) and (1,2). -/
theorem phase_loopNetAt (k : Nat) :
    phase (loopNetAt k) =
      { network := loopNetAt (k + 1), hasBlocking := true, ok := true } := by
  match k with
  | 0 => rfl
  | j + 1 =>
    show phaseOnResidual (loopNetAt (j + 1))
        (construct_residual_graph (loopNetAt (j + 1)) (FlowNetwork.empty 0 1)) =
      { network := loopNetAt (j + 1 + 1), hasBlocking := true, ok := true }
    rw [residual_loopNetAt j]
    show phaseOnLevel (loopNetAt (j + 1))
        (construct_level_graph (loopResidual j) (bfsFuelFor (loopResidual j))) =
      { network := loopNetAt (j + 1 + 1), hasBlocking := true, ok := true }
    rw [level_graph_loopResidual j]
    show ({ network := applyFlows (loopNetAt (j + 1)) loopLevelFlows,
            hasBlocking := true, ok := true && true } : PhaseResult) =
      { network := loopNetAt (j + 1 + 1), hasBlocking := true, ok := true }
    rw [applyFlows_loopNetAt j]
    rfl

/-- The termination flag of solve stays false forever on the loopNet
family. -/
theorem solve_loopNetAt_false (fuel : Nat) :
    ∀ k, (solve fuel (loopNetAt k)).2 = false := by
  induction fuel with
  | zero => intro k; rfl
  | succ f ih =>
    intro k
    show (solve (f + 1) (loopNetAt k)).2 = false
    simp [solve, phase_loopNetAt k, ih (k + 1)]

end dinic

/-- C10 (counterexample): loopNet carries a feasible flow — it satisfies
every FlowNetwork::validate invariant with total flow 0 — and dinic::solve
never terminates on it: no amount of outer-loop fuel reaches the break. -/
theorem solve_diverges_on_feasible_flow :
    networks.loopNet.validate none = true ∧
    networks.loopNet.validate (some 0) = true ∧
    ¬ dinic.SolveTerminates networks.loopNet := by
  refine ⟨rfl, rfl, ?_⟩
  rintro ⟨fuel, h⟩
  rw [show networks.loopNet = networks.loopNetAt 0 from rfl,
    dinic.solve_loopNetAt_false fuel 0] at h
  exact Bool.noConfusion h

/-- C3 (counterexample): pairNet starts with every flow zero, the solver
runs to completion, and the resulting network violates validate: the edge
(2,3) ends with flow 2 over capacity 1.  The third augmenting path crosses
the saturated edge (2,3) through a residual capacity that was written from
the flow on the antiparallel edge (3,2), but the adjustment loop credits
the forward edge (2,3) itself. -/
theorem solve_pairNet_invalid :
    networks.pairNet.edges.all (fun e => decide (networks.pairNet.flow e = 0)) = true ∧
    (dinic.solve 10 networks.pairNet).2 = true ∧
    (dinic.solve 10 networks.pairNet).1.validate none = false ∧
    (dinic.solve 10 networks.pairNet).1.flow ⟨2, 3⟩ = 2 ∧
    (dinic.solve 10 networks.pairNet).1.capacity ⟨2, 3⟩ = 1 := by
  refine ⟨rfl, rfl, rfl, rfl, rfl⟩

/-- C3 (amended): on a network with duplicate-free edges, no antiparallel
edge pair, distinct source and sink, and every flow starting at zero, the
network left by dinic::solve satisfies every well-formedness invariant
checked by FlowNetwork::validate: on every edge 0 ≤ flow ≤ capacity, at
every vertex other than source and sink the sum of incoming flows equals
the sum of outgoing flows, and the total outgoing flow at the source
equals the total incoming flow at the sink. -/
theorem dinic_solve_validates (n : flow_network.FlowNetwork)
    (hnd : n.edges.Nodup)
    (hnoap : ∀ e ∈ n.edges, e.opposite ∉ n.edges)
    (hst : n.source ≠ n.sink) (hz : ∀ x, n.flow x = 0) (fuel : Nat) :
    ((dinic.solve fuel n).1).validate
      (some ((dinic.solve fuel n).1.outflow n.source)) = true := by
  have hinv : dinic.NetInvC3 n :=
    ⟨hnd, hnoap, hst, fun e _ => by rw [hz e]; exact Nat.zero_le _,
      fun v _ _ => dinic.netBalance_zero_of_allzero n hz v,
      fun e _ _ => hz e, fun e _ _ => hz e⟩
  have hsrc := dinic.solve_source fuel n
  rw [← hsrc]
  exact dinic.validate_of_inv _ (dinic.solve_C3 fuel n hinv)

/-- Witness for the amended C3 theorem: the concrete two-edge chain
0 -> 2 -> 1 with five units of outer fuel. -/
theorem dinic_solve_validates_witness :
    ((dinic.solve 5 networks.chainNet).1).validate
      (some ((dinic.solve 5 networks.chainNet).1.outflow networks.chainNet.source)) =
      true :=
  dinic_solve_validates networks.chainNet (by decide) (by decide) (by decide)
    (fun x => dinic.emapGet_zero_of_all networks.chainNet.flows (by decide) x) 5

/-- C10 (amended): dinic::solve terminates on every network with a
duplicate-free edge list whose edges all start with flow 0: some amount of
outer-loop fuel makes the phase loop exit through its break with the BFS,
DFS and blocking-flow inner loops all having run to completion. -/
theorem dinic_solve_terminates (n : flow_network.FlowNetwork)
    (hnd : n.edges.Nodup) (hz : ∀ x, n.flow x = 0) :
    dinic.SolveTerminates n := by
  refine ⟨dinic.solveFuel n, ?_⟩
  have hinv : dinic.NetInvT n :=
    ⟨hnd, fun e _ _ => by rw [hz e]; exact Nat.zero_le _, fun e _ _ => hz e⟩
  apply dinic.solve_ok (dinic.solveFuel n) n hinv
  unfold dinic.solveFuel
  have hs := Nat.sub_le (((n.outgoing_edges n.source).map n.capacity).sum)
    (n.outflow n.source)
  omega

/-- Witness for the amended C10 theorem: solve terminates on the concrete
zero-flow network pairNet. -/
theorem dinic_solve_terminates_witness : dinic.SolveTerminates networks.pairNet :=
  dinic_solve_terminates networks.pairNet (by decide)
    (fun x => dinic.emapGet_zero_of_all networks.pairNet.flows (by decide) x)

/-- C7: construct_level_graph follows the specification's inclusion rule
exactly.  The code includes a popped residual edge (u,v) when level(v) is
unknown or level(u)+1 is AT MOST the known level(v); the specification says
unknown or EQUAL.  The two coincide on every residual graph and every fuel,
because any level already recorded for the stop of a queued edge is at most
the candidate level its pop computes, so the code's comparison can only
fire on equality, and then the recorded level is rewritten with its own
value. -/
theorem construct_level_graph_follows_spec (rg : flow_network.FlowNetwork)
    (fuel : Nat) :
    dinic.construct_level_graph rg fuel = dinic.spec_construct_level_graph rg fuel := by
  unfold dinic.construct_level_graph dinic.spec_construct_level_graph
  exact dinic.bfsLoop_eq_spec rg fuel _ (dinic.bfsEq_init rg)

/-- C2: on a network with distinct source and sink whose edges all start
with flow 0, once dinic::solve exits through its break (no blocking flow
found, every inner loop drained), no augmenting path from source to sink
exists in the residual graph of the resulting network: the final BFS levels
every residual-reachable vertex, every leveled vertex is reachable inside
the level graph, and the final drained DFS certifies that no level-graph
path reaches the sink. -/
theorem solve_no_augmenting_path (n : flow_network.FlowNetwork)
    (hst : n.source ≠ n.sink) (hz : ∀ x, n.flow x = 0) (fuel : Nat)
    (hdone : (dinic.solve fuel n).2 = true) (p : List flow_network.Edge) :
    dinic.isAugPath (dinic.solve fuel n).1 p = false := by
  have hz2 : (dinic.solve fuel n).1.source ≠ (dinic.solve fuel n).1.sink := by
    rw [dinic.solve_source, dinic.solve_sink]
    exact hst
  exact dinic.phase_no_aug (dinic.solve fuel n).1 hz2
    (dinic.solve_final_phase fuel n hdone) p

/-- Witness for the C2 theorem: the two-lane network pairNet with ten units
of outer fuel and the candidate path consisting of the single edge 0 -> 2. -/
theorem solve_no_augmenting_path_witness :
    dinic.isAugPath (dinic.solve 10 networks.pairNet).1
      [(⟨0, 2⟩ : flow_network.Edge)] = false :=
  solve_no_augmenting_path networks.pairNet (by decide)
    (fun x => dinic.emapGet_zero_of_all networks.pairNet.flows (by decide) x) 10 rfl
    [(⟨0, 2⟩ : flow_network.Edge)]

/-- C1: for every exchange, submission list and played-games list, each
entry (u, l) of the assignment map produced by AssignmentNetwork::build
followed by dinic::solve and get_assignments is valid: (a) no submission
in l was submitted by u; (b) no submission in l has a link among u's
played games; (c) l has at most games_per_member entries; and (d) any
given submission appears in at most games_per_member of the map's lists.
(a) and (b) are structural: every positive-flow middle edge out of u's
vertex was added by build, which skips self-review and played links and
keeps both node bimaps two-sided-unique.  (c) and (d) follow from flow
conservation in the solved network: a submitter vertex's only in-edge is
its capacity-games_per_member source edge, a submission vertex's only
out-edge is its capacity-games_per_member sink edge, and the solver
preserves the validate invariants on the built (duplicate-free,
antiparallel-free, zero-flow) network. -/
theorem assignment_validity (exchange : models.Exchange)
    (submissions : List models.Submission)
    (played_games : List models.PlayedGame) (fuel : Nat) (u : Nat)
    (l : List models.Submission) (s : models.Submission)
    (hul : (u, l) ∈ assignment_network.solvedAssignments exchange submissions
      played_games fuel) :
    (∀ t ∈ l, t.submitter ≠ u) ∧
    (∀ t ∈ l, t.link ∉ assignment_network.playedLinks played_games u) ∧
    l.length ≤ exchange.games_per_member ∧
    (assignment_network.solvedAssignments exchange submissions played_games
      fuel).countP (fun p => decide (s ∈ p.2)) ≤ exchange.games_per_member := by
  have hbuild := assignment_network.build_ok exchange submissions played_games
  have hinv := dinic.solve_C3 fuel _ (assignment_network.netinv_of_buildok hbuild)
  have hE := dinic.solve_edges fuel
    (assignment_network.build exchange submissions played_games).network
  have hC := dinic.solve_capacity fuel
    (assignment_network.build exchange submissions played_games).network
  have hS0 : (dinic.solve fuel (assignment_network.build exchange submissions
      played_games).network).1.source = 0 := by
    rw [dinic.solve_source]
    exact hbuild.inv.src
  have hS1 : (dinic.solve fuel (assignment_network.build exchange submissions
      played_games).network).1.sink = 1 := by
    rw [dinic.solve_sink]
    exact hbuild.inv.snk
  have hul2 : (u, l) ∈ (assignment_network.build exchange submissions
      played_games).submitter_nodes.map
      (fun p => (p.1, assignment_network.entryList
        (assignment_network.build exchange submissions played_games)
        (dinic.solve fuel (assignment_network.build exchange submissions
          played_games).network).1 p.2)) := hul
  have hent := assignment_network.assignments_entry exchange.games_per_member
    played_games _ hbuild _ hE hC hinv hS0 hS1 u l hul2
  have hcnt := assignment_network.assignments_count exchange.games_per_member
    played_games _ hbuild _ hE hC hinv hS0 hS1 s
  exact ⟨hent.1, hent.2.1, hent.2.2, hcnt⟩

/-- Witness for the C1 theorem: an exchange with games_per_member 1, two
submissions by users 10 and 20, no played games and five units of outer
fuel; user 10 is assigned exactly the other user's submission. -/
theorem assignment_validity_witness :
    (∀ t ∈ [(⟨2, 1, ['b'], 20, 0⟩ : models.Submission)], t.submitter ≠ 10) ∧
    (∀ t ∈ [(⟨2, 1, ['b'], 20, 0⟩ : models.Submission)],
      t.link ∉ assignment_network.playedLinks [] 10) ∧
    [(⟨2, 1, ['b'], 20, 0⟩ : models.Submission)].length ≤ 1 ∧
    (assignment_network.solvedAssignments
        ⟨1, 2, 3, jam_types.JamType.Itch, [], [], [],
          models.ExchangeState.AcceptingSubmissions, 0, 0, 1⟩
        [⟨1, 1, ['a'], 10, 0⟩, ⟨2, 1, ['b'], 20, 0⟩] [] 5).countP
      (fun p => decide ((⟨2, 1, ['b'], 20, 0⟩ : models.Submission) ∈ p.2)) ≤ 1 :=
  assignment_validity
    ⟨1, 2, 3, jam_types.JamType.Itch, [], [], [],
      models.ExchangeState.AcceptingSubmissions, 0, 0, 1⟩
    [⟨1, 1, ['a'], 10, 0⟩, ⟨2, 1, ['b'], 20, 0⟩] [] 5 10
    [⟨2, 1, ['b'], 20, 0⟩] ⟨2, 1, ['b'], 20, 0⟩ (by decide)

/-- C8: a NotStartedYet exchange processed at exactly submissions_start is
announced and transitions to AcceptingSubmissions (the repository query and
the lateness check are both inclusive), while one processed more than
START_THRESHOLD after submissions_start transitions to MissedByBot with no
opening announcement. -/
theorem announce_boundary (exchanges : List models.Exchange) (ex : models.Exchange)
    (now : Int) (sayOk : Nat → Bool)
    (hmem : ex ∈ exchanges) (hstate : ex.state = models.ExchangeState.NotStartedYet)
    (hsay : ∀ i, sayOk i = true)
    (hids : (exchanges.map (fun e => e.id)).Nodup) :
    (now = ex.submissions_start →
      (ex.id, models.ExchangeState.AcceptingSubmissions) ∈
        (assignment_service.announce_exchange_submissions_open exchanges now sayOk).1 ∧
      ex.id ∈ (assignment_service.announce_exchange_submissions_open exchanges now sayOk).2.1) ∧
    (now - ex.submissions_start > assignment_service.EXCHANGE_START_THRESHOLD →
      (ex.id, models.ExchangeState.MissedByBot) ∈
        (assignment_service.announce_exchange_submissions_open exchanges now sayOk).1 ∧
      ex.id ∉ (assignment_service.announce_exchange_submissions_open exchanges now sayOk).2.1) := by
  have hinj := List.inj_on_of_nodup_map hids
  unfold assignment_service.announce_exchange_submissions_open
  rw [assignment_service.announceLoop_all_say now sayOk hsay]
  constructor
  · intro hnow
    have hL : ex ∈ repository.get_starting_exchanges exchanges now :=
      (repository.mem_get_starting_exchanges exchanges now ex).mpr
        ⟨hmem, hstate, le_of_eq hnow.symm⟩
    have hlate : ¬ now - ex.submissions_start > assignment_service.EXCHANGE_START_THRESHOLD := by
      simp [assignment_service.EXCHANGE_START_THRESHOLD]
      omega
    constructor
    · exact List.mem_map.mpr ⟨ex, hL, by simp [hlate]⟩
    · exact List.mem_map.mpr ⟨ex, List.mem_filter.mpr ⟨hL, by simpa using hlate⟩, rfl⟩
  · intro hlate
    have hL : ex ∈ repository.get_starting_exchanges exchanges now :=
      (repository.mem_get_starting_exchanges exchanges now ex).mpr
        ⟨hmem, hstate, by
          simp [assignment_service.EXCHANGE_START_THRESHOLD] at hlate
          omega⟩
    constructor
    · exact List.mem_map.mpr ⟨ex, hL, by simp [hlate]⟩
    · intro hmsg
      obtain ⟨e, hef, heid⟩ := List.mem_map.mp hmsg
      have heL := (List.mem_filter.mp hef).1
      have hep := (List.mem_filter.mp hef).2
      have hemem := ((repository.mem_get_starting_exchanges exchanges now e).mp heL).1
      have : e = ex := hinj hemem hmem heid
      subst this
      simp [hlate] at hep

/-- Witness for the C8 theorem at concrete inputs: one exchange opening at
time 100, scheduler tick at exactly 100. -/
theorem announce_boundary_witness :
    (1, models.ExchangeState.AcceptingSubmissions) ∈
      (assignment_service.announce_exchange_submissions_open
        [{ id := 1, guild := 0, channel := 0, jam_type := .Itch, jam_link := [], slug := [],
           display_name := [], state := .NotStartedYet, submissions_start := 100,
           submissions_end := 200, games_per_member := 1 }]
        100 (fun _ => true)).1 := by
  exact ((announce_boundary _ _ 100 _ (List.mem_singleton.mpr rfl) rfl
    (fun _ => rfl) (by simp)).1 rfl).1

end RatingExchange
